import Mathlib

/-!
# Deadlock detector (`dead_lock_detect_tool/dead_lock.c`)

A shallow embedding of the directed graph, the vertex registry and the mutex
hooks of the runtime deadlock detector, followed by theorems about them.

Conventions of the embedding

* A C `int` index is an `Int`; the guards of the source are kept as they are.
* The singly linked adjacency list of a vertex is a `List Int` whose head is the
  head node; `adj_lists` and `vertex_data` are lists indexed by the vertex.
* A `NULL` payload is `none`.
* `malloc` is taken to succeed for adjacency nodes and for the scratch arrays of
  the cycle search (the source dereferences the result of `create_adjnode`
  unchecked); the payload copy is the `copy_data_function` of the graph and may
  fail.
* The recursion of `search_cycle_util` is bounded by a fuel argument; memory
  accesses outside an array are reported as `Fault.out_of_bounds`.
-/

namespace DeadLock

/-! ## The directed graph -/

/-- The graph of the source: `num_vertices`, one adjacency list and one payload
slot per vertex, and the copy function given to `create_graph`. The free and
print functions have no effect on the state and are left out. -/
structure DirectedGraph (α : Type) where
  num_vertices : Nat
  adj_lists : List (List Int)
  vertex_data : List (Option α)
  copy_data_function : α → Option α

/-- Allocation of a graph by `create_graph`: empty lists and null payloads. -/
def create_graph {α : Type} (num_vertices : Nat) (copy_func : α → Option α) :
    DirectedGraph α :=
  { num_vertices := num_vertices
    adj_lists := List.replicate num_vertices []
    vertex_data := List.replicate num_vertices none
    copy_data_function := copy_func }

/-- The two arrays of a graph have `num_vertices` entries. -/
def DirectedGraph.Shaped {α : Type} (g : DirectedGraph α) : Prop :=
  g.adj_lists.length = g.num_vertices ∧ g.vertex_data.length = g.num_vertices

instance {α : Type} (g : DirectedGraph α) : Decidable g.Shaped := by
  unfold DirectedGraph.Shaped
  infer_instance

/-- Every stored destination is an index of the graph. -/
def DirectedGraph.DestsInRange {α : Type} (g : DirectedGraph α) : Prop :=
  ∀ l ∈ g.adj_lists, ∀ d ∈ l, 0 ≤ d ∧ d < (g.num_vertices : Int)

instance {α : Type} (g : DirectedGraph α) : Decidable g.DestsInRange := by
  unfold DirectedGraph.DestsInRange
  infer_instance

/-- The adjacency list of vertex `v` (empty outside the array). -/
def DirectedGraph.adj {α : Type} (g : DirectedGraph α) (v : Int) : List Int :=
  if v < 0 then [] else g.adj_lists.getD v.toNat []

/-- The function `set_vertex_data`: `data` is `none` for a null pointer. -/
def set_vertex_data {α : Type} (graph : DirectedGraph α) (vertex : Int)
    (data : Option α) : Bool × DirectedGraph α :=
  match data with
  | none => (false, graph)
  | some d =>
    if vertex < 0 ∨ vertex ≥ (graph.num_vertices : Int) then (false, graph)
    else
      let copied := graph.copy_data_function d
      (copied.isSome,
        { graph with vertex_data := graph.vertex_data.set vertex.toNat copied })

/-- The function `add_edge`: head insertion, nothing outside the range. -/
def add_edge {α : Type} (graph : DirectedGraph α) (src dest : Int) : DirectedGraph α :=
  if src < 0 ∨ src ≥ (graph.num_vertices : Int) ∨ dest < 0 ∨
      dest ≥ (graph.num_vertices : Int) then graph
  else
    { graph with
      adj_lists := graph.adj_lists.set src.toNat (dest :: graph.adj src) }

/-- The scan of `remove_edge` behind the head: walks to the first node whose
destination is `dest` and unlinks it; `none` when the walk reaches the end. -/
def unlink_first (dest : Int) : List Int → Option (List Int)
  | [] => none
  | d :: rest =>
    if d ≠ dest then (unlink_first dest rest).map (fun r => d :: r)
    else some rest

/-- The function `remove_edge`: returns whether a node was removed. -/
def remove_edge {α : Type} (graph : DirectedGraph α) (src dest : Int) :
    Bool × DirectedGraph α :=
  if src < 0 ∨ src ≥ (graph.num_vertices : Int) ∨ dest < 0 ∨
      dest ≥ (graph.num_vertices : Int) then (false, graph)
  else
    match graph.adj src with
    | [] => (false, graph)
    | d :: rest =>
      if d = dest then
        (true, { graph with adj_lists := graph.adj_lists.set src.toNat rest })
      else
        match unlink_first dest (d :: rest) with
        | none => (false, graph)
        | some l => (true, { graph with adj_lists := graph.adj_lists.set src.toNat l })

/-- The second loop of `remove_vertex`: for the sources `i`, `i + 1`, … with
`remaining` of them to go, one call of `remove_edge(i, vertex)` unless `i` is
the vertex itself. -/
def remove_incoming {α : Type} (vertex : Int) :
    Nat → Nat → DirectedGraph α → DirectedGraph α
  | 0, _, graph => graph
  | remaining + 1, i, graph =>
    remove_incoming vertex remaining (i + 1)
      (if (i : Int) ≠ vertex then (remove_edge graph (i : Int) vertex).2 else graph)

/-- The first part of `remove_vertex`: the payload of the vertex is freed and
set to null and its list of outgoing edges is emptied. -/
def clear_vertex {α : Type} (graph : DirectedGraph α) (vertex : Int) : DirectedGraph α :=
  { graph with
    vertex_data := graph.vertex_data.set vertex.toNat none
    adj_lists := graph.adj_lists.set vertex.toNat [] }

/-- The function `remove_vertex`: the vertex is cleared, then the loop over the
other vertices runs. -/
def remove_vertex {α : Type} (graph : DirectedGraph α) (vertex : Int) :
    Bool × DirectedGraph α :=
  if vertex < 0 ∨ vertex ≥ (graph.num_vertices : Int) then (false, graph)
  else
    (true, remove_incoming vertex graph.num_vertices 0 (clear_vertex graph vertex))

/-! ## Cycle search -/

/-- Ways in which the embedded search can fail to return a verdict. -/
inductive Fault where
  | out_of_bounds
  | out_of_fuel
  deriving DecidableEq, Repr

deriving instance DecidableEq for Except

/-- Read of `a[i]` in a `bool` array. -/
def read_flag (a : List Bool) (i : Int) : Option Bool :=
  if i < 0 then none else a[i.toNat]?

/-- Write of `a[i] = b` in a `bool` array. -/
def write_flag (a : List Bool) (i : Int) (b : Bool) : Option (List Bool) :=
  if i < 0 then none
  else if i.toNat < a.length then some (a.set i.toNat b) else none

/-- Result of one call of `search_cycle_util`: the verdict and the two arrays. -/
abbrev SearchResult := Except Fault (Bool × List Bool × List Bool)

/-- The `while` loop of `search_cycle_util` over the adjacency nodes; `recur` is
the recursive call. A result `false` means the loop ran to the end. -/
def search_cycle_loop (recur : Int → List Bool → List Bool → SearchResult) :
    List Int → List Bool → List Bool → SearchResult
  | [], visited, rec_stack => .ok (false, visited, rec_stack)
  | adj_vertex :: rest, visited, rec_stack =>
    match read_flag visited adj_vertex with
    | none => .error .out_of_bounds
    | some false =>
      match recur adj_vertex visited rec_stack with
      | .error e => .error e
      | .ok (true, visited1, rec_stack1) => .ok (true, visited1, rec_stack1)
      | .ok (false, visited1, rec_stack1) =>
        search_cycle_loop recur rest visited1 rec_stack1
    | some true =>
      match read_flag rec_stack adj_vertex with
      | none => .error .out_of_bounds
      | some true => .ok (true, visited, rec_stack)
      | some false => search_cycle_loop recur rest visited rec_stack

/-- The function `search_cycle_util`; the first argument bounds the depth of the
recursion. -/
def search_cycle_util {α : Type} (graph : DirectedGraph α) :
    Nat → Int → List Bool → List Bool → SearchResult
  | 0, _, _, _ => .error .out_of_fuel
  | fuel + 1, vertex, visited, rec_stack =>
    if vertex ≥ (graph.num_vertices : Int) then .ok (false, visited, rec_stack)
    else if vertex < 0 then .error .out_of_bounds
    else
      match graph.adj_lists[vertex.toNat]? with
      | none => .error .out_of_bounds
      | some curr =>
        match write_flag visited vertex true with
        | none => .error .out_of_bounds
        | some visited1 =>
          match write_flag rec_stack vertex true with
          | none => .error .out_of_bounds
          | some rec_stack1 =>
            match search_cycle_loop (search_cycle_util graph fuel) curr visited1
                rec_stack1 with
            | .error e => .error e
            | .ok (true, visited2, rec_stack2) => .ok (true, visited2, rec_stack2)
            | .ok (false, visited2, rec_stack2) =>
              match write_flag rec_stack2 vertex false with
              | none => .error .out_of_bounds
              | some rec_stack3 => .ok (false, visited2, rec_stack3)

/-- The function `search_cycle`: fresh zeroed arrays, then the recursive search.
The recursion never nests deeper than the number of vertices, which is the fuel. -/
def search_cycle {α : Type} (graph : DirectedGraph α) (start_vertex : Int) :
    Except Fault Bool :=
  if start_vertex ≥ (graph.num_vertices : Int) then .ok false
  else
    match search_cycle_util graph graph.num_vertices start_vertex
        (List.replicate graph.num_vertices false)
        (List.replicate graph.num_vertices false) with
    | .error e => .error e
    | .ok (has_cycle, _, _) => .ok has_cycle

/-! ## The vertex registry and the hooks -/

/-- Capacity of the registry and of the graph of the detector. -/
def MAX_VERTICES : Nat := 100

/-- The discriminator of a vertex. -/
inductive VertexType where
  | VERTEX_TYPE_THREAD
  | VERTEX_TYPE_MUTEX
  deriving DecidableEq, Repr

/-- The payload of a vertex. The field `id` is the union of the source: the
members `thread_id` and `mutex_addr` share its storage. -/
structure VertexData where
  type : VertexType
  id : Nat
  deriving DecidableEq, Repr

/-- Member `id.thread_id` of the union. -/
def VertexData.thread_id (d : VertexData) : Nat := d.id

/-- Member `id.mutex_addr` of the union. -/
def VertexData.mutex_addr (d : VertexData) : Nat := d.id

/-- The local `thread_data` of the hooks. -/
def thread_data (tid : Nat) : VertexData := ⟨VertexType.VERTEX_TYPE_THREAD, tid⟩

/-- The local `mutex_data` of the hooks. -/
def mutex_data (mtx : Nat) : VertexData := ⟨VertexType.VERTEX_TYPE_MUTEX, mtx⟩

/-- The function `copy_vertex_data`, with a successful `malloc`. -/
def copy_vertex_data (data : VertexData) : Option VertexData := some data

/-- The globals of the detector. A function pointer is `true` once resolved. -/
structure Detector where
  pthread_create_f : Bool
  pthread_mutex_lock_f : Bool
  pthread_mutex_unlock_f : Bool
  g_graph : Option (DirectedGraph VertexData)
  g_next_vertex : Nat
  g_init_complete : Bool

/-- The globals as the loader initialises them. -/
def Detector.startup : Detector :=
  { pthread_create_f := false
    pthread_mutex_lock_f := false
    pthread_mutex_unlock_f := false
    g_graph := none
    g_next_vertex := 0
    g_init_complete := false }

/-- The function `init_hook_once`. The arguments say whether each `dlsym`
lookup and the allocation of the graph succeed. -/
def init_hook_once (st : Detector) (sym_create sym_lock sym_unlock graph_alloc : Bool) :
    Detector :=
  let st1 : Detector :=
    { st with
      pthread_create_f := st.pthread_create_f || sym_create
      pthread_mutex_lock_f := st.pthread_mutex_lock_f || sym_lock
      pthread_mutex_unlock_f := st.pthread_mutex_unlock_f || sym_unlock }
  match st1.g_graph with
  | some _ => { st1 with g_init_complete := true }
  | none =>
    if graph_alloc then
      { st1 with
        g_graph := some (create_graph MAX_VERTICES copy_vertex_data)
        g_init_complete := true }
    else st1

/-- The detector right after a bootstrap in which every step succeeded. -/
def Detector.fresh : Detector := init_hook_once Detector.startup true true true true

/-- The comparison in the loop of `find_vertex`. -/
def vertex_matches (vd data : VertexData) : Bool :=
  vd.type = data.type &&
    ((vd.type = VertexType.VERTEX_TYPE_THREAD && vd.thread_id = data.thread_id) ||
     (vd.type = VertexType.VERTEX_TYPE_MUTEX && vd.mutex_addr = data.mutex_addr))

/-- The loop of `find_vertex` from index `i` with `remaining` indices to go. A
slot is `none` when it holds a null pointer. -/
def find_vertex_scan (vertex_data : List (Option VertexData)) (data : VertexData) :
    Nat → Nat → Int
  | 0, _ => -1
  | remaining + 1, i =>
    match vertex_data.getD i none with
    | some vd =>
      if vertex_matches vd data then (i : Int)
      else find_vertex_scan vertex_data data remaining (i + 1)
    | none => find_vertex_scan vertex_data data remaining (i + 1)

/-- The function `find_vertex` on the graph of the detector. -/
def find_vertex (st : Detector) (data : VertexData) : Int :=
  match st.g_graph with
  | none => -1
  | some graph => find_vertex_scan graph.vertex_data data st.g_next_vertex 0

/-- The function `get_or_create_vertex` on the graph of the detector. The two
arrays of an allocated graph are never null, so the integrity test of the
source always passes. The capacity test comes first, as in the source. -/
def get_or_create_vertex (st : Detector) (data : VertexData) : Int × Detector :=
  match st.g_graph with
  | none => (-1, st)
  | some graph =>
    if st.g_next_vertex ≥ MAX_VERTICES then (-1, st)
    else
      let index := find_vertex st data
      if index ≠ -1 then (index, st)
      else if st.g_next_vertex ≥ MAX_VERTICES then (-1, st)
      else
        let index : Int := (st.g_next_vertex : Int)
        let r := set_vertex_data graph index (some data)
        if r.1 then
          (index, { st with g_graph := some r.2, g_next_vertex := st.g_next_vertex + 1 })
        else
          (-1, { st with g_graph := some r.2 })

/-- The hook `before_lock`; `mtx` is the address of the mutex, `0` for `NULL`. -/
def before_lock (st : Detector) (tid mtx : Nat) : Detector :=
  if mtx = 0 then st
  else if st.g_init_complete = false then st
  else
    match st.g_graph with
    | none => st
    | some graph =>
      if graph.num_vertices = 0 ∨ graph.num_vertices > MAX_VERTICES then st
      else
        let r1 := get_or_create_vertex st (thread_data tid)
        if r1.1 = -1 then r1.2
        else
          let r2 := get_or_create_vertex r1.2 (mutex_data mtx)
          if r2.1 = -1 then r2.2
          else
            match r2.2.g_graph with
            | none => r2.2
            | some graph2 =>
              if r1.1 ≥ 0 ∧ r2.1 ≥ 0 ∧ r1.1 < (graph2.num_vertices : Int) ∧
                  r2.1 < (graph2.num_vertices : Int) then
                { r2.2 with g_graph := some (add_edge graph2 r1.1 r2.1) }
              else r2.2

/-- The hook `after_lock`. -/
def after_lock (st : Detector) (tid mtx : Nat) : Detector :=
  match st.g_graph with
  | none => st
  | some graph =>
    let thread_vertex := find_vertex st (thread_data tid)
    let mutex_vertex := find_vertex st (mutex_data mtx)
    if thread_vertex ≠ -1 ∧ mutex_vertex ≠ -1 then
      let graph1 := (remove_edge graph thread_vertex mutex_vertex).2
      { st with g_graph := some (add_edge graph1 mutex_vertex thread_vertex) }
    else st

/-- The hook `before_unlock`: empty in the source. -/
def before_unlock (st : Detector) (_tid _mtx : Nat) : Detector := st

/-- The hook `after_unlock`. -/
def after_unlock (st : Detector) (tid mtx : Nat) : Detector :=
  match st.g_graph with
  | none => st
  | some graph =>
    let thread_vertex := find_vertex st (thread_data tid)
    let mutex_vertex := find_vertex st (mutex_data mtx)
    if thread_vertex ≠ -1 ∧ mutex_vertex ≠ -1 then
      { st with g_graph := some (remove_edge graph mutex_vertex thread_vertex).2 }
    else st

/-- The wrapper `pthread_create` after the real call returned `result`;
`thread` is the identifier the real call stored, `none` for a null pointer. -/
def pthread_create (st : Detector) (result : Int) (thread : Option Nat) : Int × Detector :=
  match thread with
  | none => (result, st)
  | some tid =>
    if result = 0 ∧ st.g_graph.isSome then
      (result, (get_or_create_vertex st (thread_data tid)).2)
    else (result, st)

/-! ## Event sequences -/

/-- The events the hooks observe. `thread_create` is a successful creation. -/
inductive Event where
  | thread_create (tid : Nat)
  | before_lock (tid mtx : Nat)
  | after_lock (tid mtx : Nat)
  | before_unlock (tid mtx : Nat)
  | after_unlock (tid mtx : Nat)
  deriving DecidableEq, Repr

/-- The effect of one event on the detector. -/
def Detector.step (st : Detector) : Event → Detector
  | .thread_create tid => (pthread_create st 0 (some tid)).2
  | .before_lock tid mtx => before_lock st tid mtx
  | .after_lock tid mtx => after_lock st tid mtx
  | .before_unlock tid mtx => before_unlock st tid mtx
  | .after_unlock tid mtx => after_unlock st tid mtx

/-- The effect of a sequence of events, first event first. -/
def Detector.run (st : Detector) : List Event → Detector
  | [] => st
  | e :: es => Detector.run (st.step e) es

/-- Bookkeeping of the lock protocol: the (thread, mutex) pairs for which a
`before_lock` awaits its `after_lock`, and those for which an `after_lock`
awaits its `after_unlock`. -/
structure Pending where
  waiting : List (Nat × Nat)
  held : List (Nat × Nat)
  deriving DecidableEq, Repr

/-- One event of a well-formed sequence: `after_lock` needs a pending
`before_lock` of the pair, `after_unlock` a pending `after_lock`. -/
def Pending.step (p : Pending) : Event → Option Pending
  | .thread_create _ => some p
  | .before_lock tid mtx => some { p with waiting := (tid, mtx) :: p.waiting }
  | .after_lock tid mtx =>
    if (tid, mtx) ∈ p.waiting then
      some { waiting := p.waiting.erase (tid, mtx), held := (tid, mtx) :: p.held }
    else none
  | .before_unlock _ _ => some p
  | .after_unlock tid mtx =>
    if (tid, mtx) ∈ p.held then some { p with held := p.held.erase (tid, mtx) }
    else none

/-- The bookkeeping after a sequence, `none` when it is not well formed. -/
def Pending.run (p : Pending) : List Event → Option Pending
  | [] => some p
  | e :: es =>
    match p.step e with
    | none => none
    | some q => Pending.run q es

/-- As `Pending.step`, for threads that never request a mutex while they wait
for or hold one. -/
def Pending.step_single (p : Pending) : Event → Option Pending
  | .before_lock tid mtx =>
    if tid ∈ (p.waiting ++ p.held).map Prod.fst then none
    else p.step (.before_lock tid mtx)
  | e => p.step e

/-- The bookkeeping after a sequence of such threads. -/
def Pending.run_single (p : Pending) : List Event → Option Pending
  | [] => some p
  | e :: es =>
    match p.step_single e with
    | none => none
    | some q => Pending.run_single q es

/-- No pair is pending. -/
def Pending.idle : Pending := { waiting := [], held := [] }

/-! ## Observations -/

/-- Number of edges `u → v` stored in the graph. -/
def edge_count {α : Type} (g : DirectedGraph α) (u v : Int) : Nat :=
  (g.adj u).count v

/-- Number of wait edges from the vertex of thread `tid` to the vertex of the
mutex `mtx`; zero when one of them has no vertex. -/
def wait_edges (st : Detector) (tid mtx : Nat) : Nat :=
  match st.g_graph with
  | none => 0
  | some graph =>
    let vT := find_vertex st (thread_data tid)
    let vM := find_vertex st (mutex_data mtx)
    if vT = -1 ∨ vM = -1 then 0 else edge_count graph vT vM

/-- Number of hold edges from the vertex of the mutex `mtx` to the vertex of
thread `tid`; zero when one of them has no vertex. -/
def hold_edges (st : Detector) (tid mtx : Nat) : Nat :=
  match st.g_graph with
  | none => 0
  | some graph =>
    let vT := find_vertex st (thread_data tid)
    let vM := find_vertex st (mutex_data mtx)
    if vT = -1 ∨ vM = -1 then 0 else edge_count graph vM vT

/-- An edge of the graph. -/
def Edge {α : Type} (g : DirectedGraph α) (u v : Int) : Prop := v ∈ g.adj u

instance {α : Type} (g : DirectedGraph α) (u v : Int) : Decidable (Edge g u v) := by
  unfold Edge
  infer_instance

/-- Some directed cycle can be reached from `s` along edges. -/
def ReachableCycle {α : Type} (g : DirectedGraph α) (s : Int) : Prop :=
  ∃ c, Relation.ReflTransGen (Edge g) s c ∧ Relation.TransGen (Edge g) c c

/-! ## The monitor -/

/-- The `for` loop of one scan of `deadlock_monitor_thread` from index `i` with
`remaining` indices to go: the identifiers of the threads it reports. -/
def monitor_scan_from (g : DirectedGraph VertexData) : Nat → Nat → Except Fault (List Nat)
  | 0, _ => .ok []
  | remaining + 1, i =>
    match g.vertex_data.getD i none with
    | none => monitor_scan_from g remaining (i + 1)
    | some vd =>
      if vd.type = VertexType.VERTEX_TYPE_THREAD then
        match search_cycle_util g g.num_vertices (i : Int)
            (List.replicate g.num_vertices false) (List.replicate g.num_vertices false) with
        | .error e => .error e
        | .ok (true, _, _) =>
          match monitor_scan_from g remaining (i + 1) with
          | .error e => .error e
          | .ok reported => .ok (vd.thread_id :: reported)
        | .ok (false, _, _) => monitor_scan_from g remaining (i + 1)
      else monitor_scan_from g remaining (i + 1)

/-- One scan of `deadlock_monitor_thread` (the body of its `while` loop after
the sleep). -/
def monitor_scan (st : Detector) : Except Fault (List Nat) :=
  match st.g_graph with
  | none => .ok []
  | some g => monitor_scan_from g st.g_next_vertex 0

/-! ## Vocabulary of the proofs about the cycle search -/

/-- Vertex `i` is finished: visited and no longer on the recursion stack. -/
def Black (visited rec_stack : List Bool) (i : Int) : Prop :=
  read_flag visited i = some true ∧ read_flag rec_stack i = some false

/-- Invariant of the search: finished vertices only lead to finished vertices
and none of them lies on a cycle. -/
def Settled {α : Type} (g : DirectedGraph α) (visited rec_stack : List Bool) : Prop :=
  (∀ i, Black visited rec_stack i → ∀ d, Edge g i d → Black visited rec_stack d) ∧
  (∀ i, Black visited rec_stack i → ¬ Relation.TransGen (Edge g) i i)

/-- A back edge below `v`: an edge `u → d` with `u` reachable from `v` whose
target is on the given stack or leads back to `u`. -/
def BackEdge {α : Type} (g : DirectedGraph α) (rec_stack : List Bool) (v : Int) : Prop :=
  ∃ u d, Relation.ReflTransGen (Edge g) v u ∧ Edge g u d ∧
    (read_flag rec_stack d = some true ∨ Relation.ReflTransGen (Edge g) d u)

/-- What one call of `search_cycle_util` on an unvisited vertex `v` achieves. -/
structure UtilPost {α : Type} (g : DirectedGraph α) (v : Int) (visited rec_stack : List Bool)
    (r : Bool × List Bool × List Bool) : Prop where
  len_visited : r.2.1.length = g.num_vertices
  len_stack : r.2.2.length = g.num_vertices
  mono : ∀ i, read_flag visited i = some true → read_flag r.2.1 i = some true
  count_le : r.2.1.count false ≤ visited.count false
  on_false : r.1 = false → r.2.2 = rec_stack ∧ read_flag r.2.1 v = some true ∧
    (Settled g visited rec_stack → Settled g r.2.1 rec_stack)
  on_true : r.1 = true → BackEdge g rec_stack v

/-- What the loop over the adjacency nodes `l` of `v` achieves. -/
structure LoopPost {α : Type} (g : DirectedGraph α) (v : Int) (l : List Int)
    (visited rec_stack : List Bool) (r : Bool × List Bool × List Bool) : Prop where
  len_visited : r.2.1.length = g.num_vertices
  len_stack : r.2.2.length = g.num_vertices
  mono : ∀ i, read_flag visited i = some true → read_flag r.2.1 i = some true
  count_le : r.2.1.count false ≤ visited.count false
  on_false : r.1 = false → r.2.2 = rec_stack ∧
    (Settled g visited rec_stack → Settled g r.2.1 rec_stack) ∧
    (∀ d ∈ l, Black r.2.1 rec_stack d)
  on_true : r.1 = true → BackEdge g rec_stack v

/-- Precondition of a call of `search_cycle_util` with the given fuel. -/
structure UtilPre {α : Type} (g : DirectedGraph α) (fuel : Nat) (v : Int)
    (visited rec_stack : List Bool) : Prop where
  len_visited : visited.length = g.num_vertices
  len_stack : rec_stack.length = g.num_vertices
  lo : 0 ≤ v
  hi : v < (g.num_vertices : Int)
  fresh : read_flag visited v = some false
  fuel_ok : visited.count false ≤ fuel
  stack_visited : ∀ i, read_flag rec_stack i = some true → read_flag visited i = some true

/-! ## Concrete inputs -/

/-- The cycle A→B→C→D→B of `test_middle_cycle`. -/
def middle_cycle_graph : DirectedGraph Nat :=
  add_edge (add_edge (add_edge (add_edge (create_graph 4 some) 0 1) 1 2) 2 3) 3 1

/-- The diamond A→B→D, A→C→D: D is reached along two paths, no cycle. -/
def diamond_graph : DirectedGraph Nat :=
  add_edge (add_edge (add_edge (add_edge (create_graph 4 some) 0 1) 0 2) 1 3) 2 3

/-- One round of `pthread_mutex_lock` and `pthread_mutex_unlock` by thread `T`
on the mutex `M`, as the hooks see it. -/
def lock_unlock_round (T M : Nat) : List Event :=
  [Event.before_lock T M, Event.after_lock T M, Event.after_unlock T M]

/-- The hook events of `n` such rounds. -/
def lock_unlock_rounds (T M : Nat) : Nat → List Event
  | 0 => []
  | n + 1 => lock_unlock_round T M ++ lock_unlock_rounds T M n

/-- A ready detector whose registry is full: the hundred slots hold the threads
1 … 100 and no edge is stored. -/
def full_registry : Detector :=
  { pthread_create_f := true
    pthread_mutex_lock_f := true
    pthread_mutex_unlock_f := true
    g_graph := some
      { num_vertices := MAX_VERTICES
        adj_lists := List.replicate MAX_VERTICES []
        vertex_data := (List.range MAX_VERTICES).map (fun i => some (thread_data (i + 1)))
        copy_data_function := copy_vertex_data }
    g_next_vertex := MAX_VERTICES
    g_init_complete := true }

/-- Two threads take the same mutex one after the other. -/
def two_threads_one_mutex : List Event :=
  [Event.thread_create 1, Event.thread_create 2,
   Event.before_lock 1 4096, Event.before_lock 2 4096,
   Event.after_lock 1 4096, Event.before_unlock 1 4096, Event.after_unlock 1 4096,
   Event.after_lock 2 4096, Event.before_unlock 2 4096, Event.after_unlock 2 4096]

/-- The ring of `t1_cb` … `t4_cb`, for any number of threads: thread `i`
acquires the mutex `i`, for `i` from 1 to `k`. -/
def ring_acquires : Nat → List Event
  | 0 => []
  | k + 1 => ring_acquires k ++ [Event.before_lock (k + 1) (k + 1), Event.after_lock (k + 1) (k + 1)]

/-- Thread `i` then requests the mutex `(i mod n) + 1`, for `i` from 1 to `k`. -/
def ring_requests (n : Nat) : Nat → List Event
  | 0 => []
  | k + 1 => ring_requests n k ++ [Event.before_lock (k + 1) ((k + 1) % n + 1)]

/-- The hook events of a ring of `n` threads. -/
def ring_events (n : Nat) : List Event := ring_acquires n ++ ring_requests n n

/-- Two vertices and the edge 0 → 1 stored twice. -/
def double_edge_graph : DirectedGraph Nat :=
  add_edge (add_edge (create_graph 2 some) 0 1) 0 1

/-- A graph of the capacity of the bootstrap whose payload copy always fails. -/
def failing_copy_graph : DirectedGraph VertexData :=
  create_graph MAX_VERTICES (fun _ => none)

/-- A bootstrapped detector whose payload copy always fails. -/
def failing_copy_detector : Detector :=
  { Detector.fresh with g_graph := some failing_copy_graph }

/-! ## Invariants of the detector -/

/-- Invariant of the registry over the graph of the detector: the graph has the
capacity and the copy function of the bootstrap, the first `nv` slots hold
pairwise different payloads, and every edge joins two of these slots. -/
structure RegistryOk (g : DirectedGraph VertexData) (nv : Nat) : Prop where
  shaped : g.Shaped
  capacity : g.num_vertices = MAX_VERTICES
  copy : ∀ d, g.copy_data_function d = some d
  next_le : nv ≤ MAX_VERTICES
  registered : ∀ i < nv, ∃ d, g.vertex_data.getD i none = some d ∧
    find_vertex_scan g.vertex_data d nv 0 = (i : Int)
  edges : ∀ u : Nat, ∀ d ∈ g.adj_lists.getD u [], u < nv ∧ 0 ≤ d ∧ d < (nv : Int)

/-- A ready detector: the bootstrap has completed and the registry invariant
holds for its graph. -/
def Ready (st : Detector) : Prop :=
  st.g_init_complete = true ∧ ∃ g, st.g_graph = some g ∧ RegistryOk g st.g_next_vertex

/-- No edge is stored in the graph of the detector. -/
def NoEdges (st : Detector) : Prop :=
  ∀ g, st.g_graph = some g → ∀ l ∈ g.adj_lists, l = []

/-- The slot `j` is the first of the first `n` slots that holds `data`. -/
def FirstAt (vd : List (Option VertexData)) (data : VertexData) (n j : Nat) : Prop :=
  j < n ∧ vd.getD j none = some data ∧ ∀ m, m < j → vd.getD m none ≠ some data

/-- The graph after the payload `d` has been installed in slot `nv`. -/
def install (g : DirectedGraph VertexData) (nv : Nat) (d : VertexData) :
    DirectedGraph VertexData :=
  { g with vertex_data := g.vertex_data.set nv (some d) }

/-- How many edges the bookkeeping allows from a vertex with payload `a` to a
vertex with payload `b`: the pending waits of the pair for thread → mutex, the
pending holds for mutex → thread, none otherwise. -/
def Pending.bound (p : Pending) (a b : VertexData) : Nat :=
  match a.type, b.type with
  | VertexType.VERTEX_TYPE_THREAD, VertexType.VERTEX_TYPE_MUTEX => p.waiting.count (a.id, b.id)
  | VertexType.VERTEX_TYPE_MUTEX, VertexType.VERTEX_TYPE_THREAD => p.held.count (b.id, a.id)
  | _, _ => 0

/-- Every edge between registered vertices is accounted for by the bookkeeping. -/
def Covered (g : DirectedGraph VertexData) (nv : Nat) (p : Pending) : Prop :=
  ∀ u d : Nat, u < nv → d < nv → ∀ a b, g.vertex_data.getD u none = some a →
    g.vertex_data.getD d none = some b → (g.adj (u : Int)).count (d : Int) ≤ p.bound a b

/-- The detector is ready and its edges are accounted for by the bookkeeping. -/
def Linked (st : Detector) (p : Pending) : Prop :=
  st.g_init_complete = true ∧
    ∃ g, st.g_graph = some g ∧ RegistryOk g st.g_next_vertex ∧ Covered g st.g_next_vertex p

/-- No thread has more than one mutex in the waiting-or-held state. -/
def Pending.Single (p : Pending) : Prop :=
  ((p.waiting ++ p.held).map Prod.fst).Nodup

/-- Bookkeeping of an arbitrary event, well formed or not: as `Pending.step`,
with nothing to erase when the pair is not pending. -/
def Pending.track (p : Pending) : Event → Pending
  | .thread_create _ => p
  | .before_lock tid mtx => { p with waiting := (tid, mtx) :: p.waiting }
  | .after_lock tid mtx =>
    { waiting := p.waiting.erase (tid, mtx), held := (tid, mtx) :: p.held }
  | .before_unlock _ _ => p
  | .after_unlock tid mtx => { p with held := p.held.erase (tid, mtx) }

/-- The graph after slot `nv` has been set to null by a failed copy. -/
def void_slot (g : DirectedGraph VertexData) (nv : Nat) : DirectedGraph VertexData :=
  { g with vertex_data := g.vertex_data.set nv none }

/-! ## Exclusive use of mutexes -/

/-- As `Pending.step`, for a sequence in which a thread requests a mutex only
when none of its requests is pending, and acquires a mutex only while no thread
holds it. -/
def Pending.step_exclusive (p : Pending) : Event → Option Pending
  | .before_lock tid mtx =>
    if tid ∈ p.waiting.map Prod.fst then none else p.step (.before_lock tid mtx)
  | .after_lock tid mtx =>
    if mtx ∈ p.held.map Prod.snd then none else p.step (.after_lock tid mtx)
  | e => p.step e

/-- The bookkeeping after a sequence of such events. -/
def Pending.run_exclusive (p : Pending) : List Event → Option Pending
  | [] => some p
  | e :: es =>
    match p.step_exclusive e with
    | none => none
    | some q => Pending.run_exclusive q es

/-- No thread has two pending requests and no mutex has two holders. -/
def Pending.Exclusive (p : Pending) : Prop :=
  (p.waiting.map Prod.fst).Nodup ∧ (p.held.map Prod.snd).Nodup

/-! ## The reports asked of the monitor -/

/-- The reports the specification asks of one scan: the identifiers of the
thread vertices among the first `g_next_vertex` slots from which a standalone
`search_cycle` finds a cycle, in the order of their indices. -/
def monitor_reports_spec (st : Detector) : List Nat :=
  match st.g_graph with
  | none => []
  | some g =>
    (List.range st.g_next_vertex).filterMap (fun i =>
      match g.vertex_data.getD i none with
      | none => none
      | some vd =>
        if vd.type = VertexType.VERTEX_TYPE_THREAD ∧ search_cycle g (i : Int) = .ok true then
          some vd.thread_id
        else none)

/-! ## The wrappers of the mutex primitives -/

/-- What a wrapper did: the value it returned, the detector afterwards, and the
arguments of its calls of the real primitive, first call first. -/
structure Wrapped where
  result : Int
  detector : Detector
  real_calls : List Nat

/-- The wrapper `pthread_mutex_lock` called by thread `tid`. The real primitive
`real_lock` gives the value it returns for a mutex; the wrapper reaches it
through `pthread_mutex_lock_f`, and the result is `none` when that pointer is
null at the call. -/
def pthread_mutex_lock (st : Detector) (real_lock : Nat → Int) (tid mtx : Nat) :
    Option Wrapped :=
  let st1 := before_lock st tid mtx
  if st1.pthread_mutex_lock_f = false then none
  else
    let result := real_lock mtx
    if 0 = result then
      some { result := result, detector := after_lock st1 tid mtx, real_calls := [mtx] }
    else some { result := result, detector := st1, real_calls := [mtx] }

/-- The wrapper `pthread_mutex_unlock` called by thread `tid`; as
`pthread_mutex_lock`, through `pthread_mutex_unlock_f`. -/
def pthread_mutex_unlock (st : Detector) (real_unlock : Nat → Int) (tid mtx : Nat) :
    Option Wrapped :=
  let st1 := before_unlock st tid mtx
  if st1.pthread_mutex_unlock_f = false then none
  else
    let result := real_unlock mtx
    if result = 0 then
      some { result := result, detector := after_unlock st1 tid mtx, real_calls := [mtx] }
    else some { result := result, detector := st1, real_calls := [mtx] }

/-! ## The bootstrap latch -/

/-- The loop `while (!g_init_complete) usleep(1000)` of
`ensure_hooks_initialized`, with `fuel` bounding the number of tests of the
flag. Only `init_hook_once` writes the flag and `pthread_once` has returned, so
the flag keeps its value while the loop runs. -/
def wait_init_complete (st : Detector) : Nat → Except Fault Unit
  | 0 => .error .out_of_fuel
  | fuel + 1 => if st.g_init_complete then .ok () else wait_init_complete st fuel

/-- The first call of `ensure_hooks_initialized`: `pthread_once` runs
`init_hook_once` with the given outcomes of the three lookups and of the
allocation, then the wait loop, then the test of the graph and of the two mutex
primitives. The result is the returned value and the globals. -/
def ensure_hooks_initialized (st : Detector)
    (sym_create sym_lock sym_unlock graph_alloc : Bool) (fuel : Nat) :
    Except Fault (Int × Detector) :=
  let st1 := init_hook_once st sym_create sym_lock sym_unlock graph_alloc
  match wait_init_complete st1 fuel with
  | .error e => .error e
  | .ok _ =>
    if st1.g_graph.isNone ∨ st1.pthread_mutex_lock_f = false ∨
        st1.pthread_mutex_unlock_f = false then .ok (-1, st1)
    else .ok (0, st1)

/-- What the program does to the globals of the detector: a run of
`init_hook_once` with the given outcomes of the three lookups and of the
allocation, a hook event, or the release of the graph at the end of `main`
(`free_graph(g_graph); g_graph = NULL`). -/
inductive Action where
  | init (sym_create sym_lock sym_unlock graph_alloc : Bool)
  | hook (e : Event)
  | teardown
  deriving DecidableEq, Repr

/-- The effect of one action on the globals. -/
def Detector.act (st : Detector) : Action → Detector
  | .init sym_create sym_lock sym_unlock graph_alloc =>
    init_hook_once st sym_create sym_lock sym_unlock graph_alloc
  | .hook e => st.step e
  | .teardown => { st with g_graph := none }

/-- The effect of a sequence of actions, first action first. -/
def Detector.acts (st : Detector) : List Action → Detector
  | [] => st
  | a :: rest => Detector.acts (st.act a) rest

/-- Thread 1 holds the mutex 4096 while thread 2 requests it. -/
def contended_mutex : List Event :=
  [Event.before_lock 1 4096, Event.after_lock 1 4096, Event.before_lock 2 4096]

/-- A ready detector whose registry is full while thread 1 holds the mutex 4096:
the slots hold the threads 1 … 99 and then the mutex, and the only edge is the
hold edge from the mutex (slot 99) to thread 1 (slot 0). -/
def full_registry_holding : Detector :=
  { pthread_create_f := true
    pthread_mutex_lock_f := true
    pthread_mutex_unlock_f := true
    g_graph := some
      { num_vertices := MAX_VERTICES
        adj_lists := (List.range MAX_VERTICES).map (fun i => if i = 99 then [0] else [])
        vertex_data := (List.range MAX_VERTICES).map (fun i =>
          if i = 99 then some (mutex_data 4096) else some (thread_data (i + 1)))
        copy_data_function := copy_vertex_data }
    g_next_vertex := MAX_VERTICES
    g_init_complete := true }

/-! ## The cycle search with a record of its calls -/

/-- Result of a traced call: the result of the call and the vertices with which
`search_cycle_util` was entered, in the order of the calls. -/
abbrev TracedResult := Except Fault ((Bool × List Bool × List Bool) × List Int)

/-- The trace of a result dropped. -/
def forget_calls : TracedResult → SearchResult
  | .ok (r, _) => .ok r
  | .error e => .error e

/-- As `search_cycle_loop`, with the calls made by the recursive calls. -/
def search_cycle_loop_traced (recur : Int → List Bool → List Bool → TracedResult) :
    List Int → List Bool → List Bool → TracedResult
  | [], visited, rec_stack => .ok ((false, visited, rec_stack), [])
  | adj_vertex :: rest, visited, rec_stack =>
    match read_flag visited adj_vertex with
    | none => .error .out_of_bounds
    | some false =>
      match recur adj_vertex visited rec_stack with
      | .error e => .error e
      | .ok ((true, visited1, rec_stack1), calls) => .ok ((true, visited1, rec_stack1), calls)
      | .ok ((false, visited1, rec_stack1), calls) =>
        match search_cycle_loop_traced recur rest visited1 rec_stack1 with
        | .error e => .error e
        | .ok (r, calls1) => .ok (r, calls ++ calls1)
    | some true =>
      match read_flag rec_stack adj_vertex with
      | none => .error .out_of_bounds
      | some true => .ok ((true, visited, rec_stack), [])
      | some false => search_cycle_loop_traced recur rest visited rec_stack

/-- As `search_cycle_util`, with the vertex of every call put on record when the
call is entered. -/
def search_cycle_util_traced {α : Type} (graph : DirectedGraph α) :
    Nat → Int → List Bool → List Bool → TracedResult
  | 0, _, _, _ => .error .out_of_fuel
  | fuel + 1, vertex, visited, rec_stack =>
    if vertex ≥ (graph.num_vertices : Int) then .ok ((false, visited, rec_stack), [vertex])
    else if vertex < 0 then .error .out_of_bounds
    else
      match graph.adj_lists[vertex.toNat]? with
      | none => .error .out_of_bounds
      | some curr =>
        match write_flag visited vertex true with
        | none => .error .out_of_bounds
        | some visited1 =>
          match write_flag rec_stack vertex true with
          | none => .error .out_of_bounds
          | some rec_stack1 =>
            match search_cycle_loop_traced (search_cycle_util_traced graph fuel) curr visited1
                rec_stack1 with
            | .error e => .error e
            | .ok ((true, visited2, rec_stack2), calls) =>
              .ok ((true, visited2, rec_stack2), vertex :: calls)
            | .ok ((false, visited2, rec_stack2), calls) =>
              match write_flag rec_stack2 vertex false with
              | none => .error .out_of_bounds
              | some rec_stack3 => .ok ((false, visited2, rec_stack3), vertex :: calls)

/-- What a record of calls satisfies between the array `visited` before and the
array `visited1` after: the array keeps its length and its marks, no vertex is
on record twice, and a vertex on record was not marked before and is marked
after. -/
def Entered (visited visited1 : List Bool) (calls : List Int) : Prop :=
  visited1.length = visited.length ∧
  (∀ i, read_flag visited i = some true → read_flag visited1 i = some true) ∧
  calls.Nodup ∧
  ∀ v ∈ calls, read_flag visited v ≠ some true ∧ read_flag visited1 v = some true

/-- A graph with a duplicate edge and a self-loop: 0 → 1 twice, 1 → 2, 2 → 2. -/
def tangled_graph : DirectedGraph Nat :=
  add_edge (add_edge (add_edge (add_edge (create_graph 3 some) 2 2) 1 2) 0 1) 0 1

end DeadLock

/-!
# Ring buffer (`ringbuffer/ringbuffer.hpp`)

The class `RingBuffer<T, Capacity>` in single-threaded use: the two atomic
indices are plain numbers, and a slot of the storage is `none` while no element
is constructed in it. An index stays below `Capacity`, so `w + 1` does not
overflow a `size_t`.
-/

/-- The members of `RingBuffer<T, Capacity>`. -/
structure RingBuffer (α : Type) (Capacity : Nat) where
  read_ : Nat
  write_ : Nat
  buffer_ : List (Option α)
  deriving DecidableEq, Repr

namespace RingBuffer

/-- The constructor: both indices zero, no element constructed. -/
def create (α : Type) (Capacity : Nat) : RingBuffer α Capacity :=
  { read_ := 0, write_ := 0, buffer_ := List.replicate Capacity none }

/-- The member `push`: the returned flag and the buffer afterwards. -/
def push {α : Type} {Capacity : Nat} (rb : RingBuffer α Capacity) (value : α) :
    Bool × RingBuffer α Capacity :=
  let w := rb.write_
  let next_w := (w + 1) &&& (Capacity - 1)
  if next_w = rb.read_ then (false, rb)
  else (true, { rb with buffer_ := rb.buffer_.set w (some value), write_ := next_w })

/-- The member `pop`: the returned flag, the output argument `value` afterwards,
and the buffer afterwards. The slot read holds an element whenever the indices
differ in a buffer built by `push` and `pop`; the last case stands for a read of
a slot without an element. -/
def pop {α : Type} {Capacity : Nat} (rb : RingBuffer α Capacity) (value : α) :
    Bool × α × RingBuffer α Capacity :=
  let r := rb.read_
  if r = rb.write_ then (false, value, rb)
  else
    let rb1 : RingBuffer α Capacity :=
      { rb with buffer_ := rb.buffer_.set r none, read_ := (r + 1) &&& (Capacity - 1) }
    match rb.buffer_.getD r none with
    | some stored => (true, stored, rb1)
    | none => (true, value, rb1)

/-- The member `size`. -/
def size {α : Type} {Capacity : Nat} (rb : RingBuffer α Capacity) : Nat :=
  let r := rb.read_
  let w := rb.write_
  if w ≥ r then w - r else Capacity - r + w

/-- One call on the buffer: `pop` comes with the content of its output argument
before the call. -/
inductive Call (α : Type) where
  | push (value : α)
  | pop (value : α)
  deriving DecidableEq, Repr

/-- What a call gave back: the flag of `push`, or the flag of `pop` and its
output argument after the call. -/
inductive Outcome (α : Type) where
  | pushed (ok : Bool)
  | popped (ok : Bool) (value : α)
  deriving DecidableEq, Repr

/-- One call on the buffer. -/
def call {α : Type} {Capacity : Nat} (rb : RingBuffer α Capacity) :
    Call α → Outcome α × RingBuffer α Capacity
  | .push value => (.pushed (rb.push value).1, (rb.push value).2)
  | .pop value => (.popped (rb.pop value).1 (rb.pop value).2.1, (rb.pop value).2.2)

/-- A sequence of calls, first call first: the outcomes and the final buffer. -/
def run {α : Type} {Capacity : Nat} (rb : RingBuffer α Capacity) :
    List (Call α) → List (Outcome α) × RingBuffer α Capacity
  | [] => ([], rb)
  | c :: cs => ((rb.call c).1 :: (run (rb.call c).2 cs).1, (run (rb.call c).2 cs).2)

/-- The first-in first-out queue the buffer is to behave as, holding at most
`limit` values, oldest first: one call. A `push` beyond the limit fails; a `pop`
takes the oldest value, and on the empty queue fails and leaves the output
argument as it was. -/
def fifo_call {α : Type} (limit : Nat) (queue : List α) : Call α → Outcome α × List α
  | .push value =>
    if queue.length = limit then (.pushed false, queue) else (.pushed true, queue ++ [value])
  | .pop value =>
    match queue with
    | [] => (.popped false value, [])
    | oldest :: rest => (.popped true oldest, rest)

/-- The queue on a sequence of calls. -/
def fifo_run {α : Type} (limit : Nat) (queue : List α) :
    List (Call α) → List (Outcome α) × List α
  | [] => ([], queue)
  | c :: cs =>
    ((fifo_call limit queue c).1 :: (fifo_run limit (fifo_call limit queue c).2 cs).1,
      (fifo_run limit (fifo_call limit queue c).2 cs).2)

/-- Number of calls of `push` that returned true. -/
def successful_pushes {α : Type} (outcomes : List (Outcome α)) : Nat :=
  (outcomes.filter (fun o => match o with | .pushed true => true | _ => false)).length

/-- Number of calls of `pop` that returned true. -/
def successful_pops {α : Type} (outcomes : List (Outcome α)) : Nat :=
  (outcomes.filter (fun o => match o with | .popped true _ => true | _ => false)).length

/-- The slot `j` places after the read index `r`, around the end of the storage. -/
def slot_index (Capacity r j : Nat) : Nat :=
  if r + j < Capacity then r + j else r + j - Capacity

/-- The buffer stores the queue: the indices are in range, `size` is the length
of the queue, and the slots from the read index on hold its values. -/
structure Holds {α : Type} {Capacity : Nat} (rb : RingBuffer α Capacity) (queue : List α) :
    Prop where
  read_lt : rb.read_ < Capacity
  write_lt : rb.write_ < Capacity
  slots : rb.buffer_.length = Capacity
  length_eq : queue.length = rb.size
  stored : ∀ j, j < queue.length →
    rb.buffer_.getD (slot_index Capacity rb.read_ j) none = queue[j]?

/-- The mask of the source steps an index around the end of the storage. -/
def Steps (Capacity : Nat) : Prop :=
  ∀ x, x < Capacity → (x + 1) &&& (Capacity - 1) = if x + 1 = Capacity then 0 else x + 1

/-- The calls of `test_edge_cases` on a buffer of capacity 4, whose indices wrap
around the end of the storage. -/
def wrap_around_calls : List (Call Nat) :=
  [.push 1, .push 2, .push 3, .push 4, .pop 0, .pop 0, .push 4, .push 5,
   .pop 0, .pop 0, .pop 0, .pop 0]

end RingBuffer

/-!
# Message buffer (`message_buffer/message_buffer.hpp`)

The class `MessageBuffer`: the vector of bytes is a list, a byte is a number,
and the two positions are `size_t` values, so sums and differences of sizes are
taken modulo `2 ^ 64`. A member that copies bytes returns `none` when the copy
leaves an array. The vector is taken to allocate what `resize` asks for.
-/

/-- The members of `MessageBuffer`. -/
structure MessageBuffer where
  buffer_ : List Nat
  rpos_ : Nat
  wpos_ : Nat
  deriving DecidableEq, Repr

namespace MessageBuffer

/-- The number of values of `std::size_t`. -/
def SIZE_MODULUS : Nat := 2 ^ 64

/-- The default constructor. -/
def create : MessageBuffer :=
  { buffer_ := List.replicate 4096 0, rpos_ := 0, wpos_ := 0 }

/-- The constructor with a size. -/
def create_sized (size : Nat) : MessageBuffer :=
  { buffer_ := List.replicate (if size = 0 then 4096 else size) 0, rpos_ := 0, wpos_ := 0 }

/-- The member `resize` of the vector: cut, or filled up with zero bytes. -/
def resize (buffer : List Nat) (new_size : Nat) : List Nat :=
  buffer.take new_size ++ List.replicate (new_size - buffer.length) 0

/-- The member `get_active_size`: `wpos_ - rpos_` in `size_t`. -/
def get_active_size (mb : MessageBuffer) : Nat :=
  (mb.wpos_ + SIZE_MODULUS - mb.rpos_) % SIZE_MODULUS

/-- The member `get_free_size`: `buffer_.size() - wpos_` in `size_t`. -/
def get_free_size (mb : MessageBuffer) : Nat :=
  (mb.buffer_.length + SIZE_MODULUS - mb.wpos_) % SIZE_MODULUS

/-- The member `get_buffer_size`. -/
def get_buffer_size (mb : MessageBuffer) : Nat := mb.buffer_.length

/-- The member `read_completed`. -/
def read_completed (mb : MessageBuffer) (size : Nat) : MessageBuffer :=
  if size > mb.get_active_size then mb
  else { mb with rpos_ := (mb.rpos_ + size) % SIZE_MODULUS }

/-- The member `write_completed`. -/
def write_completed (mb : MessageBuffer) (size : Nat) : MessageBuffer :=
  if (mb.wpos_ + size) % SIZE_MODULUS > mb.buffer_.length then mb
  else { mb with wpos_ := (mb.wpos_ + size) % SIZE_MODULUS }

/-- The call `memmove(buffer, buffer + src, count)` inside the vector. -/
def move_to_front (buffer : List Nat) (src count : Nat) : Option (List Nat) :=
  if src + count ≤ buffer.length then some ((buffer.drop src).take count ++ buffer.drop count)
  else none

/-- The call `memcpy(buffer + pos, data, size)` into the vector. -/
def copy_in (buffer : List Nat) (pos : Nat) (data : List Nat) (size : Nat) :
    Option (List Nat) :=
  if size ≤ data.length ∧ pos + size ≤ buffer.length then
    some (buffer.take pos ++ data.take size ++ buffer.drop (pos + size))
  else none

/-- The member `normalize`. -/
def normalize (mb : MessageBuffer) : Option MessageBuffer :=
  if mb.rpos_ = 0 ∨ mb.get_active_size = 0 then some mb
  else if mb.rpos_ > mb.wpos_ then some { mb with rpos_ := 0, wpos_ := 0 }
  else
    match move_to_front mb.buffer_ mb.rpos_ mb.get_active_size with
    | none => none
    | some moved =>
      some { buffer_ := moved
             rpos_ := 0
             wpos_ := (mb.wpos_ + SIZE_MODULUS - mb.rpos_) % SIZE_MODULUS }

/-- The member `ensure_free_space`. -/
def ensure_free_space (mb : MessageBuffer) (size : Nat) : Option MessageBuffer :=
  if size = 0 then some mb
  else if mb.get_free_size ≥ size then some mb
  else
    match mb.normalize with
    | none => none
    | some mb1 =>
      if mb1.get_free_size < size then
        let new_size := max ((mb1.buffer_.length + size) % SIZE_MODULUS)
          (mb1.buffer_.length * 3 % SIZE_MODULUS / 2)
        some { mb1 with buffer_ := resize mb1.buffer_ new_size }
      else some mb1

/-- The member `write`; `data` is `none` for a null pointer, else the bytes it
points to. -/
def write (mb : MessageBuffer) (data : Option (List Nat)) (size : Nat) :
    Option MessageBuffer :=
  match data with
  | none => some mb
  | some bytes =>
    if size = 0 then some mb
    else
      match mb.ensure_free_space size with
      | none => none
      | some mb1 =>
        match copy_in mb1.buffer_ mb1.wpos_ bytes size with
        | none => none
        | some copied => some (write_completed { mb1 with buffer_ := copied } size)

/-- The active region: the `get_active_size()` bytes from the read pointer on. -/
def active (mb : MessageBuffer) : List Nat :=
  (mb.buffer_.drop mb.rpos_).take mb.get_active_size

/-- The positions are ordered and inside the vector. -/
def Ordered (mb : MessageBuffer) : Prop :=
  mb.rpos_ ≤ mb.wpos_ ∧ mb.wpos_ ≤ mb.buffer_.length

instance (mb : MessageBuffer) : Decidable mb.Ordered := by
  unfold Ordered
  infer_instance

/-- A buffer of one hundred bytes of which eighty were written and thirty of
these read. -/
def partly_read : MessageBuffer :=
  { buffer_ := List.range 100, rpos_ := 30, wpos_ := 80 }

end MessageBuffer

namespace MessageBuffer

/-- A buffer of sixteen bytes after five bytes were written and all five read:
both positions are 5 and no byte is active. -/
def drained : MessageBuffer :=
  { buffer_ := [0, 1, 2, 3, 4] ++ List.replicate 11 0, rpos_ := 5, wpos_ := 5 }

end MessageBuffer

/-!
# Timer (`timer/timer_with_multimap.hpp`)

The class `Timer`: the multimap is the list of its entries in iteration order
(ascending deadlines), an entry being a deadline and the identifier of its
node. Times are `uint64_t` values, taken modulo `2 ^ 64`; the current time is an
argument. The value returned by `wait_time` is an `int` of 32 bits.
-/

/-- The member `timer_map_` of `Timer`. -/
structure Timer where
  timer_map_ : List (Nat × Nat)
  deriving DecidableEq, Repr

namespace Timer

/-- The number of values of `uint64_t`. -/
def UINT64_MODULUS : Nat := 2 ^ 64

/-- Conversion of a `uint64_t` to `int`: the low 32 bits, read as a signed
number. -/
def to_int (x : Nat) : Int :=
  if x % 2 ^ 32 < 2 ^ 31 then ((x % 2 ^ 32 : Nat) : Int) else ((x % 2 ^ 32 : Nat) : Int) - 2 ^ 32

/-- Insertion into the multimap: after the entries whose deadline is not
larger. -/
def emplace (entries : List (Nat × Nat)) (timeout node : Nat) : List (Nat × Nat) :=
  match entries with
  | [] => [(timeout, node)]
  | e :: rest =>
    if timeout < e.1 then (timeout, node) :: e :: rest else e :: emplace rest timeout node

/-- The member `add_timeout` at the time `now`, for a fresh node `node`: the
node returned (`none` for `nullptr`) and the timer afterwards. -/
def add_timeout (t : Timer) (now diff node : Nat) : Option Nat × Timer :=
  if 0 = diff then (none, t)
  else (some node, { timer_map_ := emplace t.timer_map_ ((now + diff) % UINT64_MODULUS) node })

/-- The member `wait_time` at the time `now`. -/
def wait_time (t : Timer) (now : Nat) : Int :=
  match t.timer_map_ with
  | [] => -1
  | first :: _ =>
    let diff := (first.1 + UINT64_MODULUS - now) % UINT64_MODULUS
    to_int (if diff > 0 then diff else 0)

end Timer

/-!
# Shared pointer (`shared_ptr/shared_ptr.hpp`)

The class `shared_ptr<T>` in single-threaded use. A pointer is an address, `none`
for `nullptr`; the atomic counters live in a heap indexed by their address, and
`new` returns the next unused address. A counter is bounded by the number of
live `shared_ptr` objects, so it does not reach `2 ^ 64`. The program around the
class is a sequence of commands on numbered `shared_ptr` objects.
-/

/-- The members of `shared_ptr<T>`. -/
structure shared_ptr where
  ptr_ : Option Nat
  ref_count_ : Option Nat
  deriving DecidableEq, Repr

namespace shared_ptr

/-- What can go wrong: `dangling` when the class uses a counter that has been
deleted or deletes an object a second time, `misuse` when the program names an
object that is not alive or hands over a raw pointer a second time. -/
inductive Fault where
  | dangling
  | misuse
  deriving DecidableEq, Repr

/-- The heap: the counters by address, `none` once deleted; the managed objects
given to `delete`, first deletion first; the raw pointers handed to the class
so far. -/
structure Heap where
  counters : List (Option Nat)
  deleted : List Nat
  raw_pointers : List Nat
  deriving DecidableEq, Repr

/-- The heap and the `shared_ptr` objects of the program by number, `none` once
destroyed. -/
structure Program where
  heap : Heap
  objects : List (Option shared_ptr)
  deriving DecidableEq, Repr

/-- A `shared_ptr` that manages nothing. -/
def null : shared_ptr := { ptr_ := none, ref_count_ := none }

/-- The statement `delete ptr_`. -/
def delete_object (h : Heap) (ptr : Option Nat) : Except Fault Heap :=
  match ptr with
  | none => .ok h
  | some p => if p ∈ h.deleted then .error .dangling else .ok { h with deleted := h.deleted ++ [p] }

/-- The member `release`. -/
def release (h : Heap) (this : shared_ptr) : Except Fault Heap :=
  match this.ref_count_ with
  | none => .ok h
  | some c =>
    match h.counters.getD c none with
    | none => .error .dangling
    | some n =>
      let h1 : Heap := { h with counters := h.counters.set c (some (n - 1)) }
      if n = 1 then
        match delete_object h1 this.ptr_ with
        | .error e => .error e
        | .ok h2 => .ok { h2 with counters := h2.counters.set c none }
      else .ok h1

/-- The statement `if (ref_count_) ref_count_->fetch_add(1)`. -/
def add_ref (h : Heap) (this : shared_ptr) : Except Fault Heap :=
  match this.ref_count_ with
  | none => .ok h
  | some c =>
    match h.counters.getD c none with
    | none => .error .dangling
    | some n => .ok { h with counters := h.counters.set c (some (n + 1)) }

/-- The member `use_count`. -/
def use_count (h : Heap) (this : shared_ptr) : Except Fault Nat :=
  match this.ref_count_ with
  | none => .ok 0
  | some c =>
    match h.counters.getD c none with
    | none => .error .dangling
    | some n => .ok n

/-- The object with the given number, when it is alive. -/
def Program.object (m : Program) (i : Nat) : Option shared_ptr :=
  (m.objects.getD i none)

/-- The constructor from a raw pointer, for a new object. -/
def construct (m : Program) (ptr : Option Nat) : Except Fault Program :=
  match ptr with
  | none => .ok { m with objects := m.objects ++ [some { ptr_ := none, ref_count_ := none }] }
  | some p =>
    if p ∈ m.heap.raw_pointers then .error .misuse
    else
      .ok { heap := { m.heap with
                      counters := m.heap.counters ++ [some 1]
                      raw_pointers := p :: m.heap.raw_pointers }
            objects := m.objects ++ [some { ptr_ := some p,
                                            ref_count_ := some m.heap.counters.length }] }

/-- The copy constructor, for a new object. -/
def copy_construct (m : Program) (src : Nat) : Except Fault Program :=
  match m.object src with
  | none => .error .misuse
  | some other =>
    let this : shared_ptr := { ptr_ := other.ptr_, ref_count_ := other.ref_count_ }
    match add_ref m.heap this with
    | .error e => .error e
    | .ok h => .ok { heap := h, objects := m.objects ++ [some this] }

/-- The copy assignment `dst = src`. -/
def copy_assign (m : Program) (dst src : Nat) : Except Fault Program :=
  match m.object dst, m.object src with
  | some this, some other =>
    if dst ≠ src then
      match release m.heap this with
      | .error e => .error e
      | .ok h1 =>
        let this1 : shared_ptr := { ptr_ := other.ptr_, ref_count_ := other.ref_count_ }
        match add_ref h1 this1 with
        | .error e => .error e
        | .ok h2 => .ok { heap := h2, objects := m.objects.set dst (some this1) }
    else .ok m
  | _, _ => .error .misuse

/-- The move constructor, for a new object. -/
def move_construct (m : Program) (src : Nat) : Except Fault Program :=
  match m.object src with
  | none => .error .misuse
  | some other =>
    let this : shared_ptr := { ptr_ := other.ptr_, ref_count_ := other.ref_count_ }
    .ok { m with objects := (m.objects ++ [some this]).set src (some null) }

/-- The move assignment `dst = std::move(src)`. -/
def move_assign (m : Program) (dst src : Nat) : Except Fault Program :=
  match m.object dst, m.object src with
  | some this, some other =>
    if dst ≠ src then
      match release m.heap this with
      | .error e => .error e
      | .ok h1 =>
        let this1 : shared_ptr := { ptr_ := other.ptr_, ref_count_ := other.ref_count_ }
        .ok { heap := h1, objects := (m.objects.set dst (some this1)).set src (some null) }
    else .ok m
  | _, _ => .error .misuse

/-- The member `reset(ptr)`; `reset()` is `reset(nullptr)`. -/
def reset (m : Program) (dst : Nat) (ptr : Option Nat) : Except Fault Program :=
  match m.object dst with
  | none => .error .misuse
  | some this =>
    if this.ptr_ ≠ ptr then
      match release m.heap this with
      | .error e => .error e
      | .ok h1 =>
        match ptr with
        | none => .ok { heap := h1, objects := m.objects.set dst (some null) }
        | some p =>
          if p ∈ h1.raw_pointers then .error .misuse
          else
            .ok { heap := { h1 with
                            counters := h1.counters ++ [some 1]
                            raw_pointers := p :: h1.raw_pointers }
                  objects := m.objects.set dst
                    (some { ptr_ := some p, ref_count_ := some h1.counters.length }) }
    else .ok m

/-- The destructor. -/
def destroy (m : Program) (dst : Nat) : Except Fault Program :=
  match m.object dst with
  | none => .error .misuse
  | some this =>
    match release m.heap this with
    | .error e => .error e
    | .ok h1 => .ok { heap := h1, objects := m.objects.set dst none }

/-- The statements of a program; a constructor creates the object with the next
number. -/
inductive Command where
  | construct (raw : Nat)
  | construct_empty
  | copy_construct (src : Nat)
  | copy_assign (dst src : Nat)
  | move_construct (src : Nat)
  | move_assign (dst src : Nat)
  | reset (dst : Nat)
  | destroy (dst : Nat)
  deriving DecidableEq, Repr

/-- One statement. -/
def step (m : Program) : Command → Except Fault Program
  | .construct raw => construct m (some raw)
  | .construct_empty => construct m none
  | .copy_construct src => copy_construct m src
  | .copy_assign dst src => copy_assign m dst src
  | .move_construct src => move_construct m src
  | .move_assign dst src => move_assign m dst src
  | .reset dst => reset m dst none
  | .destroy dst => destroy m dst

/-- A program, first statement first. -/
def run (m : Program) : List Command → Except Fault Program
  | [] => .ok m
  | c :: cs =>
    match step m c with
    | .error e => .error e
    | .ok m1 => run m1 cs

/-- The program before its first statement. -/
def start : Program :=
  { heap := { counters := [], deleted := [], raw_pointers := [] }, objects := [] }

/-- The object uses the counter at address `c`. -/
def points_to (c : Nat) : Option shared_ptr → Bool
  | some sp => sp.ref_count_ == some c
  | none => false

/-- The object manages the raw pointer `p`. -/
def holds (p : Nat) : Option shared_ptr → Bool
  | some sp => sp.ptr_ == some p
  | none => false

/-- Number of live objects that share the counter at address `c`. -/
def sharing (objects : List (Option shared_ptr)) (c : Nat) : Nat :=
  objects.countP (points_to c)

/-- Number of live objects that manage the raw pointer `p`. -/
def holders (objects : List (Option shared_ptr)) (p : Nat) : Nat :=
  objects.countP (holds p)

/-- The heap accounts for the objects: an object has both members or none, two
objects share the counter exactly when they share the managed object, every
counter in use holds the number of objects that share it, and the deleted
objects are, each once, the raw pointers handed over that no object manages. -/
structure Accounted (h : Heap) (objects : List (Option shared_ptr)) : Prop where
  paired : ∀ sp, some sp ∈ objects → (sp.ptr_ = none ↔ sp.ref_count_ = none)
  matched : ∀ sp other, some sp ∈ objects → some other ∈ objects → sp.ref_count_ ≠ none →
    (sp.ref_count_ = other.ref_count_ ↔ sp.ptr_ = other.ptr_)
  counted : ∀ sp c, some sp ∈ objects → sp.ref_count_ = some c →
    h.counters.getD c none = some (sharing objects c)
  deleted_once : h.deleted.Nodup
  deleted_iff : ∀ p, p ∈ h.deleted ↔ (p ∈ h.raw_pointers ∧ holders objects p = 0)
  known : ∀ sp p, some sp ∈ objects → sp.ptr_ = some p → p ∈ h.raw_pointers

/-- The statements of `test_basic_functionality` on the pointers, followed by
the destruction of the objects: `sp1` is object 0, `sp2` object 1, and so on. -/
def basic_program : List Command :=
  [.construct_empty, .construct 42, .copy_construct 1, .construct_empty, .copy_assign 3 2,
   .reset 3, .construct 5, .destroy 4, .destroy 3, .destroy 2, .destroy 1, .destroy 0]

end shared_ptr

namespace DeadLock

/-! ## Flag arrays -/

theorem read_flag_of_lt (a : List Bool) (i : Int) (h0 : 0 ≤ i) (h1 : i < (a.length : Int)) :
    ∃ b, read_flag a i = some b := by
  have hlt : i.toNat < a.length := by omega
  exact ⟨a[i.toNat], by simp [read_flag, h0, List.getElem?_eq_getElem hlt]⟩

theorem read_flag_range (a : List Bool) (i : Int) (b : Bool) (h : read_flag a i = some b) :
    0 ≤ i ∧ i < (a.length : Int) := by
  unfold read_flag at h
  split at h
  · simp at h
  · have := List.getElem?_eq_some_iff.mp h
    obtain ⟨hlt, _⟩ := this
    omega

theorem write_flag_of_lt (a : List Bool) (i : Int) (b : Bool) (h0 : 0 ≤ i)
    (h1 : i < (a.length : Int)) : write_flag a i b = some (a.set i.toNat b) := by
  have hlt : i.toNat < a.length := by omega
  simp [write_flag, h0, hlt]

theorem read_flag_set (a : List Bool) (i j : Int) (b : Bool) (h0 : 0 ≤ i)
    (h1 : i < (a.length : Int)) (hj : 0 ≤ j) :
    read_flag (a.set i.toNat b) j = if j = i then some b else read_flag a j := by
  have hlt : i.toNat < a.length := by omega
  by_cases hji : j = i
  · subst hji
    simp [read_flag, hj, hlt]
  · have hne : i.toNat ≠ j.toNat := by omega
    simp [read_flag, hj, hji, List.getElem?_set_ne hne]

theorem read_flag_replicate (n : Nat) (b : Bool) (i : Int) (h0 : 0 ≤ i) (h1 : i < (n : Int)) :
    read_flag (List.replicate n b) i = some b := by
  have hlt : i.toNat < n := by omega
  simp [read_flag, h0, hlt]

theorem count_false_set_true_le (a : List Bool) (i : Nat) :
    (a.set i true).count false ≤ a.count false := by
  induction a generalizing i with
  | nil => simp
  | cons x xs ih =>
    cases i with
    | zero => cases x <;> simp [List.count_cons]
    | succ k =>
      have := ih k
      cases x <;> simp [List.count_cons] <;> omega

theorem count_false_set_true_lt (a : List Bool) (i : Nat) (h : a[i]? = some false) :
    (a.set i true).count false + 1 ≤ a.count false := by
  induction a generalizing i with
  | nil => simp at h
  | cons x xs ih =>
    cases i with
    | zero =>
      simp at h
      subst h
      simp [List.count_cons]
    | succ k =>
      simp at h
      have := ih k h
      cases x <;> simp [List.count_cons] <;> omega

theorem set_true_false_eq (a : List Bool) (i : Nat) (h : a[i]? = some false) :
    ((a.set i true).set i false) = a := by
  induction a generalizing i with
  | nil => simp at h
  | cons x xs ih =>
    cases i with
    | zero =>
      simp at h
      subst h
      simp
    | succ k =>
      simp at h
      simp [ih k h]


/-! ## Correctness of the cycle search -/
theorem search_cycle_loop_post {α : Type} (g : DirectedGraph α) (fuel : Nat) (v : Int)
    (recur : Int → List Bool → List Bool → SearchResult)
    (hrec : ∀ w vis stk, UtilPre g fuel w vis stk →
      ∃ r, recur w vis stk = .ok r ∧ UtilPost g w vis stk r)
    (l : List Int) (hl : ∀ d ∈ l, 0 ≤ d ∧ d < (g.num_vertices : Int) ∧ Edge g v d) :
    ∀ (visited rec_stack : List Bool), visited.length = g.num_vertices →
      rec_stack.length = g.num_vertices → visited.count false ≤ fuel →
      (∀ i, read_flag rec_stack i = some true → read_flag visited i = some true) →
      ∃ r, search_cycle_loop recur l visited rec_stack = .ok r ∧
        LoopPost g v l visited rec_stack r := by
  induction l with
  | nil =>
    intro visited rec_stack hv hs _ _
    refine ⟨(false, visited, rec_stack), rfl, ⟨hv, hs, fun _ h => h, le_refl _, ?_, ?_⟩⟩
    · intro _
      exact ⟨rfl, fun h => h, by simp⟩
    · intro h
      simp at h
  | cons d rest ih =>
    intro visited rec_stack hv hs hfuel hsub
    obtain ⟨hd0, hd1, hedge⟩ := hl d (by simp)
    have hrest : ∀ x ∈ rest, 0 ≤ x ∧ x < (g.num_vertices : Int) ∧ Edge g v x :=
      fun x hx => hl x (by simp [hx])
    obtain ⟨bv, hbv⟩ := read_flag_of_lt visited d hd0 (by omega)
    obtain ⟨bs, hbs⟩ := read_flag_of_lt rec_stack d hd0 (by omega)
    cases bv with
    | false =>
      have hbs_false : read_flag rec_stack d = some false := by
        cases bs with
        | false => exact hbs
        | true =>
          have := hsub d hbs
          rw [hbv] at this
          simp at this
      obtain ⟨⟨b1, vis1, stk1⟩, hcall, hpost⟩ :=
        hrec d visited rec_stack ⟨hv, hs, hd0, hd1, hbv, hfuel, hsub⟩
      cases b1 with
      | true =>
        refine ⟨(true, vis1, stk1), ?_, ⟨hpost.len_visited, hpost.len_stack, hpost.mono,
          hpost.count_le, ?_, ?_⟩⟩
        · simp [search_cycle_loop, hbv, hcall]
        · intro h
          simp at h
        · intro _
          obtain ⟨u, x, hdu, hux, hback⟩ := hpost.on_true rfl
          exact ⟨u, x, Relation.ReflTransGen.head hedge hdu, hux, hback⟩
      | false =>
        obtain ⟨hstk, hvd, hsettle⟩ := hpost.on_false rfl
        have hstk1 : stk1 = rec_stack := hstk
        subst hstk1
        have hlen1 : vis1.length = g.num_vertices := hpost.len_visited
        have hmono1 : ∀ i, read_flag visited i = some true → read_flag vis1 i = some true :=
          hpost.mono
        have hcount1 : vis1.count false ≤ visited.count false := hpost.count_le
        obtain ⟨r, hloop, hlp⟩ := ih hrest vis1 stk1 hlen1 hs (le_trans hcount1 hfuel)
          (fun i hi => hmono1 i (hsub i hi))
        refine ⟨r, ?_, ⟨hlp.len_visited, hlp.len_stack, fun i hi => hlp.mono i (hmono1 i hi),
          le_trans hlp.count_le hcount1, ?_, hlp.on_true⟩⟩
        · simp [search_cycle_loop, hbv, hcall, hloop]
        · intro hr
          obtain ⟨h1, h2, h3⟩ := hlp.on_false hr
          refine ⟨h1, fun h => h2 (hsettle h), ?_⟩
          intro x hx
          rcases List.mem_cons.mp hx with hxd | hxr
          · subst hxd
            exact ⟨hlp.mono x hvd, hbs_false⟩
          · exact h3 x hxr
    | true =>
      cases bs with
      | true =>
        refine ⟨(true, visited, rec_stack), ?_, ⟨hv, hs, fun _ h => h, le_refl _, ?_, ?_⟩⟩
        · simp [search_cycle_loop, hbv, hbs]
        · intro h
          simp at h
        · intro _
          exact ⟨v, d, Relation.ReflTransGen.refl, hedge, Or.inl hbs⟩
      | false =>
        obtain ⟨r, hloop, hlp⟩ := ih hrest visited rec_stack hv hs hfuel hsub
        refine ⟨r, ?_, ⟨hlp.len_visited, hlp.len_stack, hlp.mono, hlp.count_le, ?_,
          hlp.on_true⟩⟩
        · simp [search_cycle_loop, hbv, hbs, hloop]
        · intro hr
          obtain ⟨h1, h2, h3⟩ := hlp.on_false hr
          refine ⟨h1, h2, ?_⟩
          intro x hx
          rcases List.mem_cons.mp hx with hxd | hxr
          · subst hxd
            exact ⟨hlp.mono x hbv, hbs⟩
          · exact h3 x hxr

theorem adj_of_getElem {α : Type} (g : DirectedGraph α) (v : Int) (curr : List Int)
    (h0 : 0 ≤ v) (h : g.adj_lists[v.toNat]? = some curr) : g.adj v = curr := by
  have hn : ¬ v < 0 := by omega
  simp [DirectedGraph.adj, hn, List.getD_eq_getElem?_getD, h]

theorem black_push_iff (visited rec_stack : List Bool) (v i : Int) (h0 : 0 ≤ v)
    (hv : v < (visited.length : Int)) (hs : v < (rec_stack.length : Int))
    (hfresh : read_flag visited v = some false) :
    Black (visited.set v.toNat true) (rec_stack.set v.toNat true) i ↔
      Black visited rec_stack i := by
  unfold Black
  by_cases hi : 0 ≤ i
  · rw [read_flag_set visited v i true h0 hv hi, read_flag_set rec_stack v i true h0 hs hi]
    by_cases hiv : i = v
    · subst hiv
      simp [hfresh]
    · simp [hiv]
  · have hneg : i < 0 := by omega
    simp [read_flag, hneg]

theorem settled_push {α : Type} (g : DirectedGraph α) (visited rec_stack : List Bool) (v : Int)
    (h0 : 0 ≤ v) (hv : v < (visited.length : Int)) (hs : v < (rec_stack.length : Int))
    (hfresh : read_flag visited v = some false) (h : Settled g visited rec_stack) :
    Settled g (visited.set v.toNat true) (rec_stack.set v.toNat true) := by
  constructor
  · intro i hi d hd
    rw [black_push_iff visited rec_stack v _ h0 hv hs hfresh] at hi ⊢
    exact h.1 i hi d hd
  · intro i hi
    rw [black_push_iff visited rec_stack v _ h0 hv hs hfresh] at hi
    exact h.2 i hi

theorem black_closed {α : Type} (g : DirectedGraph α) (visited rec_stack : List Bool)
    (h : Settled g visited rec_stack) (a b : Int)
    (hab : Relation.ReflTransGen (Edge g) a b) (ha : Black visited rec_stack a) :
    Black visited rec_stack b := by
  induction hab with
  | refl => exact ha
  | tail _ hbc ih => exact h.1 _ ih _ hbc

theorem settled_pop {α : Type} (g : DirectedGraph α) (visited rec_stack : List Bool) (v : Int)
    (h0 : 0 ≤ v) (hs : v < (rec_stack.length : Int))
    (hstack : read_flag rec_stack v = some false)
    (hvis : read_flag visited v = some true)
    (hsucc : ∀ d, Edge g v d → Black visited (rec_stack.set v.toNat true) d)
    (h : Settled g visited (rec_stack.set v.toNat true)) :
    Settled g visited rec_stack := by
  have key : ∀ i, Black visited rec_stack i ↔
      (i = v ∨ Black visited (rec_stack.set v.toNat true) i) := by
    intro i
    unfold Black
    by_cases hi : 0 ≤ i
    · rw [read_flag_set rec_stack v i true h0 hs hi]
      by_cases hiv : i = v
      · subst hiv
        simp [hvis, hstack]
      · simp [hiv]
    · have hneg : i < 0 := by omega
      have hne : i ≠ v := by omega
      simp [read_flag, hneg, hne]
  have hvnot : ¬ Black visited (rec_stack.set v.toNat true) v := by
    intro hb
    have := hb.2
    rw [read_flag_set rec_stack v v true h0 hs h0] at this
    simp at this
  constructor
  · intro i hi d hd
    rw [key] at hi ⊢
    rcases hi with hiv | hib
    · subst hiv
      exact Or.inr (hsucc d hd)
    · exact Or.inr (h.1 i hib d hd)
  · intro i hi hcyc
    rw [key] at hi
    rcases hi with hiv | hib
    · subst hiv
      obtain ⟨d, hid, hdi⟩ := Relation.TransGen.head'_iff.mp hcyc
      exact hvnot (black_closed g _ _ h d i hdi (hsucc d hid))
    · exact h.2 i hib hcyc

theorem search_cycle_util_post {α : Type} (g : DirectedGraph α) (hshape : g.Shaped)
    (hdest : g.DestsInRange) (fuel : Nat) :
    ∀ v vis stk, UtilPre g fuel v vis stk →
      ∃ r, search_cycle_util g fuel v vis stk = .ok r ∧ UtilPost g v vis stk r := by
  induction fuel with
  | zero =>
    intro v vis stk hpre
    exfalso
    have h1 := hpre.fresh
    have h2 := hpre.fuel_ok
    have hr := read_flag_range vis v false h1
    have hlt : v.toNat < vis.length := by omega
    have hget : vis[v.toNat]? = some false := by
      have hn : ¬ v < 0 := by omega
      simpa [read_flag, hn] using h1
    have := count_false_set_true_lt vis v.toNat hget
    omega
  | succ fuel ih =>
    intro v vis stk hpre
    obtain ⟨hlv, hls, h0, h1, hfresh, hfuel, hsub⟩ := hpre
    have hlt : v.toNat < g.adj_lists.length := by rw [hshape.1]; omega
    have hcurr : g.adj_lists[v.toNat]? = some (g.adj_lists[v.toNat]) :=
      List.getElem?_eq_getElem hlt
    have hadj := adj_of_getElem g v _ h0 hcurr
    have hvlen : v < (vis.length : Int) := by omega
    have hslen : v < (stk.length : Int) := by omega
    have hw1 := write_flag_of_lt vis v true h0 hvlen
    have hw2 := write_flag_of_lt stk v true h0 hslen
    have hstkv : read_flag stk v = some false := by
      obtain ⟨b, hb⟩ := read_flag_of_lt stk v h0 hslen
      cases b with
      | false => exact hb
      | true =>
        have := hsub v hb
        rw [hfresh] at this
        simp at this
    have hgetv : vis[v.toNat]? = some false := by
      have hn : ¬ v < 0 := by omega
      simpa [read_flag, hn] using hfresh
    have hgets : stk[v.toNat]? = some false := by
      have hn : ¬ v < 0 := by omega
      simpa [read_flag, hn] using hstkv
    have hmono0 : ∀ i, read_flag vis i = some true →
        read_flag (vis.set v.toNat true) i = some true := by
      intro i hi
      have hi0 := (read_flag_range vis i true hi).1
      rw [read_flag_set vis v i true h0 hvlen hi0]
      split
      · rfl
      · exact hi
    have hloop := search_cycle_loop_post g fuel v (search_cycle_util g fuel) ih
      (g.adj_lists[v.toNat])
      (by
        intro d hd
        have hmem : g.adj_lists[v.toNat] ∈ g.adj_lists := List.getElem_mem hlt
        have := hdest _ hmem d hd
        refine ⟨this.1, this.2, ?_⟩
        unfold Edge
        rw [hadj]
        exact hd)
      (vis.set v.toNat true) (stk.set v.toNat true)
      (by simp [hlv]) (by simp [hls])
      (by
        have := count_false_set_true_lt vis v.toNat hgetv
        omega)
      (by
        intro i hi
        have hi0 := (read_flag_range _ i true hi).1
        rw [read_flag_set stk v i true h0 hslen hi0] at hi
        rw [read_flag_set vis v i true h0 hvlen hi0]
        split
        · rfl
        · rename_i hne
          simp [hne] at hi
          exact hsub i hi)
    obtain ⟨⟨b, vis2, stk2⟩, hrun, hlp⟩ := hloop
    have hguard : ¬ v ≥ (g.num_vertices : Int) := by omega
    have hneg : ¬ v < 0 := by omega
    have hcount : vis2.count false ≤ vis.count false :=
      le_trans hlp.count_le (count_false_set_true_le vis v.toNat)
    cases b with
    | true =>
      refine ⟨(true, vis2, stk2), ?_, ⟨hlp.len_visited, hlp.len_stack,
        fun i hi => hlp.mono i (hmono0 i hi), hcount, ?_, ?_⟩⟩
      · simp [search_cycle_util, hguard, hneg, hcurr, hw1, hw2, hrun]
      · intro h
        simp at h
      · intro _
        obtain ⟨u, d, hvu, hud, hback⟩ := hlp.on_true rfl
        refine ⟨u, d, hvu, hud, ?_⟩
        rcases hback with hst | hdu
        · have hd0 := (read_flag_range _ d true hst).1
          rw [read_flag_set stk v d true h0 hslen hd0] at hst
          by_cases hdv : d = v
          · subst hdv
            exact Or.inr hvu
          · simp [hdv] at hst
            exact Or.inl hst
        · exact Or.inr hdu
    | false =>
      obtain ⟨hstk2, hsettle, hblack⟩ := hlp.on_false rfl
      have hstk2e : stk2 = stk.set v.toNat true := hstk2
      subst hstk2e
      have hw3 : write_flag (stk.set v.toNat true) v false = some stk := by
        rw [write_flag_of_lt _ v false h0 (by simp; omega)]
        rw [set_true_false_eq stk v.toNat hgets]
      have hvis2v : read_flag vis2 v = some true := by
        apply hlp.mono
        rw [read_flag_set vis v v true h0 hvlen h0]
        simp
      refine ⟨(false, vis2, stk), ?_, ⟨hlp.len_visited, hls,
        fun i hi => hlp.mono i (hmono0 i hi), hcount, ?_, ?_⟩⟩
      · simp [search_cycle_util, hguard, hneg, hcurr, hw1, hw2, hrun, hw3]
      · intro _
        refine ⟨rfl, hvis2v, ?_⟩
        intro hset
        apply settled_pop g vis2 stk v h0 hslen hstkv hvis2v
        · intro d hd
          apply hblack d
          unfold Edge at hd
          rw [hadj] at hd
          exact hd
        · exact hsettle (settled_push g vis stk v h0 hvlen hslen hfresh hset)
      · intro h
        simp at h


theorem settled_init {α : Type} (g : DirectedGraph α) (n : Nat) :
    Settled g (List.replicate n false) (List.replicate n false) := by
  have hno : ∀ i, ¬ Black (List.replicate n false) (List.replicate n false) i := by
    intro i hb
    have h := hb.1
    have hr := read_flag_range _ i true h
    rw [read_flag_replicate n false i hr.1 (by simpa using hr.2)] at h
    simp at h
  exact ⟨fun i hi => absurd hi (hno i), fun i hi => absurd hi (hno i)⟩

theorem search_cycle_verdict {α : Type} (g : DirectedGraph α) (hshape : g.Shaped)
    (hdest : g.DestsInRange) (s : Int) (h0 : 0 ≤ s) (h1 : s < (g.num_vertices : Int)) :
    ∃ b, search_cycle g s = .ok b ∧ (b = true ↔ ReachableCycle g s) := by
  have hpre : UtilPre g g.num_vertices s (List.replicate g.num_vertices false)
      (List.replicate g.num_vertices false) := by
    refine ⟨by simp, by simp, h0, h1, read_flag_replicate _ _ _ h0 h1, by simp, ?_⟩
    intro i hi
    have hr := read_flag_range _ i true hi
    rw [read_flag_replicate _ false i hr.1 (by simpa using hr.2)] at hi
    simp at hi
  obtain ⟨⟨b, vis, stk⟩, hrun, hpost⟩ :=
    search_cycle_util_post g hshape hdest g.num_vertices s _ _ hpre
  have hguard : ¬ s ≥ (g.num_vertices : Int) := by omega
  refine ⟨b, by simp [search_cycle, hguard, hrun], ?_⟩
  cases b with
  | true =>
    simp only [true_iff]
    obtain ⟨u, d, hsu, hud, hback⟩ := hpost.on_true rfl
    rcases hback with hst | hdu
    · have hr := read_flag_range _ d true hst
      rw [read_flag_replicate _ false d hr.1 (by simpa using hr.2)] at hst
      simp at hst
    · exact ⟨u, hsu, Relation.TransGen.head' hud hdu⟩
  | false =>
    simp only [Bool.false_eq_true, false_iff]
    rintro ⟨c, hsc, hcc⟩
    obtain ⟨_, hvs, hsettle⟩ := hpost.on_false rfl
    have hset := hsettle (settled_init g g.num_vertices)
    have hbs : Black vis (List.replicate g.num_vertices false) s :=
      ⟨hvs, read_flag_replicate _ _ _ h0 h1⟩
    exact hset.2 c (black_closed g _ _ hset s c hsc hbs) hcc

/-- C1: on a graph whose stored destinations are in range, a directed cycle
reachable from the in-range start vertex makes `search_cycle` return true. -/
theorem search_cycle_complete {α : Type} (g : DirectedGraph α) (hshape : g.Shaped)
    (hdest : g.DestsInRange) (s : Int) (h0 : 0 ≤ s) (h1 : s < (g.num_vertices : Int))
    (hcycle : ReachableCycle g s) : search_cycle g s = .ok true := by
  obtain ⟨b, hrun, hb⟩ := search_cycle_verdict g hshape hdest s h0 h1
  rw [hrun, hb.mpr hcycle]

/-- C2: when `search_cycle` returns true a directed cycle is reachable from the
start vertex; it returns false on an acyclic graph, and it returns false when
no cycle of the graph can be reached from the start vertex. -/
theorem search_cycle_sound {α : Type} (g : DirectedGraph α) (hshape : g.Shaped)
    (hdest : g.DestsInRange) (s : Int) (h0 : 0 ≤ s) (h1 : s < (g.num_vertices : Int)) :
    (search_cycle g s = .ok true → ReachableCycle g s) ∧
    ((∀ c, ¬ Relation.TransGen (Edge g) c c) → search_cycle g s = .ok false) ∧
    ((∀ c, Relation.TransGen (Edge g) c c → ¬ Relation.ReflTransGen (Edge g) s c) →
      search_cycle g s = .ok false) := by
  obtain ⟨b, hrun, hb⟩ := search_cycle_verdict g hshape hdest s h0 h1
  have hfalse : ¬ ReachableCycle g s → search_cycle g s = .ok false := by
    intro hno
    cases b with
    | true => exact absurd (hb.mp rfl) hno
    | false => exact hrun
  refine ⟨?_, ?_, ?_⟩
  · intro h
    rw [hrun] at h
    have hbt : b = true := by
      cases b with
      | true => rfl
      | false => simp at h
    exact hb.mp hbt
  · intro hacyc
    exact hfalse (fun ⟨c, _, hcc⟩ => hacyc c hcc)
  · intro hunreach
    exact hfalse (fun ⟨c, hsc, hcc⟩ => hunreach c hcc hsc)

theorem search_cycle_complete_witness : search_cycle middle_cycle_graph 0 = .ok true :=
  search_cycle_complete middle_cycle_graph (by decide) (by decide) 0 (by decide) (by decide)
    ⟨1, Relation.ReflTransGen.single (by decide),
      Relation.TransGen.tail (Relation.TransGen.tail (Relation.TransGen.single
        (show Edge middle_cycle_graph 1 2 by decide)) (show Edge middle_cycle_graph 2 3 by decide))
        (show Edge middle_cycle_graph 3 1 by decide)⟩

theorem search_cycle_sound_witness :
    (search_cycle diamond_graph 0 = .ok true → ReachableCycle diamond_graph 0) ∧
    ((∀ c, ¬ Relation.TransGen (Edge diamond_graph) c c) →
      search_cycle diamond_graph 0 = .ok false) ∧
    ((∀ c, Relation.TransGen (Edge diamond_graph) c c →
        ¬ Relation.ReflTransGen (Edge diamond_graph) 0 c) →
      search_cycle diamond_graph 0 = .ok false) :=
  search_cycle_sound diamond_graph (by decide) (by decide) 0 (by decide) (by decide)

/-! ## Edge insertion and removal -/

theorem adj_eq_getElem {α : Type} (g : DirectedGraph α) (v : Int) (h0 : 0 ≤ v)
    (h1 : v.toNat < g.adj_lists.length) : g.adj v = g.adj_lists[v.toNat] := by
  apply adj_of_getElem g v _ h0
  exact List.getElem?_eq_getElem h1

theorem list_set_self {β : Type} (l : List β) (i : Nat) (x : β) (h : l[i]? = some x) :
    l.set i x = l := by
  induction l generalizing i with
  | nil => simp
  | cons y ys ih =>
    cases i with
    | zero =>
      simp at h
      simp [h]
    | succ k =>
      simp at h
      simp [ih k h]

theorem set_adj_self {α : Type} (g : DirectedGraph α) (v : Int) (h0 : 0 ≤ v) :
    g.adj_lists.set v.toNat (g.adj v) = g.adj_lists := by
  by_cases h1 : v.toNat < g.adj_lists.length
  · rw [adj_eq_getElem g v h0 h1]
    exact list_set_self _ _ _ (List.getElem?_eq_getElem h1)
  · exact List.set_eq_of_length_le (by omega)

theorem unlink_first_none (dest : Int) (l : List Int) (h : dest ∉ l) :
    unlink_first dest l = none := by
  induction l with
  | nil => rfl
  | cons d rest ih =>
    have hne : d ≠ dest := fun e => h (by simp [e])
    have hrest : dest ∉ rest := fun e => h (by simp [e])
    simp [unlink_first, hne, ih hrest]

theorem unlink_first_some (dest : Int) (l : List Int) (h : dest ∈ l) :
    unlink_first dest l = some (l.erase dest) := by
  induction l with
  | nil => simp at h
  | cons d rest ih =>
    by_cases hd : d = dest
    · subst hd
      simp [unlink_first]
    · have hrest : dest ∈ rest := by
        rcases List.mem_cons.mp h with e | e
        · exact absurd e.symm hd
        · exact e
      simp [unlink_first, hd, ih hrest, List.erase_cons_tail, hd]

/-- C9: on a graph and in-range vertices, `add_edge(a, b)` followed by
`remove_edge(a, b)` returns true and gives back exactly the graph before the
`add_edge`, the adjacency list of `a` included, whatever it held. -/
theorem add_then_remove_edge {α : Type} (g : DirectedGraph α) (hshape : g.Shaped) (a b : Int)
    (ha0 : 0 ≤ a) (ha1 : a < (g.num_vertices : Int)) (hb0 : 0 ≤ b)
    (hb1 : b < (g.num_vertices : Int)) :
    remove_edge (add_edge g a b) a b = (true, g) := by
  have hguard : ¬ (a < 0 ∨ a ≥ (g.num_vertices : Int) ∨ b < 0 ∨ b ≥ (g.num_vertices : Int)) := by
    omega
  have hlt : a.toNat < g.adj_lists.length := by rw [hshape.1]; omega
  have hadd : add_edge g a b =
      { g with adj_lists := g.adj_lists.set a.toNat (b :: g.adj a) } := by
    simp only [add_edge, if_neg hguard]
  have hadj : (add_edge g a b).adj a = b :: g.adj a := by
    rw [hadd]
    rw [adj_eq_getElem _ a ha0 (by simpa using hlt)]
    simp
  have hnum : (add_edge g a b).num_vertices = g.num_vertices := by rw [hadd]
  unfold remove_edge
  rw [hnum, if_neg hguard, hadj]
  simp only [if_true]
  rw [hadd]
  simp only [List.set_set, set_adj_self g a ha0]

theorem add_then_remove_edge_witness :
    remove_edge (add_edge middle_cycle_graph 3 1) 3 1 = (true, middle_cycle_graph) :=
  add_then_remove_edge middle_cycle_graph (by decide) 3 1 (by decide) (by decide) (by decide)
    (by decide)

/-- C10: when `dst` does not occur in the adjacency list of the in-range vertex
`src`, `remove_edge(src, dst)` returns false and leaves the graph as it is, so
any number of such calls leaves it as it is. -/
theorem remove_absent_edge {α : Type} (g : DirectedGraph α) (src dst : Int)
    (hs0 : 0 ≤ src) (hs1 : src < (g.num_vertices : Int)) (hd0 : 0 ≤ dst)
    (hd1 : dst < (g.num_vertices : Int)) (habsent : dst ∉ g.adj src) :
    remove_edge g src dst = (false, g) ∧
    ∀ n : Nat, (fun h => (remove_edge h src dst).2)^[n] g = g := by
  have hone : remove_edge g src dst = (false, g) := by
    unfold remove_edge
    have hguard : ¬ (src < 0 ∨ src ≥ (g.num_vertices : Int) ∨ dst < 0 ∨
        dst ≥ (g.num_vertices : Int)) := by omega
    rw [if_neg hguard]
    split
    · rfl
    · rename_i d rest heq
      rw [heq] at habsent
      have hne : ¬ d = dst := fun e => habsent (by simp [e])
      simp only [if_neg hne, unlink_first_none dst (d :: rest) habsent]
  refine ⟨hone, ?_⟩
  intro n
  induction n with
  | zero => rfl
  | succ k ih =>
    rw [Function.iterate_succ_apply]
    simp only [hone]
    exact ih

theorem remove_absent_edge_witness :
    remove_edge middle_cycle_graph 0 2 = (false, middle_cycle_graph) ∧
    ∀ n : Nat, (fun h => (remove_edge h 0 2).2)^[n] middle_cycle_graph = middle_cycle_graph :=
  remove_absent_edge middle_cycle_graph 0 2 (by decide) (by decide) (by decide) (by decide)
    (by decide)

theorem add_edge_eq {α : Type} (g : DirectedGraph α) (u d : Int) (hu0 : 0 ≤ u)
    (hu1 : u < (g.num_vertices : Int)) (hd0 : 0 ≤ d) (hd1 : d < (g.num_vertices : Int)) :
    add_edge g u d = { g with adj_lists := g.adj_lists.set u.toNat (d :: g.adj u) } := by
  have hguard : ¬ (u < 0 ∨ u ≥ (g.num_vertices : Int) ∨ d < 0 ∨ d ≥ (g.num_vertices : Int)) := by
    omega
  simp only [add_edge, if_neg hguard]

theorem remove_edge_eq {α : Type} (g : DirectedGraph α) (u d : Int) (hu0 : 0 ≤ u)
    (hu1 : u < (g.num_vertices : Int)) (hd0 : 0 ≤ d) (hd1 : d < (g.num_vertices : Int)) :
    remove_edge g u d =
      (decide (d ∈ g.adj u),
        { g with adj_lists := g.adj_lists.set u.toNat ((g.adj u).erase d) }) := by
  have hguard : ¬ (u < 0 ∨ u ≥ (g.num_vertices : Int) ∨ d < 0 ∨ d ≥ (g.num_vertices : Int)) := by
    omega
  unfold remove_edge
  rw [if_neg hguard]
  split
  · rename_i heq
    have hself := set_adj_self g u hu0
    rw [heq] at hself
    simp [heq, hself]
  · rename_i x rest heq
    by_cases hx : x = d
    · subst hx
      simp [heq]
    · rw [if_neg hx]
      by_cases hmem : d ∈ x :: rest
      · rw [unlink_first_some d _ hmem]
        simp [heq, hmem]
      · rw [unlink_first_none d _ hmem]
        have herase : (x :: rest).erase d = x :: rest := List.erase_of_not_mem hmem
        simp only [heq, herase, hmem, decide_False]
        rw [← heq, set_adj_self g u hu0]

theorem adj_set {α : Type} (g : DirectedGraph α) (u : Nat) (l : List Int) (w : Int)
    (hu : u < g.adj_lists.length) :
    ({ g with adj_lists := g.adj_lists.set u l } : DirectedGraph α).adj w =
      if w = (u : Int) then l else g.adj w := by
  unfold DirectedGraph.adj
  by_cases hw : w < 0
  · have hne : w ≠ (u : Int) := by omega
    simp [hw, hne]
  · simp only [if_neg hw]
    by_cases hwu : w = (u : Int)
    · subst hwu
      simp [List.getD_eq_getElem?_getD, hu]
    · have hne : u ≠ w.toNat := by omega
      simp [hwu, List.getD_eq_getElem?_getD, List.getElem?_set_ne hne]

theorem add_edge_adj {α : Type} (g : DirectedGraph α) (hshape : g.Shaped) (u d w : Int)
    (hu0 : 0 ≤ u) (hu1 : u < (g.num_vertices : Int)) (hd0 : 0 ≤ d)
    (hd1 : d < (g.num_vertices : Int)) :
    (add_edge g u d).adj w = if w = u then d :: g.adj u else g.adj w := by
  rw [add_edge_eq g u d hu0 hu1 hd0 hd1, adj_set g u.toNat _ w (by rw [hshape.1]; omega)]
  have : ((u.toNat : Nat) : Int) = u := Int.toNat_of_nonneg hu0
  rw [this]

theorem remove_edge_adj {α : Type} (g : DirectedGraph α) (hshape : g.Shaped) (u d w : Int)
    (hu0 : 0 ≤ u) (hu1 : u < (g.num_vertices : Int)) (hd0 : 0 ≤ d)
    (hd1 : d < (g.num_vertices : Int)) :
    (remove_edge g u d).2.adj w = if w = u then (g.adj u).erase d else g.adj w := by
  rw [remove_edge_eq g u d hu0 hu1 hd0 hd1]
  simp only
  rw [adj_set g u.toNat _ w (by rw [hshape.1]; omega)]
  have : ((u.toNat : Nat) : Int) = u := Int.toNat_of_nonneg hu0
  rw [this]

theorem add_edge_fields {α : Type} (g : DirectedGraph α) (u d : Int) :
    (add_edge g u d).num_vertices = g.num_vertices ∧
    (add_edge g u d).vertex_data = g.vertex_data ∧
    (add_edge g u d).copy_data_function = g.copy_data_function ∧
    (add_edge g u d).adj_lists.length = g.adj_lists.length := by
  unfold add_edge
  split <;> simp

theorem remove_edge_fields {α : Type} (g : DirectedGraph α) (u d : Int) :
    (remove_edge g u d).2.num_vertices = g.num_vertices ∧
    (remove_edge g u d).2.vertex_data = g.vertex_data ∧
    (remove_edge g u d).2.copy_data_function = g.copy_data_function ∧
    (remove_edge g u d).2.adj_lists.length = g.adj_lists.length := by
  unfold remove_edge
  split
  · simp
  · split
    · simp
    · split
      · simp
      · split <;> simp

/-! ## The registry scan -/

theorem vertex_matches_iff (a b : VertexData) : vertex_matches a b = true ↔ a = b := by
  cases a with
  | mk ta ia =>
    cases b with
    | mk tb ib =>
      cases ta <;> cases tb <;>
        simp [vertex_matches, VertexData.thread_id, VertexData.mutex_addr]

theorem find_vertex_scan_spec (vd : List (Option VertexData)) (data : VertexData) (k : Nat) :
    ∀ i, (find_vertex_scan vd data k i = -1 ∧
        ∀ j, i ≤ j → j < i + k → vd.getD j none ≠ some data) ∨
      (∃ j, i ≤ j ∧ j < i + k ∧ find_vertex_scan vd data k i = (j : Int) ∧
        vd.getD j none = some data ∧ ∀ m, i ≤ m → m < j → vd.getD m none ≠ some data) := by
  induction k with
  | zero =>
    intro i
    left
    exact ⟨rfl, fun j h1 h2 => by omega⟩
  | succ k ih =>
    intro i
    unfold find_vertex_scan
    cases hvi : vd.getD i none with
    | none =>
      simp only
      rcases ih (i + 1) with ⟨h1, h2⟩ | ⟨j, h1, h2, h3, h4, h5⟩
      · left
        refine ⟨h1, fun j hj1 hj2 => ?_⟩
        by_cases hji : j = i
        · subst hji
          rw [hvi]
          simp
        · exact h2 j (by omega) (by omega)
      · right
        refine ⟨j, by omega, by omega, h3, h4, fun m hm1 hm2 => ?_⟩
        by_cases hmi : m = i
        · subst hmi
          rw [hvi]
          simp
        · exact h5 m (by omega) hm2
    | some x =>
      simp only
      by_cases hm : vertex_matches x data = true
      · rw [if_pos hm]
        right
        refine ⟨i, le_refl _, by omega, rfl, ?_, fun m hm1 hm2 => by omega⟩
        rw [hvi, (vertex_matches_iff x data).mp hm]
      · rw [if_neg hm]
        have hne : x ≠ data := fun e => hm ((vertex_matches_iff x data).mpr e)
        rcases ih (i + 1) with ⟨h1, h2⟩ | ⟨j, h1, h2, h3, h4, h5⟩
        · left
          refine ⟨h1, fun j hj1 hj2 => ?_⟩
          by_cases hji : j = i
          · subst hji
            rw [hvi]
            simpa using hne
          · exact h2 j (by omega) (by omega)
        · right
          refine ⟨j, by omega, by omega, h3, h4, fun m hm1 hm2 => ?_⟩
          by_cases hmi : m = i
          · subst hmi
            rw [hvi]
            simpa using hne
          · exact h5 m (by omega) hm2

theorem find_scan_eq_neg_one_iff (vd : List (Option VertexData)) (data : VertexData) (n : Nat) :
    find_vertex_scan vd data n 0 = -1 ↔ ∀ j, j < n → vd.getD j none ≠ some data := by
  rcases find_vertex_scan_spec vd data n 0 with ⟨h1, h2⟩ | ⟨j, _, h2, h3, h4, _⟩
  · exact ⟨fun _ j hj => h2 j (Nat.zero_le _) (by omega), fun _ => h1⟩
  · constructor
    · intro h
      rw [h3] at h
      omega
    · intro h
      exact absurd h4 (h j (by omega))

theorem find_scan_eq_iff (vd : List (Option VertexData)) (data : VertexData) (n j : Nat) :
    find_vertex_scan vd data n 0 = (j : Int) ↔ FirstAt vd data n j := by
  rcases find_vertex_scan_spec vd data n 0 with ⟨h1, h2⟩ | ⟨i, _, h2, h3, h4, h5⟩
  · constructor
    · intro h
      rw [h1] at h
      omega
    · rintro ⟨hj, hd, _⟩
      exact absurd hd (h2 j (Nat.zero_le _) (by omega))
  · constructor
    · intro h
      rw [h3] at h
      have hij : i = j := by omega
      subst hij
      exact ⟨by omega, h4, fun m hm => h5 m (Nat.zero_le _) hm⟩
    · rintro ⟨hj, hd, hfirst⟩
      rw [h3]
      have hij : i = j := by
        rcases Nat.lt_trichotomy i j with h | h | h
        · exact absurd h4 (hfirst i h)
        · exact h
        · exact absurd hd (h5 j (Nat.zero_le _) h)
      rw [hij]

theorem find_scan_cases (vd : List (Option VertexData)) (data : VertexData) (n : Nat) :
    find_vertex_scan vd data n 0 = -1 ∨
      ∃ j : Nat, find_vertex_scan vd data n 0 = (j : Int) ∧ FirstAt vd data n j := by
  rcases find_vertex_scan_spec vd data n 0 with ⟨h1, _⟩ | ⟨i, _, h2, h3, h4, h5⟩
  · exact Or.inl h1
  · exact Or.inr ⟨i, h3, by omega, h4, fun m hm => h5 m (Nat.zero_le _) hm⟩

/-! ## The registry invariant -/

theorem adj_natCast {α : Type} (g : DirectedGraph α) (u : Nat) :
    g.adj (u : Int) = g.adj_lists.getD u [] := by
  have h : ¬ (u : Int) < 0 := by omega
  simp [DirectedGraph.adj, h]

theorem registry_edges_adj (g : DirectedGraph VertexData) (nv : Nat) (h : RegistryOk g nv)
    (u d : Int) (hd : d ∈ g.adj u) : 0 ≤ u ∧ u < (nv : Int) ∧ 0 ≤ d ∧ d < (nv : Int) := by
  by_cases hu : u < 0
  · simp [DirectedGraph.adj, hu] at hd
  · have hcast : ((u.toNat : Nat) : Int) = u := Int.toNat_of_nonneg (by omega)
    rw [← hcast, adj_natCast] at hd
    have := h.edges u.toNat d hd
    omega

theorem registry_of_adj (g g1 : DirectedGraph VertexData) (nv : Nat) (h : RegistryOk g nv)
    (hnum : g1.num_vertices = g.num_vertices) (hvd : g1.vertex_data = g.vertex_data)
    (hcopy : g1.copy_data_function = g.copy_data_function)
    (hlen : g1.adj_lists.length = g.adj_lists.length)
    (hadj : ∀ u d, d ∈ g1.adj u → 0 ≤ u ∧ u < (nv : Int) ∧ 0 ≤ d ∧ d < (nv : Int)) :
    RegistryOk g1 nv := by
  refine ⟨⟨?_, ?_⟩, ?_, ?_, h.next_le, ?_, ?_⟩
  · rw [hlen, hnum]; exact h.shaped.1
  · rw [hvd, hnum]; exact h.shaped.2
  · rw [hnum]; exact h.capacity
  · rw [hcopy]; exact h.copy
  · rw [hvd]; exact h.registered
  · intro u d hd
    rw [← adj_natCast] at hd
    have := hadj u d hd
    omega

theorem registry_add_edge (g : DirectedGraph VertexData) (nv : Nat) (h : RegistryOk g nv)
    (u d : Int) (hu0 : 0 ≤ u) (hu1 : u < (nv : Int)) (hd0 : 0 ≤ d) (hd1 : d < (nv : Int)) :
    RegistryOk (add_edge g u d) nv := by
  have hf := add_edge_fields g u d
  have hcap := h.capacity
  have hle := h.next_le
  apply registry_of_adj g _ nv h hf.1 hf.2.1 hf.2.2.1 hf.2.2.2
  intro w x hx
  rw [add_edge_adj g h.shaped u d w hu0 (by omega) hd0 (by omega)] at hx
  split at hx
  · rename_i hwu
    subst hwu
    rcases List.mem_cons.mp hx with e | e
    · subst e
      exact ⟨hu0, hu1, hd0, hd1⟩
    · exact registry_edges_adj g nv h _ _ e
  · exact registry_edges_adj g nv h _ _ hx

theorem registry_remove_edge (g : DirectedGraph VertexData) (nv : Nat) (h : RegistryOk g nv)
    (u d : Int) : RegistryOk (remove_edge g u d).2 nv := by
  have hf := remove_edge_fields g u d
  apply registry_of_adj g _ nv h hf.1 hf.2.1 hf.2.2.1 hf.2.2.2
  by_cases hr : 0 ≤ u ∧ u < (g.num_vertices : Int) ∧ 0 ≤ d ∧ d < (g.num_vertices : Int)
  · intro w x hx
    rw [remove_edge_adj g h.shaped u d w hr.1 hr.2.1 hr.2.2.1 hr.2.2.2] at hx
    split at hx
    · rename_i hwu
      subst hwu
      exact registry_edges_adj g nv h _ _ (List.mem_of_mem_erase hx)
    · exact registry_edges_adj g nv h _ _ hx
  · have hguard : u < 0 ∨ u ≥ (g.num_vertices : Int) ∨ d < 0 ∨ d ≥ (g.num_vertices : Int) := by
      omega
    have : remove_edge g u d = (false, g) := by
      unfold remove_edge
      rw [if_pos hguard]
    rw [this]
    intro w x hx
    exact registry_edges_adj g nv h _ _ hx

theorem registered_firstAt (g : DirectedGraph VertexData) (nv : Nat) (h : RegistryOk g nv)
    (i : Nat) (hi : i < nv) :
    ∃ d, g.vertex_data.getD i none = some d ∧ FirstAt g.vertex_data d nv i := by
  obtain ⟨d, hd, hf⟩ := h.registered i hi
  exact ⟨d, hd, (find_scan_eq_iff _ _ _ _).mp hf⟩

theorem registered_inj (g : DirectedGraph VertexData) (nv : Nat) (h : RegistryOk g nv)
    (i j : Nat) (hi : i < nv) (hj : j < nv) (d : VertexData)
    (hdi : g.vertex_data.getD i none = some d) (hdj : g.vertex_data.getD j none = some d) :
    i = j := by
  obtain ⟨di, hi1, hi2⟩ := registered_firstAt g nv h i hi
  obtain ⟨dj, hj1, hj2⟩ := registered_firstAt g nv h j hj
  rw [hdi] at hi1
  rw [hdj] at hj1
  have e1 : d = di := by simpa using hi1
  have e2 : d = dj := by simpa using hj1
  subst e1
  subst e2
  rcases Nat.lt_trichotomy i j with hlt | heq | hgt
  · exact absurd hdi (hj2.2.2 i hlt)
  · exact heq
  · exact absurd hdj (hi2.2.2 j hgt)

theorem find_of_registered (g : DirectedGraph VertexData) (nv : Nat) (h : RegistryOk g nv)
    (i : Nat) (hi : i < nv) (d : VertexData) (hd : g.vertex_data.getD i none = some d) :
    find_vertex_scan g.vertex_data d nv 0 = (i : Int) := by
  obtain ⟨di, h1, h2⟩ := h.registered i hi
  rw [hd] at h1
  have e : d = di := by simpa using h1
  rw [e]
  exact h2

theorem install_getD (g : DirectedGraph VertexData) (nv : Nat) (d : VertexData)
    (hlt : nv < g.vertex_data.length) (i : Nat) :
    (install g nv d).vertex_data.getD i none =
      if i = nv then some d else g.vertex_data.getD i none := by
  unfold install
  by_cases hi : i = nv
  · subst hi
    simp [List.getD_eq_getElem?_getD, hlt]
  · have hne : nv ≠ i := fun e => hi e.symm
    simp [hi, List.getD_eq_getElem?_getD, List.getElem?_set_ne hne]

theorem registry_install (g : DirectedGraph VertexData) (nv : Nat) (h : RegistryOk g nv)
    (d : VertexData) (hroom : nv < MAX_VERTICES)
    (hnew : find_vertex_scan g.vertex_data d nv 0 = -1) :
    RegistryOk (install g nv d) (nv + 1) := by
  have hlt : nv < g.vertex_data.length := by rw [h.shaped.2, h.capacity]; exact hroom
  have hnone := (find_scan_eq_neg_one_iff _ _ _).mp hnew
  refine ⟨⟨h.shaped.1, ?_⟩, h.capacity, h.copy, hroom, ?_, ?_⟩
  · simp [install, h.shaped.2]
  · intro i hi
    by_cases hinv : i = nv
    · subst hinv
      refine ⟨d, by rw [install_getD g i d hlt, if_pos rfl], ?_⟩
      rw [find_scan_eq_iff]
      refine ⟨by omega, by rw [install_getD g i d hlt, if_pos rfl], ?_⟩
      intro m hm
      rw [install_getD g i d hlt]
      have hmi : m ≠ i := by omega
      simp only [if_neg hmi]
      exact hnone m hm
    · have hi2 : i < nv := by omega
      obtain ⟨di, h1, h2⟩ := registered_firstAt g nv h i hi2
      refine ⟨di, by rw [install_getD g nv d hlt, if_neg hinv, h1], ?_⟩
      rw [find_scan_eq_iff]
      refine ⟨by omega, by rw [install_getD g nv d hlt, if_neg hinv, h1], ?_⟩
      intro m hm
      rw [install_getD g nv d hlt]
      have hmn : m ≠ nv := by omega
      simp only [if_neg hmn]
      exact h2.2.2 m hm
  · intro u x hx
    have := h.edges u x hx
    omega

theorem find_install (g : DirectedGraph VertexData) (nv : Nat) (h : RegistryOk g nv)
    (d : VertexData) (hroom : nv < MAX_VERTICES)
    (hnew : find_vertex_scan g.vertex_data d nv 0 = -1) (x : VertexData) :
    find_vertex_scan (install g nv d).vertex_data x (nv + 1) 0 =
      if x = d then (nv : Int) else find_vertex_scan g.vertex_data x nv 0 := by
  have hlt : nv < g.vertex_data.length := by rw [h.shaped.2, h.capacity]; exact hroom
  have hnone := (find_scan_eq_neg_one_iff _ _ _).mp hnew
  by_cases hx : x = d
  · subst hx
    rw [if_pos rfl, find_scan_eq_iff]
    refine ⟨by omega, by rw [install_getD g nv x hlt, if_pos rfl], ?_⟩
    intro m hm
    rw [install_getD g nv x hlt]
    have hmn : m ≠ nv := by omega
    simp only [if_neg hmn]
    exact hnone m hm
  · rw [if_neg hx]
    rcases find_scan_cases g.vertex_data x nv with hneg | ⟨j, hj, hfirst⟩
    · rw [hneg, find_scan_eq_neg_one_iff]
      have hnone2 := (find_scan_eq_neg_one_iff _ _ _).mp hneg
      intro m hm
      rw [install_getD g nv d hlt]
      by_cases hmn : m = nv
      · simp only [if_pos hmn]
        intro e
        exact hx (by simpa using e.symm)
      · simp only [if_neg hmn]
        exact hnone2 m (by omega)
    · rw [hj, find_scan_eq_iff]
      obtain ⟨h1, h2, h3⟩ := hfirst
      have hjn : j ≠ nv := by omega
      refine ⟨by omega, by rw [install_getD g nv d hlt, if_neg hjn, h2], ?_⟩
      intro m hm
      rw [install_getD g nv d hlt]
      have hmn : m ≠ nv := by omega
      simp only [if_neg hmn]
      exact h3 m hm

/-! ## Registration and the edge bookkeeping -/

theorem find_vertex_eq (st : Detector) (g : DirectedGraph VertexData) (hg : st.g_graph = some g)
    (d : VertexData) :
    find_vertex st d = find_vertex_scan g.vertex_data d st.g_next_vertex 0 := by
  simp [find_vertex, hg]

theorem find_vertex_range (st : Detector) (d : VertexData) :
    find_vertex st d = -1 ∨ (0 ≤ find_vertex st d ∧ find_vertex st d < (st.g_next_vertex : Int)) := by
  cases hg : st.g_graph with
  | none => simp [find_vertex, hg]
  | some g =>
    rw [find_vertex_eq st g hg]
    rcases find_scan_cases g.vertex_data d st.g_next_vertex with h | ⟨j, hj, hf⟩
    · exact Or.inl h
    · right
      rw [hj]
      have := hf.1
      omega

theorem set_vertex_data_install (g : DirectedGraph VertexData) (nv : Nat)
    (h : RegistryOk g nv) (hroom : nv < MAX_VERTICES) (d : VertexData) :
    set_vertex_data g (nv : Int) (some d) = (true, install g nv d) := by
  have hguard : ¬ ((nv : Int) < 0 ∨ (nv : Int) ≥ (g.num_vertices : Int)) := by
    rw [h.capacity]
    omega
  simp only [set_vertex_data, if_neg hguard, h.copy d, Option.isSome_some, Int.toNat_ofNat,
    install]

theorem get_or_create_vertex_eq (st : Detector) (g : DirectedGraph VertexData)
    (hg : st.g_graph = some g) (h : RegistryOk g st.g_next_vertex) (d : VertexData) :
    get_or_create_vertex st d =
      if st.g_next_vertex ≥ MAX_VERTICES then (-1, st)
      else if find_vertex st d ≠ -1 then (find_vertex st d, st)
      else ((st.g_next_vertex : Int),
        { st with g_graph := some (install g st.g_next_vertex d),
                  g_next_vertex := st.g_next_vertex + 1 }) := by
  unfold get_or_create_vertex
  rw [hg]
  simp only
  by_cases hfull : st.g_next_vertex ≥ MAX_VERTICES
  · simp only [if_pos hfull]
  · simp only [if_neg hfull]
    by_cases hfound : find_vertex st d ≠ -1
    · simp only [if_pos hfound]
    · simp only [if_neg hfound]
      rw [set_vertex_data_install g _ h (by omega) d]
      simp

theorem ready_get_or_create (st : Detector) (d : VertexData) (h : Ready st) :
    Ready (get_or_create_vertex st d).2 := by
  obtain ⟨hinit, g, hg, hok⟩ := h
  rw [get_or_create_vertex_eq st g hg hok d]
  split
  · exact ⟨hinit, g, hg, hok⟩
  · split
    · exact ⟨hinit, g, hg, hok⟩
    · rename_i hroom hfound
      refine ⟨hinit, install g st.g_next_vertex d, rfl, ?_⟩
      apply registry_install g _ hok d (by omega)
      rw [← find_vertex_eq st g hg]
      simpa using hfound

theorem covered_mono (g : DirectedGraph VertexData) (nv : Nat) (p q : Pending)
    (h : Covered g nv p) (hpq : ∀ a b, p.bound a b ≤ q.bound a b) : Covered g nv q :=
  fun u d hu hd a b ha hb => le_trans (h u d hu hd a b ha hb) (hpq a b)

theorem covered_install (g : DirectedGraph VertexData) (nv : Nat) (p : Pending)
    (hok : RegistryOk g nv) (h : Covered g nv p) (d : VertexData) (hroom : nv < MAX_VERTICES) :
    Covered (install g nv d) (nv + 1) p := by
  have hlt : nv < g.vertex_data.length := by rw [hok.shaped.2, hok.capacity]; exact hroom
  intro u x hu hx a b ha hb
  have hadj : (install g nv d).adj (u : Int) = g.adj (u : Int) := rfl
  rw [hadj]
  by_cases hold : u < nv ∧ x < nv
  · rw [install_getD g nv d hlt, if_neg (by omega)] at ha hb
    exact h u x hold.1 hold.2 a b ha hb
  · have hzero : (g.adj (u : Int)).count (x : Int) = 0 := by
      apply List.count_eq_zero_of_not_mem
      intro hmem
      have := registry_edges_adj g nv hok _ _ hmem
      omega
    rw [hzero]
    exact Nat.zero_le _

theorem covered_drop (g : DirectedGraph VertexData) (nv : Nat) (p q : Pending)
    (h : Covered g nv p) (a b : VertexData)
    (hpq : ∀ x y, p.bound x y ≤ q.bound x y + (if x = a ∧ y = b then 1 else 0))
    (hmiss : find_vertex_scan g.vertex_data a nv 0 = -1 ∨
      find_vertex_scan g.vertex_data b nv 0 = -1) : Covered g nv q := by
  intro u d hu hd x y hx hy
  have hne : ¬ (x = a ∧ y = b) := by
    rintro ⟨rfl, rfl⟩
    rcases hmiss with hm | hm
    · exact (find_scan_eq_neg_one_iff _ _ _).mp hm u hu hx
    · exact (find_scan_eq_neg_one_iff _ _ _).mp hm d hd hy
  have := hpq x y
  rw [if_neg hne] at this
  exact le_trans (h u d hu hd x y hx hy) this

theorem covered_add_edge (g : DirectedGraph VertexData) (nv : Nat) (p q : Pending)
    (hok : RegistryOk g nv) (h : Covered g nv p) (u d : Nat) (hu : u < nv) (hd : d < nv)
    (a b : VertexData) (ha : g.vertex_data.getD u none = some a)
    (hb : g.vertex_data.getD d none = some b)
    (hpq : ∀ x y, p.bound x y + (if x = a ∧ y = b then 1 else 0) ≤ q.bound x y) :
    Covered (add_edge g (u : Int) (d : Int)) nv q := by
  have hcap := hok.capacity
  have hle := hok.next_le
  intro w e hw he x y hx hy
  rw [add_edge_adj g hok.shaped u d w (by omega) (by omega) (by omega) (by omega)]
  rw [(add_edge_fields g u d).2.1] at hx hy
  have hbase := h w e hw he x y hx hy
  have hq := hpq x y
  by_cases hwu : (w : Int) = (u : Int)
  · rw [if_pos hwu]
    have hwu2 : w = u := by omega
    subst hwu2
    rw [List.count_cons]
    by_cases hed : (d : Int) = (e : Int)
    · have hed2 : d = e := by omega
      subst hed2
      rw [ha] at hx
      rw [hb] at hy
      have e1 : a = x := by simpa using hx
      have e2 : b = y := by simpa using hy
      subst e1
      subst e2
      simp only [and_self, if_true] at hq
      simp only [beq_self_eq_true, if_true]
      omega
    · have hbeq : ((d : Int) == (e : Int)) = false := by simpa using hed
      simp only [hbeq, Bool.false_eq_true, if_false]
      omega
  · rw [if_neg hwu]
    omega

theorem covered_remove_edge (g : DirectedGraph VertexData) (nv : Nat) (p q : Pending)
    (hok : RegistryOk g nv) (h : Covered g nv p) (u d : Nat) (hu : u < nv) (hd : d < nv)
    (a b : VertexData) (ha : g.vertex_data.getD u none = some a)
    (hb : g.vertex_data.getD d none = some b)
    (hpq : ∀ x y, p.bound x y ≤ q.bound x y + (if x = a ∧ y = b then 1 else 0)) :
    Covered (remove_edge g (u : Int) (d : Int)).2 nv q := by
  have hcap := hok.capacity
  have hle := hok.next_le
  intro w e hw he x y hx hy
  rw [remove_edge_adj g hok.shaped u d w (by omega) (by omega) (by omega) (by omega)]
  rw [(remove_edge_fields g u d).2.1] at hx hy
  have hbase := h w e hw he x y hx hy
  have hq := hpq x y
  by_cases hsame : w = u ∧ e = d
  · obtain ⟨rfl, rfl⟩ := hsame
    rw [if_pos rfl]
    rw [ha] at hx
    rw [hb] at hy
    have e1 : a = x := by simpa using hx
    have e2 : b = y := by simpa using hy
    subst e1
    subst e2
    simp only [and_self, if_true] at hq
    rw [List.count_erase_self]
    omega
  · have hne : ¬ (x = a ∧ y = b) := by
      rintro ⟨rfl, rfl⟩
      exact hsame ⟨registered_inj g nv hok w u hw hu x hx ha,
        registered_inj g nv hok e d he hd y hy hb⟩
    rw [if_neg hne] at hq
    by_cases hwu : (w : Int) = (u : Int)
    · rw [if_pos hwu]
      have hwu2 : w = u := by omega
      subst hwu2
      have hed : (e : Int) ≠ (d : Int) := by
        intro eq
        exact hsame ⟨rfl, by omega⟩
      rw [List.count_erase_of_ne hed]
      omega
    · rw [if_neg hwu]
      omega

theorem bound_push_waiting (p : Pending) (T M : Nat) (x y : VertexData) :
    ({ p with waiting := (T, M) :: p.waiting } : Pending).bound x y =
      p.bound x y + (if x = thread_data T ∧ y = mutex_data M then 1 else 0) := by
  cases x with
  | mk tx ix =>
    cases y with
    | mk ty iy =>
      cases tx <;> cases ty <;>
        simp only [Pending.bound, thread_data, mutex_data, VertexData.mk.injEq, true_and,
          false_and, and_false, if_false, Nat.add_zero, reduceCtorEq]
      rw [List.count_cons]
      by_cases h : ix = T ∧ iy = M
      · obtain ⟨rfl, rfl⟩ := h
        simp
      · have hne : ((T, M) == (ix, iy)) = false := by
          rw [beq_eq_false_iff_ne]
          intro e
          simp only [Prod.mk.injEq] at e
          exact h ⟨e.1.symm, e.2.symm⟩
        rw [if_neg h, hne]
        simp

theorem bound_push_held (p : Pending) (T M : Nat) (x y : VertexData) :
    ({ p with held := (T, M) :: p.held } : Pending).bound x y =
      p.bound x y + (if x = mutex_data M ∧ y = thread_data T then 1 else 0) := by
  cases x with
  | mk tx ix =>
    cases y with
    | mk ty iy =>
      cases tx <;> cases ty <;>
        simp only [Pending.bound, thread_data, mutex_data, VertexData.mk.injEq, true_and,
          false_and, and_false, if_false, Nat.add_zero, reduceCtorEq]
      rw [List.count_cons]
      by_cases h : ix = M ∧ iy = T
      · obtain ⟨rfl, rfl⟩ := h
        simp
      · have hne : ((T, M) == (iy, ix)) = false := by
          rw [beq_eq_false_iff_ne]
          intro e
          simp only [Prod.mk.injEq] at e
          exact h ⟨e.2.symm, e.1.symm⟩
        rw [if_neg h, hne]
        simp

theorem bound_erase_waiting (p : Pending) (T M : Nat) (x y : VertexData) :
    p.bound x y ≤ ({ p with waiting := p.waiting.erase (T, M) } : Pending).bound x y +
      (if x = thread_data T ∧ y = mutex_data M then 1 else 0) := by
  cases x with
  | mk tx ix =>
    cases y with
    | mk ty iy =>
      cases tx <;> cases ty <;>
        simp only [Pending.bound, thread_data, mutex_data, VertexData.mk.injEq, true_and,
          false_and, and_false, if_false, le_refl, Nat.add_zero, reduceCtorEq]
      by_cases h : ix = T ∧ iy = M
      · obtain ⟨rfl, rfl⟩ := h
        simp only [and_self, if_true, List.count_erase_self]
        omega
      · have hne : (ix, iy) ≠ (T, M) := by
          intro e
          simp only [Prod.mk.injEq] at e
          exact h e
        rw [if_neg h, List.count_erase_of_ne hne]
        omega

theorem bound_erase_held (p : Pending) (T M : Nat) (x y : VertexData) :
    p.bound x y ≤ ({ p with held := p.held.erase (T, M) } : Pending).bound x y +
      (if x = mutex_data M ∧ y = thread_data T then 1 else 0) := by
  cases x with
  | mk tx ix =>
    cases y with
    | mk ty iy =>
      cases tx <;> cases ty <;>
        simp only [Pending.bound, thread_data, mutex_data, VertexData.mk.injEq, true_and,
          false_and, and_false, if_false, le_refl, Nat.add_zero, reduceCtorEq]
      by_cases h : ix = M ∧ iy = T
      · obtain ⟨rfl, rfl⟩ := h
        simp only [and_self, if_true, List.count_erase_self]
        omega
      · have hne : (iy, ix) ≠ (T, M) := by
          intro e
          simp only [Prod.mk.injEq] at e
          exact h ⟨e.2, e.1⟩
        rw [if_neg h, List.count_erase_of_ne hne]
        omega

theorem find_vertex_payload (st : Detector) (g : DirectedGraph VertexData)
    (hg : st.g_graph = some g) (x : VertexData) (h : find_vertex st x ≠ -1) :
    ∃ j : Nat, find_vertex st x = (j : Int) ∧ j < st.g_next_vertex ∧
      g.vertex_data.getD j none = some x := by
  rw [find_vertex_eq st g hg] at h ⊢
  rcases find_scan_cases g.vertex_data x st.g_next_vertex with hneg | ⟨j, hj, hf⟩
  · exact absurd hneg h
  · exact ⟨j, hj, hf.1, hf.2.1⟩

theorem find_vertex_congr (st st1 : Detector) (g g1 : DirectedGraph VertexData)
    (hg : st.g_graph = some g) (hg1 : st1.g_graph = some g1)
    (hvd : g1.vertex_data = g.vertex_data) (hnv : st1.g_next_vertex = st.g_next_vertex)
    (x : VertexData) : find_vertex st1 x = find_vertex st x := by
  rw [find_vertex_eq st g hg, find_vertex_eq st1 g1 hg1, hvd, hnv]

theorem linked_add (st : Detector) (g : DirectedGraph VertexData) (p q : Pending)
    (a b : VertexData) (hl : Linked st p) (hg : st.g_graph = some g)
    (ha : find_vertex st a ≠ -1) (hb : find_vertex st b ≠ -1)
    (hpq : ∀ x y, p.bound x y + (if x = a ∧ y = b then 1 else 0) ≤ q.bound x y) :
    Linked { st with g_graph := some (add_edge g (find_vertex st a) (find_vertex st b)) } q := by
  obtain ⟨hinit, g0, hg0, hok, hcov⟩ := hl
  rw [hg] at hg0
  have hgg : g = g0 := by simpa using hg0
  subst hgg
  obtain ⟨u, hu, hu1, hu2⟩ := find_vertex_payload st g hg a ha
  obtain ⟨d, hd, hd1, hd2⟩ := find_vertex_payload st g hg b hb
  rw [hu, hd]
  refine ⟨hinit, _, rfl, ?_, ?_⟩
  · exact registry_add_edge g _ hok u d (by omega) (by omega) (by omega) (by omega)
  · exact covered_add_edge g _ p q hok hcov u d hu1 hd1 a b hu2 hd2 hpq

theorem linked_remove (st : Detector) (g : DirectedGraph VertexData) (p q : Pending)
    (a b : VertexData) (hl : Linked st p) (hg : st.g_graph = some g)
    (ha : find_vertex st a ≠ -1) (hb : find_vertex st b ≠ -1)
    (hpq : ∀ x y, p.bound x y ≤ q.bound x y + (if x = a ∧ y = b then 1 else 0)) :
    Linked { st with
      g_graph := some (remove_edge g (find_vertex st a) (find_vertex st b)).2 } q := by
  obtain ⟨hinit, g0, hg0, hok, hcov⟩ := hl
  rw [hg] at hg0
  have hgg : g = g0 := by simpa using hg0
  subst hgg
  obtain ⟨u, hu, hu1, hu2⟩ := find_vertex_payload st g hg a ha
  obtain ⟨d, hd, hd1, hd2⟩ := find_vertex_payload st g hg b hb
  rw [hu, hd]
  refine ⟨hinit, _, rfl, ?_, ?_⟩
  · exact registry_remove_edge g _ hok u d
  · exact covered_remove_edge g _ p q hok hcov u d hu1 hd1 a b hu2 hd2 hpq

theorem linked_drop (st : Detector) (p q : Pending) (a b : VertexData) (hl : Linked st p)
    (hpq : ∀ x y, p.bound x y ≤ q.bound x y + (if x = a ∧ y = b then 1 else 0))
    (hmiss : ¬ (find_vertex st a ≠ -1 ∧ find_vertex st b ≠ -1)) : Linked st q := by
  obtain ⟨hinit, g, hg, hok, hcov⟩ := hl
  refine ⟨hinit, g, hg, hok, ?_⟩
  apply covered_drop g _ p q hcov a b hpq
  rw [← find_vertex_eq st g hg, ← find_vertex_eq st g hg]
  by_cases h : find_vertex st a = -1
  · exact Or.inl h
  · right
    by_contra hb
    exact hmiss ⟨h, hb⟩

theorem linked_mono (st : Detector) (p q : Pending) (hl : Linked st p)
    (hpq : ∀ x y, p.bound x y ≤ q.bound x y) : Linked st q := by
  obtain ⟨hinit, g, hg, hok, hcov⟩ := hl
  exact ⟨hinit, g, hg, hok, covered_mono g _ p q hcov hpq⟩

/-- What `get_or_create_vertex` achieves on a ready detector. -/
theorem linked_get_or_create (st : Detector) (p : Pending) (d : VertexData)
    (hl : Linked st p) :
    Linked (get_or_create_vertex st d).2 p ∧
    ((get_or_create_vertex st d).1 = -1 ∨
      ((get_or_create_vertex st d).1 ≠ -1 ∧
       (get_or_create_vertex st d).1 = find_vertex (get_or_create_vertex st d).2 d)) ∧
    (∀ x, find_vertex st x ≠ -1 →
      find_vertex (get_or_create_vertex st d).2 x = find_vertex st x) := by
  obtain ⟨hinit, g, hg, hok, hcov⟩ := hl
  rw [get_or_create_vertex_eq st g hg hok d]
  by_cases hfull : st.g_next_vertex ≥ MAX_VERTICES
  · rw [if_pos hfull]
    exact ⟨⟨hinit, g, hg, hok, hcov⟩, Or.inl rfl, fun _ _ => rfl⟩
  · rw [if_neg hfull]
    by_cases hfound : find_vertex st d ≠ -1
    · rw [if_pos hfound]
      exact ⟨⟨hinit, g, hg, hok, hcov⟩, Or.inr ⟨hfound, rfl⟩, fun _ _ => rfl⟩
    · rw [if_neg hfound]
      have hnew : find_vertex_scan g.vertex_data d st.g_next_vertex 0 = -1 := by
        rw [← find_vertex_eq st g hg]
        simpa using hfound
      have hroom : st.g_next_vertex < MAX_VERTICES := by omega
      have hfind : ∀ x, find_vertex
          { st with g_graph := some (install g st.g_next_vertex d),
                    g_next_vertex := st.g_next_vertex + 1 } x =
          if x = d then (st.g_next_vertex : Int) else find_vertex st x := by
        intro x
        rw [find_vertex_eq _ (install g st.g_next_vertex d) rfl, find_vertex_eq st g hg]
        exact find_install g _ hok d hroom hnew x
      refine ⟨⟨hinit, _, rfl, registry_install g _ hok d hroom hnew,
        covered_install g _ p hok hcov d hroom⟩, Or.inr ⟨by omega, ?_⟩, ?_⟩
      · rw [hfind d, if_pos rfl]
      · intro x hx
        rw [hfind x]
        have hxd : x ≠ d := by
          rintro rfl
          exact hfound hx
        rw [if_neg hxd]

/-! ## The hooks preserve the invariant -/

theorem linked_before_lock (st : Detector) (p : Pending) (T M : Nat) (hl : Linked st p) :
    Linked (before_lock st T M) { p with waiting := (T, M) :: p.waiting } := by
  have hmono : ∀ s, Linked s p → Linked s { p with waiting := (T, M) :: p.waiting } := by
    intro s hs
    apply linked_mono s p _ hs
    intro x y
    rw [bound_push_waiting]
    omega
  obtain ⟨hinit, g, hg, hok, hcov⟩ := hl
  have hl : Linked st p := ⟨hinit, g, hg, hok, hcov⟩
  unfold before_lock
  by_cases hM : M = 0
  · rw [if_pos hM]
    exact hmono st hl
  rw [if_neg hM]
  have hinit2 : ¬ st.g_init_complete = false := by simp [hinit]
  rw [if_neg hinit2, hg]
  simp only
  have hguard : ¬ (g.num_vertices = 0 ∨ g.num_vertices > MAX_VERTICES) := by
    rw [hok.capacity]
    simp [MAX_VERTICES]
  rw [if_neg hguard]
  obtain ⟨hl1, hidx1, _⟩ := linked_get_or_create st p (thread_data T) hl
  by_cases h1 : (get_or_create_vertex st (thread_data T)).1 = -1
  · rw [if_pos h1]
    exact hmono _ hl1
  rw [if_neg h1]
  obtain ⟨hl2, hidx2, hstable2⟩ :=
    linked_get_or_create (get_or_create_vertex st (thread_data T)).2 p (mutex_data M) hl1
  by_cases h2 : (get_or_create_vertex (get_or_create_vertex st (thread_data T)).2
      (mutex_data M)).1 = -1
  · rw [if_pos h2]
    exact hmono _ hl2
  rw [if_neg h2]
  have hi1 := (hidx1.resolve_left h1).2
  have hi2 := (hidx2.resolve_left h2).2
  have hne1 : find_vertex (get_or_create_vertex st (thread_data T)).2 (thread_data T) ≠ -1 := by
    rw [← hi1]
    exact h1
  have hst := hstable2 (thread_data T) hne1
  obtain ⟨hinit3, g2, hg2, hok2, hcov2⟩ := hl2
  have hl2 : Linked (get_or_create_vertex (get_or_create_vertex st (thread_data T)).2
      (mutex_data M)).2 p := ⟨hinit3, g2, hg2, hok2, hcov2⟩
  rw [hg2]
  simp only
  rw [hi1, ← hst, hi2]
  have hne2 : find_vertex (get_or_create_vertex (get_or_create_vertex st (thread_data T)).2
      (mutex_data M)).2 (mutex_data M) ≠ -1 := by
    rw [← hi2]
    exact h2
  have hne1b : find_vertex (get_or_create_vertex (get_or_create_vertex st (thread_data T)).2
      (mutex_data M)).2 (thread_data T) ≠ -1 := by
    rw [hst]
    exact hne1
  have hr1 := (find_vertex_range _ (thread_data T)).resolve_left hne1b
  have hr2 := (find_vertex_range _ (mutex_data M)).resolve_left hne2
  have hcap := hok2.capacity
  have hle := hok2.next_le
  rw [if_pos (by omega)]
  apply linked_add _ g2 p _ (thread_data T) (mutex_data M) hl2 hg2 hne1b hne2
  intro x y
  rw [bound_push_waiting]

theorem linked_after_lock (st : Detector) (p : Pending) (T M : Nat) (hl : Linked st p) :
    Linked (after_lock st T M)
      { waiting := p.waiting.erase (T, M), held := (T, M) :: p.held } := by
  obtain ⟨hinit, g, hg, hok, hcov⟩ := hl
  have hl : Linked st p := ⟨hinit, g, hg, hok, hcov⟩
  have hpush : ∀ s, Linked s { p with waiting := p.waiting.erase (T, M) } →
      Linked s { waiting := p.waiting.erase (T, M), held := (T, M) :: p.held } := by
    intro s hs
    apply linked_mono s _ _ hs
    intro x y
    have := bound_push_held { p with waiting := p.waiting.erase (T, M) } T M x y
    simp only at this
    rw [this]
    omega
  unfold after_lock
  rw [hg]
  simp only
  by_cases hboth : find_vertex st (thread_data T) ≠ -1 ∧ find_vertex st (mutex_data M) ≠ -1
  · rw [if_pos hboth]
    have h1 := linked_remove st g p { p with waiting := p.waiting.erase (T, M) }
      (thread_data T) (mutex_data M) hl hg hboth.1 hboth.2 (bound_erase_waiting p T M)
    have hf := remove_edge_fields g (find_vertex st (thread_data T))
      (find_vertex st (mutex_data M))
    have hfind : ∀ x, find_vertex { st with g_graph := some (remove_edge g
        (find_vertex st (thread_data T)) (find_vertex st (mutex_data M))).2 } x =
        find_vertex st x :=
      fun x => find_vertex_congr st { st with g_graph := some (remove_edge g
        (find_vertex st (thread_data T)) (find_vertex st (mutex_data M))).2 } g _ hg rfl
        hf.2.1 rfl x
    have h2 := linked_add _ _ { p with waiting := p.waiting.erase (T, M) }
      { waiting := p.waiting.erase (T, M), held := (T, M) :: p.held }
      (mutex_data M) (thread_data T) h1 rfl
      (by rw [hfind]; exact hboth.2) (by rw [hfind]; exact hboth.1)
      (by
        intro x y
        have := bound_push_held { p with waiting := p.waiting.erase (T, M) } T M x y
        simp only at this
        rw [this])
    rw [hfind, hfind] at h2
    exact h2
  · rw [if_neg hboth]
    exact hpush st (linked_drop st p _ (thread_data T) (mutex_data M) hl
      (bound_erase_waiting p T M) hboth)

theorem linked_after_unlock (st : Detector) (p : Pending) (T M : Nat) (hl : Linked st p) :
    Linked (after_unlock st T M) { p with held := p.held.erase (T, M) } := by
  obtain ⟨hinit, g, hg, hok, hcov⟩ := hl
  have hl : Linked st p := ⟨hinit, g, hg, hok, hcov⟩
  unfold after_unlock
  rw [hg]
  simp only
  by_cases hboth : find_vertex st (thread_data T) ≠ -1 ∧ find_vertex st (mutex_data M) ≠ -1
  · rw [if_pos hboth]
    exact linked_remove st g p _ (mutex_data M) (thread_data T) hl hg hboth.2 hboth.1
      (bound_erase_held p T M)
  · rw [if_neg hboth]
    exact linked_drop st p _ (mutex_data M) (thread_data T) hl (bound_erase_held p T M)
      (fun h => hboth ⟨h.2, h.1⟩)

theorem linked_thread_create (st : Detector) (p : Pending) (T : Nat) (hl : Linked st p) :
    Linked (pthread_create st 0 (some T)).2 p := by
  obtain ⟨hinit, g, hg, hok, hcov⟩ := hl
  have hl : Linked st p := ⟨hinit, g, hg, hok, hcov⟩
  unfold pthread_create
  simp only [hg, Option.isSome_some, and_self, if_true]
  exact (linked_get_or_create st p (thread_data T) hl).1

theorem linked_step (st : Detector) (p q : Pending) (e : Event) (hl : Linked st p)
    (hstep : p.step e = some q) : Linked (st.step e) q := by
  cases e with
  | thread_create T =>
    simp only [Pending.step, Option.some.injEq] at hstep
    subst hstep
    exact linked_thread_create st p T hl
  | before_lock T M =>
    simp only [Pending.step, Option.some.injEq] at hstep
    subst hstep
    exact linked_before_lock st p T M hl
  | after_lock T M =>
    simp only [Pending.step] at hstep
    split at hstep
    · simp only [Option.some.injEq] at hstep
      subst hstep
      exact linked_after_lock st p T M hl
    · simp at hstep
  | before_unlock T M =>
    simp only [Pending.step, Option.some.injEq] at hstep
    subst hstep
    exact hl
  | after_unlock T M =>
    simp only [Pending.step] at hstep
    split at hstep
    · simp only [Option.some.injEq] at hstep
      subst hstep
      exact linked_after_unlock st p T M hl
    · simp at hstep

theorem linked_run (es : List Event) :
    ∀ (st : Detector) (p q : Pending), Linked st p → p.run es = some q →
      Linked (st.run es) q := by
  induction es with
  | nil =>
    intro st p q hl hrun
    simp only [Pending.run, Option.some.injEq] at hrun
    subst hrun
    exact hl
  | cons e es ih =>
    intro st p q hl hrun
    simp only [Pending.run] at hrun
    split at hrun
    · simp at hrun
    · rename_i p1 hp1
      exact ih (st.step e) p1 q (linked_step st p p1 e hl hp1) hrun

theorem idle_bound (a b : VertexData) : Pending.idle.bound a b = 0 := by
  cases a with
  | mk ta ia =>
    cases b with
    | mk tb ib => cases ta <;> cases tb <;> simp [Pending.bound, Pending.idle]

theorem linked_of_no_edges (st : Detector) (p : Pending) (hready : Ready st)
    (hempty : NoEdges st) : Linked st p := by
  obtain ⟨hinit, g, hg, hok⟩ := hready
  refine ⟨hinit, g, hg, hok, ?_⟩
  intro u d _ _ a b _ _
  have hnil : g.adj (u : Int) = [] := by
    rw [adj_natCast]
    by_cases hu : u < g.adj_lists.length
    · have hmem : g.adj_lists[u] ∈ g.adj_lists := List.getElem_mem hu
      simp [List.getD_eq_getElem?_getD, hu, hempty g hg _ hmem]
    · simp [List.getD_eq_getElem?_getD, List.getElem?_eq_none (by omega : g.adj_lists.length ≤ u)]
  simp [hnil]

theorem no_edges_of_linked_idle (st : Detector) (hl : Linked st Pending.idle) : NoEdges st := by
  obtain ⟨_, g, hg, hok, hcov⟩ := hl
  intro g0 hg0 l hl
  rw [hg] at hg0
  have hgg : g = g0 := by simpa using hg0
  subst hgg
  obtain ⟨u, hu, hul⟩ := List.getElem_of_mem hl
  cases hlist : l with
  | nil => rfl
  | cons d rest =>
    exfalso
    have hadj : g.adj_lists.getD u [] = l := by
      simp [List.getD_eq_getElem?_getD, hu, hul]
    have hmem : d ∈ g.adj_lists.getD u [] := by
      rw [hadj, hlist]
      simp
    obtain ⟨hu1, hd0, hd1⟩ := hok.edges u d hmem
    obtain ⟨a, ha, _⟩ := hok.registered u hu1
    have hdn : ((d.toNat : Nat) : Int) = d := Int.toNat_of_nonneg hd0
    obtain ⟨b, hb, _⟩ := hok.registered d.toNat (by omega)
    have hc := hcov u d.toNat hu1 (by omega) a b ha hb
    rw [idle_bound, hdn, adj_natCast] at hc
    have hpos : 0 < (g.adj_lists.getD u []).count d := List.count_pos_iff.mpr hmem
    omega

theorem ready_fresh : Ready Detector.fresh := by
  refine ⟨rfl, create_graph MAX_VERTICES copy_vertex_data, rfl, ?_⟩
  refine ⟨⟨by simp [create_graph], by simp [create_graph]⟩, rfl, fun _ => rfl, Nat.zero_le _,
    fun i hi => absurd hi (Nat.not_lt_zero i), ?_⟩
  intro u d hd
  exfalso
  simp only [create_graph, List.getD_eq_getElem?_getD] at hd
  by_cases hu : u < MAX_VERTICES
  · simp [List.getElem?_replicate, hu] at hd
  · simp [List.getElem?_replicate, hu] at hd

theorem no_edges_fresh : NoEdges Detector.fresh := by
  intro g hg l hl
  have hgg : g = create_graph MAX_VERTICES copy_vertex_data := by
    have : Detector.fresh.g_graph = some (create_graph MAX_VERTICES copy_vertex_data) := rfl
    rw [this] at hg
    simpa using hg.symm
  subst hgg
  simp only [create_graph] at hl
  exact (List.mem_replicate.mp hl).2

/-- C5: from a ready detector without edges, after any well-formed sequence of
hook events in which every `before_lock` has been followed by its `after_lock`
and its `after_unlock`, every adjacency list of the graph is empty. -/
theorem quiescent_no_edges (st : Detector) (es : List Event) (hready : Ready st)
    (hempty : NoEdges st) (hquiet : Pending.idle.run es = some Pending.idle) :
    NoEdges (st.run es) :=
  no_edges_of_linked_idle _
    (linked_run es st Pending.idle Pending.idle (linked_of_no_edges st _ hready hempty) hquiet)

/-! ## Threads with one mutex at a time -/

theorem step_single_step (p q : Pending) (e : Event) (h : p.step_single e = some q) :
    p.step e = some q := by
  cases e with
  | before_lock T M =>
    simp only [Pending.step_single] at h
    split at h
    · simp at h
    · exact h
  | thread_create T => exact h
  | after_lock T M => exact h
  | before_unlock T M => exact h
  | after_unlock T M => exact h

theorem run_single_run (es : List Event) :
    ∀ p q : Pending, p.run_single es = some q → p.run es = some q := by
  induction es with
  | nil => intro p q h; exact h
  | cons e es ih =>
    intro p q h
    simp only [Pending.run_single] at h
    split at h
    · simp at h
    · rename_i p1 hp1
      simp only [Pending.run, step_single_step p p1 e hp1]
      exact ih p1 q h

theorem perm_erase_cons (l : List (Nat × Nat)) (a : Nat × Nat) (h : a ∈ l) :
    (a :: l.erase a).Perm l := by
  induction l with
  | nil => simp at h
  | cons b rest ih =>
    by_cases hba : b = a
    · subst hba
      simp
    · have hmem : a ∈ rest := by
        rcases List.mem_cons.mp h with e | e
        · exact absurd e.symm hba
        · exact e
      have hbeq : (b == a) = false := by simpa using hba
      rw [List.erase_cons, hbeq]
      simp only [Bool.false_eq_true, if_false]
      exact (List.Perm.swap b a _).trans ((ih hmem).cons b)

theorem single_step (p q : Pending) (e : Event) (hs : p.Single)
    (h : p.step_single e = some q) : q.Single := by
  unfold Pending.Single at hs ⊢
  cases e with
  | thread_create T =>
    simp only [Pending.step_single, Pending.step, Option.some.injEq] at h
    subst h
    exact hs
  | before_unlock T M =>
    simp only [Pending.step_single, Pending.step, Option.some.injEq] at h
    subst h
    exact hs
  | before_lock T M =>
    simp only [Pending.step_single] at h
    split at h
    · simp at h
    · rename_i hnot
      simp only [Pending.step, Option.some.injEq] at h
      subst h
      simp only [List.cons_append, List.map_cons]
      exact List.nodup_cons.mpr ⟨hnot, hs⟩
  | after_lock T M =>
    simp only [Pending.step_single, Pending.step] at h
    split at h
    · rename_i hmem
      simp only [Option.some.injEq] at h
      subst h
      have hperm : (p.waiting.erase (T, M) ++ (T, M) :: p.held).Perm (p.waiting ++ p.held) := by
        have h1 : (p.waiting.erase (T, M) ++ (T, M) :: p.held).Perm
            ((T, M) :: (p.waiting.erase (T, M) ++ p.held)) := List.perm_middle
        have h2 : ((T, M) :: (p.waiting.erase (T, M) ++ p.held)).Perm (p.waiting ++ p.held) :=
          (perm_erase_cons p.waiting (T, M) hmem).append_right p.held
        exact h1.trans h2
      exact (hperm.map Prod.fst).nodup_iff.mpr hs
    · simp at h
  | after_unlock T M =>
    simp only [Pending.step_single, Pending.step] at h
    split at h
    · simp only [Option.some.injEq] at h
      subst h
      have hsub : (p.waiting ++ p.held.erase (T, M)).Sublist (p.waiting ++ p.held) :=
        List.Sublist.append (List.Sublist.refl _) (List.erase_sublist _ _)
      exact List.Nodup.sublist (hsub.map Prod.fst) hs
    · simp at h

theorem single_run (es : List Event) :
    ∀ p q : Pending, p.Single → p.run_single es = some q → q.Single := by
  induction es with
  | nil =>
    intro p q hs h
    simp only [Pending.run_single, Option.some.injEq] at h
    subst h
    exact hs
  | cons e es ih =>
    intro p q hs h
    simp only [Pending.run_single] at h
    split at h
    · simp at h
    · rename_i p1 hp1
      exact ih p1 q (single_step p p1 e hs hp1) h

theorem run_single_take (es : List Event) :
    ∀ (p q : Pending) (k : Nat), p.run_single es = some q →
      ∃ q1, p.run_single (es.take k) = some q1 := by
  induction es with
  | nil =>
    intro p q k h
    exact ⟨p, by simp [Pending.run_single]⟩
  | cons e es ih =>
    intro p q k h
    cases k with
    | zero => exact ⟨p, by simp [Pending.run_single]⟩
    | succ k =>
      simp only [Pending.run_single] at h
      split at h
      · simp at h
      · rename_i p1 hp1
        obtain ⟨q1, hq1⟩ := ih p1 q k h
        exact ⟨q1, by simp [Pending.run_single, hp1, hq1]⟩

theorem edge_bound (g : DirectedGraph VertexData) (nv : Nat) (p : Pending)
    (hok : RegistryOk g nv) (hcov : Covered g nv p) (u d : Int) (h : Edge g u d) :
    ∃ a b, g.vertex_data.getD u.toNat none = some a ∧
      g.vertex_data.getD d.toNat none = some b ∧ 1 ≤ p.bound a b := by
  obtain ⟨hu0, hu1, hd0, hd1⟩ := registry_edges_adj g nv hok u d h
  have hun : ((u.toNat : Nat) : Int) = u := Int.toNat_of_nonneg hu0
  have hdn : ((d.toNat : Nat) : Int) = d := Int.toNat_of_nonneg hd0
  obtain ⟨a, ha, _⟩ := hok.registered u.toNat (by omega)
  obtain ⟨b, hb, _⟩ := hok.registered d.toNat (by omega)
  refine ⟨a, b, ha, hb, ?_⟩
  have hc := hcov u.toNat d.toNat (by omega) (by omega) a b ha hb
  rw [hun, hdn] at hc
  have hpos : 0 < (g.adj u).count d := List.count_pos_iff.mpr h
  omega

theorem bound_pos_cases (p : Pending) (a b : VertexData) (h : 1 ≤ p.bound a b) :
    (a.type = VertexType.VERTEX_TYPE_THREAD ∧ b.type = VertexType.VERTEX_TYPE_MUTEX ∧
        (a.id, b.id) ∈ p.waiting) ∨
    (a.type = VertexType.VERTEX_TYPE_MUTEX ∧ b.type = VertexType.VERTEX_TYPE_THREAD ∧
        (b.id, a.id) ∈ p.held) := by
  cases a with
  | mk ta ia =>
    cases b with
    | mk tb ib =>
      cases ta <;> cases tb <;> simp only [Pending.bound] at h
      · omega
      · left
        exact ⟨rfl, rfl, List.count_pos_iff.mp h⟩
      · right
        exact ⟨rfl, rfl, List.count_pos_iff.mp h⟩
      · omega

theorem no_edge_through_thread (g : DirectedGraph VertexData) (nv : Nat) (p : Pending)
    (hok : RegistryOk g nv) (hcov : Covered g nv p) (hs : p.Single) (x y z : Int)
    (hxy : Edge g x y) (hyz : Edge g y z) (a : VertexData)
    (ha : g.vertex_data.getD y.toNat none = some a)
    (hthread : a.type = VertexType.VERTEX_TYPE_THREAD) : False := by
  obtain ⟨ax, ay, _, hay, hb1⟩ := edge_bound g nv p hok hcov x y hxy
  obtain ⟨ay2, az, hay2, _, hb2⟩ := edge_bound g nv p hok hcov y z hyz
  rw [ha] at hay hay2
  have e1 : a = ay := by simpa using hay
  have e2 : a = ay2 := by simpa using hay2
  subst e1
  subst e2
  have hheld : (a.id, ax.id) ∈ p.held := by
    rcases bound_pos_cases p ax a hb1 with ⟨_, h2, _⟩ | ⟨_, _, h3⟩
    · rw [hthread] at h2
      simp at h2
    · exact h3
  have hwait : (a.id, az.id) ∈ p.waiting := by
    rcases bound_pos_cases p a az hb2 with ⟨_, _, h3⟩ | ⟨h1, _, _⟩
    · exact h3
    · rw [hthread] at h1
      simp at h1
  unfold Pending.Single at hs
  rw [List.map_append, List.nodup_append] at hs
  exact hs.2.2 (List.mem_map.mpr ⟨_, hwait, rfl⟩) (List.mem_map.mpr ⟨_, hheld, rfl⟩)

theorem single_acyclic (g : DirectedGraph VertexData) (nv : Nat) (p : Pending)
    (hok : RegistryOk g nv) (hcov : Covered g nv p) (hs : p.Single) (c : Int) :
    ¬ Relation.TransGen (Edge g) c c := by
  intro hcyc
  obtain ⟨d, hcd, hdc⟩ := Relation.TransGen.head'_iff.mp hcyc
  obtain ⟨z, _, hzc⟩ := Relation.TransGen.tail'_iff.mp hcyc
  obtain ⟨a, b, ha, hb, hbound⟩ := edge_bound g nv p hok hcov c d hcd
  rcases bound_pos_cases p a b hbound with ⟨hat, _, _⟩ | ⟨hat, hbt, _⟩
  · exact no_edge_through_thread g nv p hok hcov hs z c d hzc hcd a ha hat
  · rcases Relation.ReflTransGen.cases_head hdc with hdeq | ⟨e, hde, _⟩
    · subst hdeq
      rw [ha] at hb
      have hab : a = b := by simpa using hb
      rw [hab, hbt] at hat
      simp at hat
    · exact no_edge_through_thread g nv p hok hcov hs c d e hcd hde b hb hbt

theorem registry_dests_in_range (g : DirectedGraph VertexData) (nv : Nat)
    (hok : RegistryOk g nv) : g.DestsInRange := by
  intro l hl d hd
  obtain ⟨u, hu, hul⟩ := List.getElem_of_mem hl
  have hmem : d ∈ g.adj_lists.getD u [] := by
    simp [List.getD_eq_getElem?_getD, hu, hul, hd]
  have := hok.edges u d hmem
  have hcap := hok.capacity
  have hle := hok.next_le
  omega

theorem search_cycle_util_of_false {α : Type} (g : DirectedGraph α) (i : Int)
    (hi : i < (g.num_vertices : Int)) (h : search_cycle g i = .ok false) :
    ∃ vis stk, search_cycle_util g g.num_vertices i (List.replicate g.num_vertices false)
      (List.replicate g.num_vertices false) = .ok (false, vis, stk) := by
  unfold search_cycle at h
  rw [if_neg (by omega)] at h
  split at h
  · simp at h
  · rename_i b vis stk heq
    simp only [Except.ok.injEq] at h
    subst h
    exact ⟨vis, stk, heq⟩

theorem monitor_scan_from_quiet (g : DirectedGraph VertexData) (k : Nat) :
    ∀ i, i + k ≤ g.num_vertices →
      (∀ j : Int, 0 ≤ j → j < (g.num_vertices : Int) → search_cycle g j = .ok false) →
      monitor_scan_from g k i = .ok [] := by
  induction k with
  | zero => intro i _ _; rfl
  | succ k ih =>
    intro i hik hall
    have hrest := ih (i + 1) (by omega) hall
    unfold monitor_scan_from
    split
    · exact hrest
    · split
      · obtain ⟨vis, stk, hutil⟩ :=
          search_cycle_util_of_false g (i : Int) (by omega) (hall i (by omega) (by omega))
        rw [hutil]
        exact hrest
      · exact hrest

theorem idle_single : Pending.idle.Single := by
  simp [Pending.Single, Pending.idle]

theorem linked_single_quiet (st : Detector) (q : Pending) (hlinked : Linked st q)
    (hsingle : q.Single) :
    (∃ g, st.g_graph = some g ∧
      ∀ i : Int, 0 ≤ i → i < (g.num_vertices : Int) → search_cycle g i = .ok false) ∧
    monitor_scan st = .ok [] := by
  obtain ⟨_, g, hg, hok, hcov⟩ := hlinked
  have hall : ∀ i : Int, 0 ≤ i → i < (g.num_vertices : Int) → search_cycle g i = .ok false := by
    intro i h0 h1
    obtain ⟨b, hrun, hb⟩ :=
      search_cycle_verdict g hok.shaped (registry_dests_in_range g _ hok) i h0 h1
    cases b with
    | false => exact hrun
    | true =>
      obtain ⟨c, _, hcc⟩ := hb.mp rfl
      exact absurd hcc (single_acyclic g _ q hok hcov hsingle c)
  refine ⟨⟨g, hg, hall⟩, ?_⟩
  unfold monitor_scan
  rw [hg]
  apply monitor_scan_from_quiet g _ 0 _ hall
  rw [hok.capacity]
  have := hok.next_le
  omega

/-- C7: from a ready detector without edges, along any well-formed sequence of
hook events in which no thread requests a mutex while it waits for or holds
one, in every intermediate state `search_cycle` returns false from every
vertex of the graph, and a scan of the monitor reports no thread. -/
theorem single_mutex_no_deadlock (st : Detector) (es : List Event) (hready : Ready st)
    (hempty : NoEdges st) (hwf : (Pending.idle.run_single es).isSome = true) (k : Nat) :
    (∃ g, (st.run (es.take k)).g_graph = some g ∧
      ∀ i : Int, 0 ≤ i → i < (g.num_vertices : Int) → search_cycle g i = .ok false) ∧
    monitor_scan (st.run (es.take k)) = .ok [] := by
  obtain ⟨q, hq⟩ := Option.isSome_iff_exists.mp hwf
  obtain ⟨q1, hq1⟩ := run_single_take es Pending.idle q k hq
  exact linked_single_quiet _ q1
    (linked_run _ st Pending.idle q1 (linked_of_no_edges st _ hready hempty)
      (run_single_run _ _ _ hq1))
    (single_run _ _ _ idle_single hq1)

/-! ## The hooks on one pair -/

theorem adj_congr {α : Type} (g g1 : DirectedGraph α) (h : g1.adj_lists = g.adj_lists)
    (u : Int) : g1.adj u = g.adj u := by
  simp [DirectedGraph.adj, h]

theorem thread_ne_mutex (T M : Nat) : thread_data T ≠ mutex_data M := by
  simp [thread_data, mutex_data]

/-- What `get_or_create_vertex` does on a ready detector, in terms of
`find_vertex`. -/
theorem get_or_create_facts (st : Detector) (g : DirectedGraph VertexData) (d : VertexData)
    (hready : Ready st) (hg : st.g_graph = some g) :
    Ready (get_or_create_vertex st d).2 ∧
    (∃ g1, (get_or_create_vertex st d).2.g_graph = some g1 ∧ g1.adj_lists = g.adj_lists) ∧
    (∀ x, x ≠ d → find_vertex (get_or_create_vertex st d).2 x = find_vertex st x) ∧
    (find_vertex st d ≠ -1 → find_vertex (get_or_create_vertex st d).2 d = find_vertex st d) ∧
    (st.g_next_vertex < MAX_VERTICES →
      (get_or_create_vertex st d).1 ≠ -1 ∧
      (get_or_create_vertex st d).1 = find_vertex (get_or_create_vertex st d).2 d ∧
      (get_or_create_vertex st d).2.g_next_vertex =
        st.g_next_vertex + (if find_vertex st d = -1 then 1 else 0) ∧
      (find_vertex st d = -1 →
        find_vertex (get_or_create_vertex st d).2 d = (st.g_next_vertex : Int))) := by
  have hready2 := ready_get_or_create st d hready
  obtain ⟨hinit, g0, hg0, hok⟩ := hready
  rw [hg] at hg0
  have hgg : g = g0 := by simpa using hg0
  subst hgg
  refine ⟨hready2, ?_⟩
  rw [get_or_create_vertex_eq st g hg hok d]
  by_cases hfull : st.g_next_vertex ≥ MAX_VERTICES
  · rw [if_pos hfull]
    exact ⟨⟨g, hg, rfl⟩, fun _ _ => rfl, fun _ => rfl, fun h => absurd h (by omega)⟩
  · rw [if_neg hfull]
    by_cases hfound : find_vertex st d ≠ -1
    · rw [if_pos hfound]
      refine ⟨⟨g, hg, rfl⟩, fun _ _ => rfl, fun _ => rfl, fun _ => ⟨hfound, rfl, ?_, ?_⟩⟩
      · simp [hfound]
      · intro h
        exact absurd h hfound
    · rw [if_neg hfound]
      have hneg : find_vertex st d = -1 := by simpa using hfound
      have hnew : find_vertex_scan g.vertex_data d st.g_next_vertex 0 = -1 := by
        rw [← find_vertex_eq st g hg]
        exact hneg
      have hroom : st.g_next_vertex < MAX_VERTICES := by omega
      have hfind : ∀ x, find_vertex
          { st with g_graph := some (install g st.g_next_vertex d),
                    g_next_vertex := st.g_next_vertex + 1 } x =
          if x = d then (st.g_next_vertex : Int) else find_vertex st x := by
        intro x
        rw [find_vertex_eq _ (install g st.g_next_vertex d) rfl, find_vertex_eq st g hg]
        exact find_install g _ hok d hroom hnew x
      refine ⟨⟨_, rfl, rfl⟩, ?_, fun h => absurd h hfound, fun _ => ⟨by omega, ?_, ?_, ?_⟩⟩
      · intro x hx
        rw [hfind x, if_neg hx]
      · rw [hfind d, if_pos rfl]
      · simp [hneg]
      · intro _
        rw [hfind d, if_pos rfl]

theorem no_edge_outside_registry (g : DirectedGraph VertexData) (nv : Nat)
    (hok : RegistryOk g nv) (u d : Int) (h : (nv : Int) ≤ u ∨ (nv : Int) ≤ d) :
    (g.adj u).count d = 0 := by
  apply List.count_eq_zero_of_not_mem
  intro hmem
  have := registry_edges_adj g nv hok u d hmem
  omega

theorem find_vertex_types (st : Detector) (T M : Nat)
    (hT : find_vertex st (thread_data T) ≠ -1) :
    find_vertex st (thread_data T) ≠ find_vertex st (mutex_data M) := by
  intro heq
  cases hg : st.g_graph with
  | none => simp [find_vertex, hg] at hT
  | some g =>
    obtain ⟨j, hj, _, hpay⟩ := find_vertex_payload st g hg (thread_data T) hT
    have hM : find_vertex st (mutex_data M) ≠ -1 := by rw [← heq]; exact hT
    obtain ⟨i, hi, _, hpay2⟩ := find_vertex_payload st g hg (mutex_data M) hM
    rw [hj, hi] at heq
    have hij : j = i := by omega
    subst hij
    rw [hpay] at hpay2
    exact thread_ne_mutex T M (by simpa using hpay2)

theorem before_lock_effective (st : Detector) (T M : Nat) (hready : Ready st) (hM : M ≠ 0)
    (hroom : st.g_next_vertex + (if find_vertex st (thread_data T) = -1 then 1 else 0) <
      MAX_VERTICES) :
    ∃ g g2 st2, st.g_graph = some g ∧ st2.g_graph = some g2 ∧
      g2.adj_lists = g.adj_lists ∧ Ready st2 ∧
      find_vertex st2 (thread_data T) ≠ -1 ∧ find_vertex st2 (mutex_data M) ≠ -1 ∧
      (∀ x, find_vertex st2 x = find_vertex st x ∨
        (find_vertex st x = -1 ∧ (st.g_next_vertex : Int) ≤ find_vertex st2 x)) ∧
      (∀ x, x ≠ thread_data T → x ≠ mutex_data M → find_vertex st2 x = find_vertex st x) ∧
      st2.g_next_vertex = st.g_next_vertex +
        (if find_vertex st (thread_data T) = -1 then 1 else 0) +
        (if find_vertex st (mutex_data M) = -1 then 1 else 0) ∧
      before_lock st T M = { st2 with g_graph := some (add_edge g2
        (find_vertex st2 (thread_data T)) (find_vertex st2 (mutex_data M))) } := by
  obtain ⟨hinit, g, hg, hok⟩ := hready
  have hready : Ready st := ⟨hinit, g, hg, hok⟩
  obtain ⟨hr1, ⟨g1, hg1, hadj1⟩, hoth1, hsame1, hroom1⟩ :=
    get_or_create_facts st g (thread_data T) hready hg
  have hnv0 : st.g_next_vertex < MAX_VERTICES := by omega
  obtain ⟨h1ne, h1eq, h1nv, h1new⟩ := hroom1 hnv0
  obtain ⟨hr2, ⟨g2, hg2, hadj2⟩, hoth2, hsame2, hroom2⟩ :=
    get_or_create_facts (get_or_create_vertex st (thread_data T)).2 g1 (mutex_data M) hr1 hg1
  have hnv1 : (get_or_create_vertex st (thread_data T)).2.g_next_vertex < MAX_VERTICES := by
    rw [h1nv]
    exact hroom
  obtain ⟨h2ne, h2eq, h2nv, h2new⟩ := hroom2 hnv1
  have hT1 : find_vertex (get_or_create_vertex st (thread_data T)).2 (thread_data T) ≠ -1 := by
    rw [← h1eq]
    exact h1ne
  have hT2 := hoth2 (thread_data T) (thread_ne_mutex T M)
  have hM1 := hoth1 (mutex_data M) (fun e => thread_ne_mutex T M e.symm)
  have hM2 : find_vertex (get_or_create_vertex (get_or_create_vertex st (thread_data T)).2
      (mutex_data M)).2 (mutex_data M) ≠ -1 := by
    rw [← h2eq]
    exact h2ne
  refine ⟨g, g2, _, hg, hg2, by rw [hadj2, hadj1], hr2, by rw [hT2]; exact hT1, hM2, ?_,
    fun x hxT hxM => by rw [hoth2 x hxM, hoth1 x hxT], ?_, ?_⟩
  · intro x
    by_cases hxM : x = mutex_data M
    · subst hxM
      by_cases hfound : find_vertex st (mutex_data M) = -1
      · right
        refine ⟨hfound, ?_⟩
        rw [h2new (by rw [hM1]; exact hfound), h1nv]
        split <;> omega
      · left
        rw [hsame2 (by rw [hM1]; exact hfound), hM1]
    · rw [hoth2 x hxM]
      by_cases hxT : x = thread_data T
      · subst hxT
        by_cases hfound : find_vertex st (thread_data T) = -1
        · right
          exact ⟨hfound, by rw [h1new hfound]⟩
        · left
          exact hsame1 hfound
      · left
        exact hoth1 x hxT
  · rw [h2nv, h1nv, hM1]
  · unfold before_lock
    rw [if_neg hM]
    have hinit2 : ¬ st.g_init_complete = false := by simp [hinit]
    rw [if_neg hinit2, hg]
    simp only
    have hguard : ¬ (g.num_vertices = 0 ∨ g.num_vertices > MAX_VERTICES) := by
      rw [hok.capacity]
      simp [MAX_VERTICES]
    rw [if_neg hguard, if_neg h1ne, if_neg h2ne, hg2]
    simp only
    obtain ⟨_, g2b, hg2b, hok2⟩ := hr2
    rw [hg2] at hg2b
    have hgg : g2 = g2b := by simpa using hg2b
    subst hgg
    rw [h1eq, ← hT2, h2eq]
    have hr1b := (find_vertex_range (get_or_create_vertex (get_or_create_vertex st
      (thread_data T)).2 (mutex_data M)).2 (thread_data T)).resolve_left
      (by rw [hT2]; exact hT1)
    have hr2b := (find_vertex_range (get_or_create_vertex (get_or_create_vertex st
      (thread_data T)).2 (mutex_data M)).2 (mutex_data M)).resolve_left hM2
    have hcap := hok2.capacity
    have hle := hok2.next_le
    rw [if_pos (by omega)]

theorem before_lock_idle_passed (st : Detector) (T M : Nat) (hready : Ready st) (hM : M ≠ 0)
    (hroom : st.g_next_vertex + (if find_vertex st (thread_data T) = -1 then 1 else 0) <
      MAX_VERTICES)
    (hwait : wait_edges st T M = 0) (hhold : hold_edges st T M = 0) :
    find_vertex (before_lock st T M) (thread_data T) ≠ -1 ∧
    find_vertex (before_lock st T M) (mutex_data M) ≠ -1 ∧
    wait_edges (before_lock st T M) T M = 1 ∧
    hold_edges (before_lock st T M) T M = 0 := by
  obtain ⟨g, g2, st2, hg, hg2, hadj, hr2, hT, hMf, hfind, _, _, heq⟩ :=
    before_lock_effective st T M hready hM hroom
  obtain ⟨_, g0, hg0, hok⟩ := hready
  rw [hg] at hg0
  have hgg : g = g0 := by simpa using hg0
  subst hgg
  obtain ⟨_, g2b, hg2b, hok2⟩ := hr2
  rw [hg2] at hg2b
  have hgg : g2 = g2b := by simpa using hg2b
  subst hgg
  have hf := add_edge_fields g2 (find_vertex st2 (thread_data T)) (find_vertex st2 (mutex_data M))
  have hfindeq : ∀ x, find_vertex (before_lock st T M) x = find_vertex st2 x := by
    intro x
    rw [heq]
    exact find_vertex_congr st2 { st2 with g_graph := some (add_edge g2
      (find_vertex st2 (thread_data T)) (find_vertex st2 (mutex_data M))) } g2 _ hg2 rfl
      hf.2.1 rfl x
  have hne := find_vertex_types st2 T M hT
  have hrT := (find_vertex_range st2 (thread_data T)).resolve_left hT
  have hrM := (find_vertex_range st2 (mutex_data M)).resolve_left hMf
  have hcap := hok2.capacity
  have hle := hok2.next_le
  have hadjT : (add_edge g2 (find_vertex st2 (thread_data T))
      (find_vertex st2 (mutex_data M))).adj (find_vertex st2 (thread_data T)) =
      find_vertex st2 (mutex_data M) :: g.adj (find_vertex st2 (thread_data T)) := by
    rw [add_edge_adj g2 hok2.shaped _ _ _ (by omega) (by omega) (by omega) (by omega),
      if_pos rfl, adj_congr g g2 hadj]
  have hadjM : (add_edge g2 (find_vertex st2 (thread_data T))
      (find_vertex st2 (mutex_data M))).adj (find_vertex st2 (mutex_data M)) =
      g.adj (find_vertex st2 (mutex_data M)) := by
    rw [add_edge_adj g2 hok2.shaped _ _ _ (by omega) (by omega) (by omega) (by omega),
      if_neg (fun e => hne e.symm), adj_congr g g2 hadj]
  have hold0 : (g.adj (find_vertex st2 (thread_data T))).count
        (find_vertex st2 (mutex_data M)) = 0 ∧
      (g.adj (find_vertex st2 (mutex_data M))).count
        (find_vertex st2 (thread_data T)) = 0 := by
    rcases hfind (thread_data T) with hTs | ⟨_, hTn⟩
    · rcases hfind (mutex_data M) with hMs | ⟨_, hMn⟩
      · have hT0 : find_vertex st (thread_data T) ≠ -1 := by rw [← hTs]; exact hT
        have hM0 : find_vertex st (mutex_data M) ≠ -1 := by rw [← hMs]; exact hMf
        rw [hTs, hMs]
        simp only [wait_edges, hold_edges, hg, hT0, hM0, or_self, if_false, edge_count]
          at hwait hhold
        exact ⟨hwait, hhold⟩
      · exact ⟨no_edge_outside_registry g _ hok _ _ (Or.inr hMn),
          no_edge_outside_registry g _ hok _ _ (Or.inl hMn)⟩
    · exact ⟨no_edge_outside_registry g _ hok _ _ (Or.inl hTn),
        no_edge_outside_registry g _ hok _ _ (Or.inr hTn)⟩
  refine ⟨by rw [hfindeq]; exact hT, by rw [hfindeq]; exact hMf, ?_, ?_⟩
  · unfold wait_edges
    rw [hfindeq, hfindeq, heq]
    simp only [hT, hMf, or_self, if_false, edge_count]
    rw [hadjT, List.count_cons_self, hold0.1]
  · unfold hold_edges
    rw [hfindeq, hfindeq, heq]
    simp only [hT, hMf, or_self, if_false, edge_count]
    rw [hadjM, hold0.2]

/-- C3, amended: on a ready detector whose registry has room for the vertices
that `before_lock` has to create (the next index plus the number of those among
T and M that have no vertex yet is at most `MAX_VERTICES`), for a non-null mutex
and an idle pair, after `before_lock(T, M)` both vertices exist, the graph holds
exactly one wait edge vT → vM and no hold edge vM → vT. The states in which M
already has a vertex and is looked up on a full registry are left aside. -/
theorem before_lock_idle (st : Detector) (T M : Nat) (hready : Ready st) (hM : M ≠ 0)
    (hroom : st.g_next_vertex + (if find_vertex st (thread_data T) = -1 then 1 else 0) +
      (if find_vertex st (mutex_data M) = -1 then 1 else 0) ≤ MAX_VERTICES)
    (hlookup : find_vertex st (mutex_data M) ≠ -1 →
      st.g_next_vertex + (if find_vertex st (thread_data T) = -1 then 1 else 0) ≠ MAX_VERTICES)
    (hwait : wait_edges st T M = 0) (hhold : hold_edges st T M = 0) :
    find_vertex (before_lock st T M) (thread_data T) ≠ -1 ∧
    find_vertex (before_lock st T M) (mutex_data M) ≠ -1 ∧
    wait_edges (before_lock st T M) T M = 1 ∧
    hold_edges (before_lock st T M) T M = 0 := by
  apply before_lock_idle_passed st T M hready hM _ hwait hhold
  by_cases hfM : find_vertex st (mutex_data M) = -1
  · rw [if_pos hfM] at hroom
    omega
  · rw [if_neg hfM] at hroom
    have := hlookup hfM
    omega

/-- C4: on a ready detector in which the pair is waiting (exactly one wait edge
vT → vM, no hold edge vM → vT), after `after_lock(T, M)` the graph holds exactly
one hold edge vM → vT and no wait edge vT → vM, the vertices of T and M are the
same, and the number of edges u → w is unchanged for every other pair (u, w). -/
theorem after_lock_waiting (st : Detector) (T M : Nat) (hready : Ready st)
    (hwait : wait_edges st T M = 1) (hhold : hold_edges st T M = 0) :
    hold_edges (after_lock st T M) T M = 1 ∧
    wait_edges (after_lock st T M) T M = 0 ∧
    find_vertex (after_lock st T M) (thread_data T) = find_vertex st (thread_data T) ∧
    find_vertex (after_lock st T M) (mutex_data M) = find_vertex st (mutex_data M) ∧
    ∃ g g1, st.g_graph = some g ∧ (after_lock st T M).g_graph = some g1 ∧
      ∀ u w : Int,
        ¬ (u = find_vertex st (thread_data T) ∧ w = find_vertex st (mutex_data M)) →
        ¬ (u = find_vertex st (mutex_data M) ∧ w = find_vertex st (thread_data T)) →
        edge_count g1 u w = edge_count g u w := by
  obtain ⟨_, g, hg, hok⟩ := hready
  have hboth : find_vertex st (thread_data T) ≠ -1 ∧ find_vertex st (mutex_data M) ≠ -1 := by
    by_contra hnot
    have : find_vertex st (thread_data T) = -1 ∨ find_vertex st (mutex_data M) = -1 := by
      by_cases h : find_vertex st (thread_data T) = -1
      · exact Or.inl h
      · right
        by_contra h2
        exact hnot ⟨h, h2⟩
    simp [wait_edges, hg, this] at hwait
  obtain ⟨hT, hMf⟩ := hboth
  simp only [wait_edges, hold_edges, hg, hT, hMf, or_self, if_false, edge_count]
    at hwait hhold
  have hne := find_vertex_types st T M hT
  have hrT := (find_vertex_range st (thread_data T)).resolve_left hT
  have hrM := (find_vertex_range st (mutex_data M)).resolve_left hMf
  have hcap := hok.capacity
  have hle := hok.next_le
  have heq : after_lock st T M = { st with g_graph := some (add_edge
      (remove_edge g (find_vertex st (thread_data T)) (find_vertex st (mutex_data M))).2
      (find_vertex st (mutex_data M)) (find_vertex st (thread_data T))) } := by
    unfold after_lock
    rw [hg]
    simp only
    rw [if_pos ⟨hT, hMf⟩]
  have hrf := remove_edge_fields g (find_vertex st (thread_data T))
    (find_vertex st (mutex_data M))
  have haf := add_edge_fields
    (remove_edge g (find_vertex st (thread_data T)) (find_vertex st (mutex_data M))).2
    (find_vertex st (mutex_data M)) (find_vertex st (thread_data T))
  have hfindeq : ∀ x, find_vertex (after_lock st T M) x = find_vertex st x := by
    intro x
    rw [heq]
    exact find_vertex_congr st { st with g_graph := some (add_edge
      (remove_edge g (find_vertex st (thread_data T)) (find_vertex st (mutex_data M))).2
      (find_vertex st (mutex_data M)) (find_vertex st (thread_data T))) } g _ hg rfl
      (by rw [haf.2.1, hrf.2.1]) rfl x
  have hshape1 : (remove_edge g (find_vertex st (thread_data T))
      (find_vertex st (mutex_data M))).2.Shaped :=
    (registry_remove_edge g _ hok _ _).shaped
  have hadj : ∀ u, (add_edge
      (remove_edge g (find_vertex st (thread_data T)) (find_vertex st (mutex_data M))).2
      (find_vertex st (mutex_data M)) (find_vertex st (thread_data T))).adj u =
      if u = find_vertex st (mutex_data M) then
        find_vertex st (thread_data T) :: g.adj (find_vertex st (mutex_data M))
      else if u = find_vertex st (thread_data T) then
        (g.adj (find_vertex st (thread_data T))).erase (find_vertex st (mutex_data M))
      else g.adj u := by
    intro u
    rw [add_edge_adj _ hshape1 _ _ _ (by omega) (by rw [hrf.1]; omega) (by omega)
      (by rw [hrf.1]; omega)]
    by_cases huM : u = find_vertex st (mutex_data M)
    · rw [if_pos huM, if_pos huM,
        remove_edge_adj g hok.shaped _ _ _ (by omega) (by omega) (by omega) (by omega),
        if_neg (fun e => hne e.symm)]
    · rw [if_neg huM, if_neg huM,
        remove_edge_adj g hok.shaped _ _ _ (by omega) (by omega) (by omega) (by omega)]
  refine ⟨?_, ?_, hfindeq _, hfindeq _, g, _, hg, by rw [heq], ?_⟩
  · unfold hold_edges
    rw [hfindeq, hfindeq, heq]
    simp only [hT, hMf, or_self, if_false, edge_count]
    rw [hadj, if_pos rfl, List.count_cons_self, hhold]
  · unfold wait_edges
    rw [hfindeq, hfindeq, heq]
    simp only [hT, hMf, or_self, if_false, edge_count]
    rw [hadj, if_neg hne, if_pos rfl, List.count_erase_self, hwait]
  · intro u w h1 h2
    unfold edge_count
    rw [hadj]
    by_cases huM : u = find_vertex st (mutex_data M)
    · rw [if_pos huM]
      have hw : w ≠ find_vertex st (thread_data T) := fun e => h2 ⟨huM, e⟩
      rw [List.count_cons_of_ne hw, huM]
    · rw [if_neg huM]
      by_cases huT : u = find_vertex st (thread_data T)
      · rw [if_pos huT]
        have hw : w ≠ find_vertex st (mutex_data M) := fun e => h1 ⟨huT, e⟩
        rw [List.count_erase_of_ne hw, huT]
      · rw [if_neg huT]

/-! ## Repeated locking of one mutex -/

theorem run_append (es fs : List Event) :
    ∀ st : Detector, st.run (es ++ fs) = (st.run es).run fs := by
  induction es with
  | nil => intro st; rfl
  | cons e es ih => intro st; exact ih (st.step e)

theorem ready_of_linked (st : Detector) (p : Pending) (h : Linked st p) : Ready st := by
  obtain ⟨hinit, g, hg, hok, _⟩ := h
  exact ⟨hinit, g, hg, hok⟩

theorem after_lock_registry (st : Detector) (T M : Nat) :
    (after_lock st T M).g_next_vertex = st.g_next_vertex ∧
    ∀ x, find_vertex (after_lock st T M) x = find_vertex st x := by
  unfold after_lock
  cases hg : st.g_graph with
  | none => exact ⟨rfl, fun _ => rfl⟩
  | some g =>
    simp only
    split
    · refine ⟨rfl, fun x => ?_⟩
      refine find_vertex_congr st _ g _ hg (by rfl) ?_ (by rfl) x
      rw [(add_edge_fields _ _ _).2.1, (remove_edge_fields _ _ _).2.1]
    · exact ⟨rfl, fun _ => rfl⟩

theorem after_unlock_registry (st : Detector) (T M : Nat) :
    (after_unlock st T M).g_next_vertex = st.g_next_vertex ∧
    ∀ x, find_vertex (after_unlock st T M) x = find_vertex st x := by
  unfold after_unlock
  cases hg : st.g_graph with
  | none => exact ⟨rfl, fun _ => rfl⟩
  | some g =>
    simp only
    split
    · refine ⟨rfl, fun x => ?_⟩
      refine find_vertex_congr st _ g _ hg (by rfl) ?_ (by rfl) x
      rw [(remove_edge_fields _ _ _).2.1]
    · exact ⟨rfl, fun _ => rfl⟩

theorem before_lock_registry (st : Detector) (T M : Nat) (hready : Ready st) (hM : M ≠ 0)
    (hroom : st.g_next_vertex + (if find_vertex st (thread_data T) = -1 then 1 else 0) <
      MAX_VERTICES) :
    (before_lock st T M).g_next_vertex = st.g_next_vertex +
        (if find_vertex st (thread_data T) = -1 then 1 else 0) +
        (if find_vertex st (mutex_data M) = -1 then 1 else 0) ∧
    find_vertex (before_lock st T M) (thread_data T) ≠ -1 ∧
    find_vertex (before_lock st T M) (mutex_data M) ≠ -1 ∧
    (∀ x, find_vertex st x ≠ -1 → find_vertex (before_lock st T M) x = find_vertex st x) ∧
    (∀ x, x ≠ thread_data T → x ≠ mutex_data M →
      find_vertex (before_lock st T M) x = find_vertex st x) := by
  obtain ⟨g, g2, st2, hg, hg2, hadj, hr2, hT, hMf, hfind, hoth, hnv, heq⟩ :=
    before_lock_effective st T M hready hM hroom
  have hfindeq : ∀ x, find_vertex (before_lock st T M) x = find_vertex st2 x := by
    intro x
    rw [heq]
    exact find_vertex_congr st2 { st2 with g_graph := some (add_edge g2
      (find_vertex st2 (thread_data T)) (find_vertex st2 (mutex_data M))) } g2 _ hg2 rfl
      (add_edge_fields _ _ _).2.1 rfl x
  refine ⟨by rw [heq]; exact hnv, by rw [hfindeq]; exact hT, by rw [hfindeq]; exact hMf, ?_, ?_⟩
  · intro x hx
    rw [hfindeq]
    rcases hfind x with h | ⟨h, _⟩
    · exact h
    · exact absurd h hx
  · intro x h1 h2
    rw [hfindeq]
    exact hoth x h1 h2

theorem round_pending (T M : Nat) :
    Pending.idle.run (lock_unlock_round T M) = some Pending.idle := by
  simp [lock_unlock_round, Pending.run, Pending.step, Pending.idle]

theorem round_facts (st : Detector) (T M : Nat) (hl : Linked st Pending.idle) (hM : M ≠ 0)
    (hroom : st.g_next_vertex + (if find_vertex st (thread_data T) = -1 then 1 else 0) <
      MAX_VERTICES) :
    Linked (st.run (lock_unlock_round T M)) Pending.idle ∧
    (st.run (lock_unlock_round T M)).g_next_vertex = st.g_next_vertex +
        (if find_vertex st (thread_data T) = -1 then 1 else 0) +
        (if find_vertex st (mutex_data M) = -1 then 1 else 0) ∧
    find_vertex (st.run (lock_unlock_round T M)) (thread_data T) ≠ -1 ∧
    find_vertex (st.run (lock_unlock_round T M)) (mutex_data M) ≠ -1 := by
  refine ⟨linked_run _ st _ _ hl (round_pending T M), ?_⟩
  obtain ⟨h1, h2, h3, _, _⟩ := before_lock_registry st T M (ready_of_linked st _ hl) hM hroom
  have ha := after_lock_registry (before_lock st T M) T M
  have hu := after_unlock_registry (after_lock (before_lock st T M) T M) T M
  simp only [lock_unlock_round, Detector.run, Detector.step]
  refine ⟨by rw [hu.1, ha.1, h1], by rw [hu.2, ha.2]; exact h2, by rw [hu.2, ha.2]; exact h3⟩

theorem rounds_facts (T M : Nat) (hM : M ≠ 0) (n : Nat) :
    ∀ st : Detector, Linked st Pending.idle → st.g_next_vertex = 2 →
      find_vertex st (thread_data T) ≠ -1 → find_vertex st (mutex_data M) ≠ -1 →
      Linked (st.run (lock_unlock_rounds T M n)) Pending.idle ∧
      (st.run (lock_unlock_rounds T M n)).g_next_vertex = 2 ∧
      find_vertex (st.run (lock_unlock_rounds T M n)) (thread_data T) ≠ -1 ∧
      find_vertex (st.run (lock_unlock_rounds T M n)) (mutex_data M) ≠ -1 := by
  induction n with
  | zero =>
    intro st hl hnv hT hMf
    exact ⟨hl, hnv, hT, hMf⟩
  | succ n ih =>
    intro st hl hnv hT hMf
    have hroom : st.g_next_vertex + (if find_vertex st (thread_data T) = -1 then 1 else 0) <
        MAX_VERTICES := by
      rw [hnv, if_neg hT]
      simp [MAX_VERTICES]
    obtain ⟨h1, h2, h3, h4⟩ := round_facts st T M hl hM hroom
    rw [if_neg hT, if_neg hMf, hnv] at h2
    simp only [lock_unlock_rounds]
    rw [run_append]
    exact ih _ h1 h2 h3 h4

/-- C8: from a fresh ready detector, after `n ≥ 1` rounds of `before_lock`,
`after_lock`, `after_unlock` by one thread on one mutex, the registry holds
exactly two vertices (`g_next_vertex = 2`, one found for the thread and one
for the mutex) and every adjacency list is empty. -/
theorem rapid_lock_unlock (T M n : Nat) (hM : M ≠ 0) (hn : 1 ≤ n) :
    (Detector.fresh.run (lock_unlock_rounds T M n)).g_next_vertex = 2 ∧
    find_vertex (Detector.fresh.run (lock_unlock_rounds T M n)) (thread_data T) ≠ -1 ∧
    find_vertex (Detector.fresh.run (lock_unlock_rounds T M n)) (mutex_data M) ≠ -1 ∧
    NoEdges (Detector.fresh.run (lock_unlock_rounds T M n)) := by
  obtain ⟨m, rfl⟩ : ∃ m, n = m + 1 := ⟨n - 1, by omega⟩
  have hl0 : Linked Detector.fresh Pending.idle :=
    linked_of_no_edges _ _ ready_fresh no_edges_fresh
  have hfT : find_vertex Detector.fresh (thread_data T) = -1 := rfl
  have hfM : find_vertex Detector.fresh (mutex_data M) = -1 := rfl
  have hnv0 : Detector.fresh.g_next_vertex = 0 := rfl
  have hroom : Detector.fresh.g_next_vertex +
      (if find_vertex Detector.fresh (thread_data T) = -1 then 1 else 0) < MAX_VERTICES := by
    rw [hnv0, if_pos hfT]
    simp [MAX_VERTICES]
  obtain ⟨h1, h2, h3, h4⟩ := round_facts Detector.fresh T M hl0 hM hroom
  rw [if_pos hfT, if_pos hfM, hnv0] at h2
  simp only [lock_unlock_rounds]
  rw [run_append]
  obtain ⟨k1, k2, k3, k4⟩ := rounds_facts T M hM m _ h1 h2 h3 h4
  exact ⟨k2, k3, k4, no_edges_of_linked_idle _ k1⟩

theorem rapid_lock_unlock_witness :
    (Detector.fresh.run (lock_unlock_rounds 7 4096 3)).g_next_vertex = 2 ∧
    find_vertex (Detector.fresh.run (lock_unlock_rounds 7 4096 3)) (thread_data 7) ≠ -1 ∧
    find_vertex (Detector.fresh.run (lock_unlock_rounds 7 4096 3)) (mutex_data 4096) ≠ -1 ∧
    NoEdges (Detector.fresh.run (lock_unlock_rounds 7 4096 3)) :=
  rapid_lock_unlock 7 4096 3 (by decide) (by decide)

/-! ## Reachable states -/

theorem linked_track (st : Detector) (p : Pending) (e : Event) (hl : Linked st p) :
    Linked (st.step e) (p.track e) := by
  cases e with
  | thread_create T => exact linked_thread_create st p T hl
  | before_lock T M => exact linked_before_lock st p T M hl
  | after_lock T M => exact linked_after_lock st p T M hl
  | before_unlock T M => exact hl
  | after_unlock T M => exact linked_after_unlock st p T M hl

theorem linked_run_any (es : List Event) :
    ∀ (st : Detector) (p : Pending), Linked st p → ∃ q, Linked (st.run es) q := by
  induction es with
  | nil => intro st p hl; exact ⟨p, hl⟩
  | cons e es ih => intro st p hl; exact ih (st.step e) (p.track e) (linked_track st p e hl)

/-- Every state the hooks can reach from the fresh detector, by any sequence of
events, is ready. -/
theorem ready_reachable (es : List Event) : Ready (Detector.fresh.run es) := by
  obtain ⟨q, hq⟩ := linked_run_any es Detector.fresh Pending.idle
    (linked_of_no_edges _ _ ready_fresh no_edges_fresh)
  exact ready_of_linked _ q hq

/-! ## Concrete runs -/

theorem full_registry_getD (i : Nat) (hi : i < MAX_VERTICES) :
    ((List.range MAX_VERTICES).map (fun i => some (thread_data (i + 1)))).getD i none =
      some (thread_data (i + 1)) := by
  simp [List.getD_eq_getElem?_getD, List.getElem?_range hi]

theorem ready_full_registry : Ready full_registry := by
  refine ⟨rfl, _, rfl, ?_⟩
  refine ⟨⟨by simp, by simp⟩, rfl, fun _ => rfl, le_refl _, ?_, ?_⟩
  · intro i hi0
    have hi : i < MAX_VERTICES := hi0
    refine ⟨thread_data (i + 1), full_registry_getD i hi, ?_⟩
    rw [find_scan_eq_iff]
    refine ⟨hi, full_registry_getD i hi, ?_⟩
    intro m hm
    rw [full_registry_getD m (by omega)]
    simp [thread_data]
    omega
  · intro u d hd
    exfalso
    simp only [List.getD_eq_getElem?_getD] at hd
    by_cases hu : u < MAX_VERTICES
    · simp [List.getElem?_replicate, hu] at hd
    · simp [List.getElem?_replicate, hu] at hd

/-- C3 fails on a full registry: the detector is ready and the pair (thread 200,
mutex 4096) is idle, yet after `before_lock` neither vertex exists and no wait
edge has been added. -/
theorem before_lock_idle_full_registry :
    Ready full_registry ∧ wait_edges full_registry 200 4096 = 0 ∧
    hold_edges full_registry 200 4096 = 0 ∧
    ¬ (find_vertex (before_lock full_registry 200 4096) (thread_data 200) ≠ -1 ∧
       find_vertex (before_lock full_registry 200 4096) (mutex_data 4096) ≠ -1 ∧
       wait_edges (before_lock full_registry 200 4096) 200 4096 = 1 ∧
       hold_edges (before_lock full_registry 200 4096) 200 4096 = 0) := by
  have hsame : before_lock full_registry 200 4096 = full_registry := rfl
  have hfind : find_vertex full_registry (mutex_data 4096) = -1 := by decide
  refine ⟨ready_full_registry, ?_, ?_, ?_⟩
  · decide
  · decide
  · rw [hsame]
    intro h
    exact h.2.1 hfind

theorem before_lock_idle_witness :
    find_vertex (before_lock Detector.fresh 1 4096) (thread_data 1) ≠ -1 ∧
    find_vertex (before_lock Detector.fresh 1 4096) (mutex_data 4096) ≠ -1 ∧
    wait_edges (before_lock Detector.fresh 1 4096) 1 4096 = 1 ∧
    hold_edges (before_lock Detector.fresh 1 4096) 1 4096 = 0 :=
  before_lock_idle Detector.fresh 1 4096 ready_fresh (by decide) (by decide) (by decide)
    (by decide) (by decide)

theorem after_lock_waiting_witness :
    hold_edges (after_lock (before_lock Detector.fresh 1 4096) 1 4096) 1 4096 = 1 ∧
    wait_edges (after_lock (before_lock Detector.fresh 1 4096) 1 4096) 1 4096 = 0 ∧
    find_vertex (after_lock (before_lock Detector.fresh 1 4096) 1 4096) (thread_data 1) =
      find_vertex (before_lock Detector.fresh 1 4096) (thread_data 1) ∧
    find_vertex (after_lock (before_lock Detector.fresh 1 4096) 1 4096) (mutex_data 4096) =
      find_vertex (before_lock Detector.fresh 1 4096) (mutex_data 4096) ∧
    ∃ g g1, (before_lock Detector.fresh 1 4096).g_graph = some g ∧
      (after_lock (before_lock Detector.fresh 1 4096) 1 4096).g_graph = some g1 ∧
      ∀ u w : Int,
        ¬ (u = find_vertex (before_lock Detector.fresh 1 4096) (thread_data 1) ∧
           w = find_vertex (before_lock Detector.fresh 1 4096) (mutex_data 4096)) →
        ¬ (u = find_vertex (before_lock Detector.fresh 1 4096) (mutex_data 4096) ∧
           w = find_vertex (before_lock Detector.fresh 1 4096) (thread_data 1)) →
        edge_count g1 u w = edge_count g u w :=
  after_lock_waiting (before_lock Detector.fresh 1 4096) 1 4096
    (ready_of_linked _ _ (linked_before_lock Detector.fresh Pending.idle 1 4096
      (linked_of_no_edges _ _ ready_fresh no_edges_fresh)))
    (by decide) (by decide)

theorem quiescent_no_edges_witness : NoEdges (Detector.fresh.run two_threads_one_mutex) :=
  quiescent_no_edges Detector.fresh two_threads_one_mutex ready_fresh no_edges_fresh
    (by decide)

theorem single_mutex_no_deadlock_witness :
    (∃ g, (Detector.fresh.run (two_threads_one_mutex.take 5)).g_graph = some g ∧
      ∀ i : Int, 0 ≤ i → i < (g.num_vertices : Int) → search_cycle g i = .ok false) ∧
    monitor_scan (Detector.fresh.run (two_threads_one_mutex.take 5)) = .ok [] :=
  single_mutex_no_deadlock Detector.fresh two_threads_one_mutex ready_fresh no_edges_fresh
    (by decide) 5

/-! ## The ring of threads -/

theorem run_single_append (es fs : List Event) :
    ∀ p q : Pending, p.run_single es = some q →
      p.run_single (es ++ fs) = q.run_single fs := by
  induction es with
  | nil =>
    intro p q h
    simp only [Pending.run_single, Option.some.injEq] at h
    subst h
    rfl
  | cons e es ih =>
    intro p q h
    simp only [Pending.run_single] at h
    split at h
    · simp at h
    · rename_i p1 hp1
      simp only [List.cons_append, Pending.run_single, hp1]
      exact ih p1 q h

theorem ring_acquires_pending (k : Nat) :
    ∃ p : Pending, Pending.idle.run_single (ring_acquires k) = some p ∧ p.waiting = [] ∧
      ∀ T ∈ p.held.map Prod.fst, T ≤ k := by
  induction k with
  | zero => exact ⟨Pending.idle, rfl, rfl, by simp [Pending.idle]⟩
  | succ k ih =>
    obtain ⟨p, hp, hw, hh⟩ := ih
    refine ⟨{ waiting := [], held := (k + 1, k + 1) :: p.held }, ?_, rfl, ?_⟩
    · simp only [ring_acquires]
      rw [run_single_append _ _ _ p hp]
      have hnot : k + 1 ∉ p.held.map Prod.fst := by
        intro hmem
        have := hh (k + 1) hmem
        omega
      simp only [Pending.run_single, Pending.step_single, Pending.step, hw, List.nil_append,
        if_neg hnot, List.mem_singleton, if_true, List.erase_cons_head]
    · intro T hT
      simp only [List.map_cons, List.mem_cons] at hT
      rcases hT with rfl | hT
      · exact le_refl _
      · exact Nat.le_succ_of_le (hh T hT)

theorem thread_data_inj (a b : Nat) (h : thread_data a = thread_data b) : a = b := by
  simpa [thread_data] using h

theorem mutex_data_inj (a b : Nat) (h : mutex_data a = mutex_data b) : a = b := by
  simpa [mutex_data] using h

theorem ring_acquires_registry (k : Nat) (hk : 2 * k ≤ MAX_VERTICES) :
    (Detector.fresh.run (ring_acquires k)).g_next_vertex = 2 * k ∧
    (∀ j, k < j → find_vertex (Detector.fresh.run (ring_acquires k)) (thread_data j) = -1 ∧
      find_vertex (Detector.fresh.run (ring_acquires k)) (mutex_data j) = -1) ∧
    (∀ j, 1 ≤ j → j ≤ k →
      find_vertex (Detector.fresh.run (ring_acquires k)) (thread_data j) ≠ -1) := by
  induction k with
  | zero =>
    refine ⟨rfl, fun j _ => ⟨rfl, rfl⟩, fun j h1 h2 => by omega⟩
  | succ k ih =>
    obtain ⟨hnv, hnew, hold⟩ := ih (by omega)
    obtain ⟨p, hp, _, _⟩ := ring_acquires_pending k
    have hlinked : Linked (Detector.fresh.run (ring_acquires k)) p :=
      linked_run _ _ _ _ (linked_of_no_edges _ _ ready_fresh no_edges_fresh)
        (run_single_run _ _ _ hp)
    have hfT := (hnew (k + 1) (by omega)).1
    have hfM := (hnew (k + 1) (by omega)).2
    have hroom : (Detector.fresh.run (ring_acquires k)).g_next_vertex +
        (if find_vertex (Detector.fresh.run (ring_acquires k)) (thread_data (k + 1)) = -1
          then 1 else 0) < MAX_VERTICES := by
      rw [hnv, if_pos hfT]
      omega
    obtain ⟨h1, h2, _, h4, h5⟩ := before_lock_registry (Detector.fresh.run (ring_acquires k))
      (k + 1) (k + 1) (ready_of_linked _ _ hlinked) (by omega) hroom
    have ha := after_lock_registry
      (before_lock (Detector.fresh.run (ring_acquires k)) (k + 1) (k + 1)) (k + 1) (k + 1)
    have hrun : Detector.fresh.run (ring_acquires (k + 1)) =
        after_lock (before_lock (Detector.fresh.run (ring_acquires k)) (k + 1) (k + 1))
          (k + 1) (k + 1) := by
      simp only [ring_acquires]
      rw [run_append]
      rfl
    rw [hrun]
    refine ⟨?_, ?_, ?_⟩
    · rw [ha.1, h1, hnv, if_pos hfT, if_pos hfM]
      omega
    · intro j hj
      rw [ha.2, ha.2]
      rw [h5 (thread_data j) (fun e => by have := thread_data_inj _ _ e; omega)
        (fun e => thread_ne_mutex _ _ e)]
      rw [h5 (mutex_data j) (fun e => thread_ne_mutex _ _ e.symm)
        (fun e => by have := mutex_data_inj _ _ e; omega)]
      exact hnew j (by omega)
    · intro j hj1 hj2
      rw [ha.2]
      by_cases hjk : j = k + 1
      · subst hjk
        exact h2
      · rw [h4 _ (hold j hj1 (by omega))]
        exact hold j hj1 (by omega)

theorem before_lock_full (st : Detector) (T M : Nat)
    (hfull : st.g_next_vertex ≥ MAX_VERTICES) : before_lock st T M = st := by
  unfold before_lock
  split
  · rfl
  · split
    · rfl
    · split
      · rfl
      · split
        · rfl
        · rename_i g hg _
          have hr : get_or_create_vertex st (thread_data T) = (-1, st) := by
            simp [get_or_create_vertex, hg, hfull]
          rw [hr]
          simp

theorem ring_requests_full (n k : Nat) (st : Detector)
    (hfull : st.g_next_vertex ≥ MAX_VERTICES) : st.run (ring_requests n k) = st := by
  induction k with
  | zero => rfl
  | succ k ih =>
    simp only [ring_requests]
    rw [run_append, ih]
    simp only [Detector.run, Detector.step]
    exact before_lock_full st _ _ hfull

theorem wait_edges_le_bound (st : Detector) (p : Pending) (T M : Nat) (hl : Linked st p) :
    wait_edges st T M ≤ p.waiting.count (T, M) := by
  obtain ⟨_, g, hg, hok, hcov⟩ := hl
  unfold wait_edges
  rw [hg]
  simp only
  split
  · exact Nat.zero_le _
  · rename_i hboth
    have hT : find_vertex st (thread_data T) ≠ -1 := fun e => hboth (Or.inl e)
    have hMf : find_vertex st (mutex_data M) ≠ -1 := fun e => hboth (Or.inr e)
    obtain ⟨u, hu, hu1, hu2⟩ := find_vertex_payload st g hg _ hT
    obtain ⟨d, hd, hd1, hd2⟩ := find_vertex_payload st g hg _ hMf
    rw [hu, hd]
    exact hcov u d hu1 hd1 _ _ hu2 hd2

/-- C6 at n = 50: the ring of fifty threads fills the registry while the
mutexes are acquired, every later `before_lock` is dropped although both
vertices are registered, so no wait edge is stored and `search_cycle` returns
false from every vertex. -/
theorem ring_fifty_unreported :
    (Detector.fresh.run (ring_events 50)).g_next_vertex = MAX_VERTICES ∧
    (∀ i, 1 ≤ i → i ≤ 50 →
      find_vertex (Detector.fresh.run (ring_events 50)) (thread_data i) ≠ -1 ∧
      wait_edges (Detector.fresh.run (ring_events 50)) i (i % 50 + 1) = 0) ∧
    (∃ g, (Detector.fresh.run (ring_events 50)).g_graph = some g ∧
      ∀ v : Int, 0 ≤ v → v < (g.num_vertices : Int) → search_cycle g v = .ok false) := by
  obtain ⟨hnv, _, hold⟩ := ring_acquires_registry 50 (by decide)
  obtain ⟨p, hp, hw, _⟩ := ring_acquires_pending 50
  have hlinked : Linked (Detector.fresh.run (ring_acquires 50)) p :=
    linked_run _ _ _ _ (linked_of_no_edges _ _ ready_fresh no_edges_fresh)
      (run_single_run _ _ _ hp)
  have hrun : Detector.fresh.run (ring_events 50) = Detector.fresh.run (ring_acquires 50) := by
    unfold ring_events
    rw [run_append]
    exact ring_requests_full 50 50 _ (by rw [hnv]; decide)
  rw [hrun]
  refine ⟨by rw [hnv]; rfl, ?_, ?_⟩
  · intro i h1 h2
    refine ⟨hold i h1 h2, ?_⟩
    have := wait_edges_le_bound _ p i (i % 50 + 1) hlinked
    rw [hw] at this
    simpa using this
  · exact (linked_single_quiet _ p hlinked (single_run _ _ _ idle_single hp)).1

/-- The rings of two and of four threads are reported from every thread. -/
theorem ring_two_four_reported :
    (Detector.fresh.run (ring_events 2)).g_graph.map
        (fun g => (search_cycle g 0, search_cycle g 2)) = some (.ok true, .ok true) ∧
    (Detector.fresh.run (ring_events 4)).g_graph.map
        (fun g => (search_cycle g 0, search_cycle g 2, search_cycle g 4, search_cycle g 6)) =
      some (.ok true, .ok true, .ok true, .ok true) := by
  constructor <;> decide

/-! ## The graph operations one by one -/

theorem adj_index_of_mem {α : Type} (g : DirectedGraph α) (u d : Int) (h : d ∈ g.adj u) :
    0 ≤ u ∧ u.toNat < g.adj_lists.length := by
  unfold DirectedGraph.adj at h
  by_cases hu : u < 0
  · simp [hu] at h
  · simp only [if_neg hu] at h
    refine ⟨by omega, ?_⟩
    by_contra hlen
    rw [List.getD_eq_getElem?_getD, List.getElem?_eq_none (by omega)] at h
    simp at h

/-- C11: when `dst` occurs in the adjacency list of the in-range vertex `src`,
`remove_edge(src, dst)` returns true, the new list of `src` is the old one with
its first occurrence of `dst` deleted (what stands before and after it is
kept), and the lists of the other vertices, the payloads and the size of the
graph are unchanged. -/
theorem remove_present_edge {α : Type} (g : DirectedGraph α) (src dst : Int)
    (hs0 : 0 ≤ src) (hs1 : src < (g.num_vertices : Int)) (hd0 : 0 ≤ dst)
    (hd1 : dst < (g.num_vertices : Int)) (hmem : dst ∈ g.adj src) :
    (remove_edge g src dst).1 = true ∧
    (∃ front back, g.adj src = front ++ dst :: back ∧ dst ∉ front ∧
      (remove_edge g src dst).2.adj src = front ++ back) ∧
    (∀ w, w ≠ src → (remove_edge g src dst).2.adj w = g.adj w) ∧
    (remove_edge g src dst).2.vertex_data = g.vertex_data ∧
    (remove_edge g src dst).2.num_vertices = g.num_vertices := by
  have hlen := (adj_index_of_mem g src dst hmem).2
  have hcast : ((src.toNat : Nat) : Int) = src := Int.toNat_of_nonneg hs0
  rw [remove_edge_eq g src dst hs0 hs1 hd0 hd1]
  refine ⟨by simpa using hmem, ?_, ?_, rfl, rfl⟩
  · obtain ⟨front, back, hnot, hsplit, herase⟩ := List.exists_erase_eq hmem
    refine ⟨front, back, hsplit, hnot, ?_⟩
    simp only
    rw [adj_set g src.toNat _ src hlen, hcast, if_pos rfl, herase]
  · intro w hw
    simp only
    rw [adj_set g src.toNat _ w hlen, hcast, if_neg hw]

theorem remove_present_edge_witness :
    (remove_edge double_edge_graph 0 1).1 = true ∧
    (∃ front back, double_edge_graph.adj 0 = front ++ 1 :: back ∧ (1 : Int) ∉ front ∧
      (remove_edge double_edge_graph 0 1).2.adj 0 = front ++ back) ∧
    (∀ w, w ≠ 0 → (remove_edge double_edge_graph 0 1).2.adj w = double_edge_graph.adj w) ∧
    (remove_edge double_edge_graph 0 1).2.vertex_data = double_edge_graph.vertex_data ∧
    (remove_edge double_edge_graph 0 1).2.num_vertices = double_edge_graph.num_vertices :=
  remove_present_edge double_edge_graph 0 1 (by decide) (by decide) (by decide) (by decide)
    (by decide)

/-- C12: for in-range `src` and `dst`, after `add_edge(src, dst)` the adjacency
list of `src` is `dst` followed by the old list, whatever the old list holds,
and the lists of the other vertices, the payloads and the size of the graph
are unchanged. -/
theorem add_edge_prepends {α : Type} (g : DirectedGraph α) (hshape : g.Shaped)
    (src dst : Int) (hs0 : 0 ≤ src) (hs1 : src < (g.num_vertices : Int)) (hd0 : 0 ≤ dst)
    (hd1 : dst < (g.num_vertices : Int)) :
    (add_edge g src dst).adj src = dst :: g.adj src ∧
    (∀ w, w ≠ src → (add_edge g src dst).adj w = g.adj w) ∧
    (add_edge g src dst).vertex_data = g.vertex_data ∧
    (add_edge g src dst).num_vertices = g.num_vertices := by
  refine ⟨?_, ?_, (add_edge_fields g src dst).2.1, (add_edge_fields g src dst).1⟩
  · rw [add_edge_adj g hshape src dst src hs0 hs1 hd0 hd1, if_pos rfl]
  · intro w hw
    rw [add_edge_adj g hshape src dst w hs0 hs1 hd0 hd1, if_neg hw]

theorem add_edge_prepends_witness :
    (add_edge double_edge_graph 0 1).adj 0 = 1 :: double_edge_graph.adj 0 ∧
    (∀ w, w ≠ 0 → (add_edge double_edge_graph 0 1).adj w = double_edge_graph.adj w) ∧
    (add_edge double_edge_graph 0 1).vertex_data = double_edge_graph.vertex_data ∧
    (add_edge double_edge_graph 0 1).num_vertices = double_edge_graph.num_vertices :=
  add_edge_prepends double_edge_graph (by decide) 0 1 (by decide) (by decide) (by decide)
    (by decide)

/-- C13: with an index `i` that is negative or not below `num_vertices`,
`add_edge` and `remove_edge` with `i` as source or as destination,
`set_vertex_data` and `remove_vertex` on `i`, and `set_vertex_data` with a null
payload on any vertex, return the graph as it was, and the three functions with
a status return false. -/
theorem out_of_range_rejected {α : Type} (g : DirectedGraph α) (i : Int)
    (hi : i < 0 ∨ i ≥ (g.num_vertices : Int)) :
    (∀ j, add_edge g i j = g ∧ add_edge g j i = g ∧
      remove_edge g i j = (false, g) ∧ remove_edge g j i = (false, g)) ∧
    (∀ data, set_vertex_data g i data = (false, g)) ∧
    (∀ v, set_vertex_data g v none = (false, g)) ∧
    remove_vertex g i = (false, g) := by
  refine ⟨?_, ?_, ?_, ?_⟩
  · intro j
    have h1 : i < 0 ∨ i ≥ (g.num_vertices : Int) ∨ j < 0 ∨ j ≥ (g.num_vertices : Int) := by
      omega
    have h2 : j < 0 ∨ j ≥ (g.num_vertices : Int) ∨ i < 0 ∨ i ≥ (g.num_vertices : Int) := by
      omega
    refine ⟨?_, ?_, ?_, ?_⟩
    · simp only [add_edge, if_pos h1]
    · simp only [add_edge, if_pos h2]
    · simp only [remove_edge, if_pos h1]
    · simp only [remove_edge, if_pos h2]
  · intro data
    cases data with
    | none => rfl
    | some d => simp only [set_vertex_data, if_pos hi]
  · intro v
    rfl
  · simp only [remove_vertex, if_pos hi]

theorem out_of_range_rejected_witness :
    (∀ j, add_edge double_edge_graph (-1) j = double_edge_graph ∧
      add_edge double_edge_graph j (-1) = double_edge_graph ∧
      remove_edge double_edge_graph (-1) j = (false, double_edge_graph) ∧
      remove_edge double_edge_graph j (-1) = (false, double_edge_graph)) ∧
    (∀ data, set_vertex_data double_edge_graph (-1) data = (false, double_edge_graph)) ∧
    (∀ v, set_vertex_data double_edge_graph v none = (false, double_edge_graph)) ∧
    remove_vertex double_edge_graph (-1) = (false, double_edge_graph) :=
  out_of_range_rejected double_edge_graph (-1) (by decide)

/-! ## Removal of a vertex -/

theorem adj_out_of_range {α : Type} (g : DirectedGraph α) (hshape : g.Shaped) (w : Int)
    (hw : w < 0 ∨ w ≥ (g.num_vertices : Int)) : g.adj w = [] := by
  unfold DirectedGraph.adj
  by_cases h : w < 0
  · simp [h]
  · have hlen : g.adj_lists.length ≤ w.toNat := by rw [hshape.1]; omega
    simp [h, List.getD_eq_getElem?_getD, List.getElem?_eq_none hlen]

theorem remove_edge_shaped {α : Type} (g : DirectedGraph α) (hshape : g.Shaped) (u d : Int) :
    (remove_edge g u d).2.Shaped := by
  have hf := remove_edge_fields g u d
  exact ⟨by rw [hf.2.2.2, hf.1]; exact hshape.1, by rw [hf.2.1, hf.1]; exact hshape.2⟩

theorem remove_incoming_spec {α : Type} (v : Int) (k : Nat) :
    ∀ (i : Nat) (h : DirectedGraph α), h.Shaped → 0 ≤ v → v < (h.num_vertices : Int) →
      i + k ≤ h.num_vertices →
      (remove_incoming v k i h).Shaped ∧
      (remove_incoming v k i h).num_vertices = h.num_vertices ∧
      (remove_incoming v k i h).vertex_data = h.vertex_data ∧
      ∀ w : Int, (remove_incoming v k i h).adj w =
        if (i : Int) ≤ w ∧ w < (i : Int) + (k : Int) ∧ w ≠ v then (h.adj w).erase v
        else h.adj w := by
  induction k with
  | zero =>
    intro i h hshape _ _ _
    refine ⟨hshape, rfl, rfl, fun w => ?_⟩
    rw [if_neg (by omega)]
    rfl
  | succ k ih =>
    intro i h hshape hv0 hv1 hik
    unfold remove_incoming
    by_cases hiv : (i : Int) ≠ v
    · rw [if_pos hiv]
      have hf := remove_edge_fields h (i : Int) v
      obtain ⟨h1, h2, h3, h4⟩ := ih (i + 1) (remove_edge h (i : Int) v).2
        (remove_edge_shaped h hshape _ _) hv0 (by rw [hf.1]; exact hv1) (by rw [hf.1]; omega)
      refine ⟨h1, by rw [h2, hf.1], by rw [h3, hf.2.1], fun w => ?_⟩
      rw [h4 w, remove_edge_adj h hshape (i : Int) v w (by omega) (by omega) hv0 hv1]
      by_cases hwi : w = (i : Int)
      · subst hwi
        rw [if_neg (by omega), if_pos rfl, if_pos ⟨le_refl _, by omega, hiv⟩]
      · rw [if_neg hwi]
        by_cases hc : ((i + 1 : Nat) : Int) ≤ w ∧ w < ((i + 1 : Nat) : Int) + (k : Int) ∧ w ≠ v
        · rw [if_pos hc, if_pos ⟨by omega, by omega, hc.2.2⟩]
        · rw [if_neg hc, if_neg (by omega)]
    · rw [if_neg hiv]
      have hiv2 : (i : Int) = v := by
        by_contra hne
        exact hiv hne
      obtain ⟨h1, h2, h3, h4⟩ := ih (i + 1) h hshape hv0 hv1 (by omega)
      refine ⟨h1, h2, h3, fun w => ?_⟩
      rw [h4 w]
      by_cases hc : ((i + 1 : Nat) : Int) ≤ w ∧ w < ((i + 1 : Nat) : Int) + (k : Int) ∧ w ≠ v
      · rw [if_pos hc, if_pos ⟨by omega, by omega, hc.2.2⟩]
      · rw [if_neg hc, if_neg (by omega)]

/-- What `remove_vertex` does on an in-range vertex: the payload of the vertex
is null, its list is empty, and every other list has lost its first occurrence
of the vertex, no more. -/
theorem remove_vertex_spec {α : Type} (g : DirectedGraph α) (hshape : g.Shaped) (v : Int)
    (hv0 : 0 ≤ v) (hv1 : v < (g.num_vertices : Int)) :
    (remove_vertex g v).1 = true ∧
    (remove_vertex g v).2.num_vertices = g.num_vertices ∧
    (remove_vertex g v).2.vertex_data = g.vertex_data.set v.toNat none ∧
    ∀ w : Int, (remove_vertex g v).2.adj w =
      if w = v then [] else (g.adj w).erase v := by
  have hguard : ¬ (v < 0 ∨ v ≥ (g.num_vertices : Int)) := by omega
  have hcast : ((v.toNat : Nat) : Int) = v := Int.toNat_of_nonneg hv0
  have hlen : v.toNat < g.adj_lists.length := by rw [hshape.1]; omega
  have hcs : (clear_vertex g v).Shaped :=
    ⟨by simp [clear_vertex, hshape.1], by simp [clear_vertex, hshape.2]⟩
  have hcadj : ∀ w : Int, (clear_vertex g v).adj w = if w = v then [] else g.adj w := by
    intro w
    have := adj_set g v.toNat [] w hlen
    rw [hcast] at this
    rw [← this]
    rfl
  obtain ⟨_, h2, h3, h4⟩ := remove_incoming_spec v g.num_vertices 0 (clear_vertex g v)
    hcs hv0 hv1 (by simp [clear_vertex])
  simp only [remove_vertex, if_neg hguard]
  refine ⟨trivial, h2, h3, fun w => ?_⟩
  rw [h4 w, hcadj w]
  by_cases hwv : w = v
  · subst hwv
    simp
  · simp only [if_neg hwv]
    by_cases hr : 0 ≤ w ∧ w < (g.num_vertices : Int)
    · rw [if_pos ⟨by simpa using hr.1, by simpa using hr.2, hwv⟩]
    · rw [if_neg (by
        intro hc
        apply hr
        have h1 := hc.1
        have h2 := hc.2.1
        simp only [Nat.cast_zero, zero_add] at h1 h2
        exact ⟨h1, h2⟩)]
      rw [adj_out_of_range g hshape w (by omega)]
      rfl

/-- C14 fails on a duplicate edge: with the edge 0 → 1 stored twice,
`remove_vertex(1)` succeeds and the list of vertex 0 still contains 1. -/
theorem remove_vertex_keeps_duplicate :
    (remove_vertex double_edge_graph 1).1 = true ∧
    double_edge_graph.adj 0 = [1, 1] ∧
    (remove_vertex double_edge_graph 1).2.adj 0 = [1] := by
  decide

/-! ## `get_or_create_vertex` case by case -/

/-- What `get_or_create_vertex` does for a registered payload while the
registry has room: the index is returned and nothing changes. -/
theorem get_or_create_found (st : Detector) (d : VertexData)
    (hroom : st.g_next_vertex < MAX_VERTICES) (hfound : find_vertex st d ≠ -1) :
    get_or_create_vertex st d = (find_vertex st d, st) := by
  cases hg : st.g_graph with
  | none => simp [find_vertex, hg] at hfound
  | some g =>
    have hfull : ¬ st.g_next_vertex ≥ MAX_VERTICES := by omega
    simp only [get_or_create_vertex, hg, if_neg hfull, if_pos hfound]

/-- C15 fails on the full registry: thread 1 is registered at index 0, yet
`get_or_create_vertex` returns -1 for it. -/
theorem get_or_create_full_registered :
    full_registry.g_next_vertex = MAX_VERTICES ∧
    find_vertex full_registry (thread_data 1) = 0 ∧
    (get_or_create_vertex full_registry (thread_data 1)).1 = -1 := by
  decide

theorem set_vertex_data_copy (g : DirectedGraph VertexData) (nv : Nat) (d : VertexData)
    (hcap : g.num_vertices = MAX_VERTICES) (hroom : nv < MAX_VERTICES) :
    set_vertex_data g (nv : Int) (some d) =
      ((g.copy_data_function d).isSome,
        { g with vertex_data := g.vertex_data.set nv (g.copy_data_function d) }) := by
  have hguard : ¬ ((nv : Int) < 0 ∨ (nv : Int) ≥ (g.num_vertices : Int)) := by
    rw [hcap]
    omega
  simp only [set_vertex_data, if_neg hguard, Int.toNat_ofNat]

theorem getD_set {β : Type} (l : List β) (n i : Nat) (x dflt : β) (hn : n < l.length) :
    (l.set n x).getD i dflt = if i = n then x else l.getD i dflt := by
  by_cases hi : i = n
  · subst hi
    simp [List.getD_eq_getElem?_getD, hn]
  · have hne : n ≠ i := fun e => hi e.symm
    simp [hi, List.getD_eq_getElem?_getD, List.getElem?_set_ne hne]

/-- C16: in a registry with room whose graph has the capacity of the bootstrap,
for a payload that is not registered and whose copy succeeds,
`get_or_create_vertex` returns the old `g_next_vertex`, which grows by one; the
payload is stored at that index and `find_vertex` now returns it; every other
payload and every adjacency list is unchanged. -/
theorem get_or_create_new (st : Detector) (g : DirectedGraph VertexData) (d : VertexData)
    (hg : st.g_graph = some g) (hshape : g.Shaped) (hcap : g.num_vertices = MAX_VERTICES)
    (hroom : st.g_next_vertex < MAX_VERTICES) (hnew : find_vertex st d = -1)
    (hcopy : g.copy_data_function d = some d) :
    (get_or_create_vertex st d).1 = (st.g_next_vertex : Int) ∧
    (get_or_create_vertex st d).2.g_next_vertex = st.g_next_vertex + 1 ∧
    find_vertex (get_or_create_vertex st d).2 d = (st.g_next_vertex : Int) ∧
    ∃ g1, (get_or_create_vertex st d).2.g_graph = some g1 ∧
      g1.vertex_data.getD st.g_next_vertex none = some d ∧
      (∀ i, i ≠ st.g_next_vertex → g1.vertex_data.getD i none = g.vertex_data.getD i none) ∧
      g1.adj_lists = g.adj_lists := by
  have hfull : ¬ st.g_next_vertex ≥ MAX_VERTICES := by omega
  have hnf : ¬ find_vertex st d ≠ -1 := by simp [hnew]
  have hlen : st.g_next_vertex < g.vertex_data.length := by rw [hshape.2, hcap]; exact hroom
  have heq : get_or_create_vertex st d = ((st.g_next_vertex : Int),
      { st with g_graph := some (install g st.g_next_vertex d),
                g_next_vertex := st.g_next_vertex + 1 }) := by
    simp only [get_or_create_vertex, hg, if_neg hfull, if_neg hnf,
      set_vertex_data_copy g _ d hcap hroom, hcopy, Option.isSome_some, if_true, install]
  have hnone : ∀ j, j < st.g_next_vertex → g.vertex_data.getD j none ≠ some d := by
    rw [find_vertex_eq st g hg] at hnew
    exact (find_scan_eq_neg_one_iff _ _ _).mp hnew
  rw [heq]
  refine ⟨rfl, rfl, ?_, _, rfl, ?_, ?_, rfl⟩
  · rw [find_vertex_eq _ _ rfl]
    simp only
    rw [find_scan_eq_iff]
    refine ⟨by omega, ?_, ?_⟩
    · rw [install_getD g _ d hlen, if_pos rfl]
    · intro m hm
      rw [install_getD g _ d hlen, if_neg (by omega)]
      exact hnone m hm
  · rw [install_getD g _ d hlen, if_pos rfl]
  · intro i hi
    rw [install_getD g _ d hlen, if_neg hi]

theorem get_or_create_new_witness :
    (get_or_create_vertex Detector.fresh (thread_data 7)).1 =
      (Detector.fresh.g_next_vertex : Int) ∧
    (get_or_create_vertex Detector.fresh (thread_data 7)).2.g_next_vertex =
      Detector.fresh.g_next_vertex + 1 ∧
    find_vertex (get_or_create_vertex Detector.fresh (thread_data 7)).2 (thread_data 7) =
      (Detector.fresh.g_next_vertex : Int) ∧
    ∃ g1, (get_or_create_vertex Detector.fresh (thread_data 7)).2.g_graph = some g1 ∧
      g1.vertex_data.getD Detector.fresh.g_next_vertex none = some (thread_data 7) ∧
      (∀ i, i ≠ Detector.fresh.g_next_vertex → g1.vertex_data.getD i none =
        (create_graph MAX_VERTICES copy_vertex_data).vertex_data.getD i none) ∧
      g1.adj_lists = (create_graph MAX_VERTICES copy_vertex_data).adj_lists :=
  get_or_create_new Detector.fresh (create_graph MAX_VERTICES copy_vertex_data)
    (thread_data 7) rfl (by decide) rfl (by decide) (by decide) rfl

/-- C17: in a registry with `g_next_vertex = MAX_VERTICES`, for a payload that is
not registered `get_or_create_vertex` returns -1 and leaves the detector as it
is, and `before_lock(T, M)` with an unregistered thread or mutex leaves the
detector as it is: no edge is added. -/
theorem registry_full_drops (st : Detector) (hfull : st.g_next_vertex = MAX_VERTICES) :
    (∀ d, find_vertex st d = -1 → get_or_create_vertex st d = (-1, st)) ∧
    (∀ T M, find_vertex st (thread_data T) = -1 ∨ find_vertex st (mutex_data M) = -1 →
      before_lock st T M = st) := by
  have hge : st.g_next_vertex ≥ MAX_VERTICES := by omega
  refine ⟨?_, fun T M _ => before_lock_full st T M hge⟩
  intro d _
  cases hg : st.g_graph with
  | none => simp [get_or_create_vertex, hg]
  | some g => simp [get_or_create_vertex, hg, hge]

theorem registry_full_drops_witness :
    (∀ d, find_vertex full_registry d = -1 → get_or_create_vertex full_registry d =
      (-1, full_registry)) ∧
    (∀ T M, find_vertex full_registry (thread_data T) = -1 ∨
        find_vertex full_registry (mutex_data M) = -1 →
      before_lock full_registry T M = full_registry) :=
  registry_full_drops full_registry rfl

/-- C18: in a registry with room whose graph has the capacity of the bootstrap,
for a payload that is not registered and whose copy fails,
`get_or_create_vertex` returns -1, `g_next_vertex` keeps its value, the reserved
slot is null, every other payload and every adjacency list is unchanged,
`find_vertex` still returns -1, and the detector is exactly as before when the
slot was null before. -/
theorem get_or_create_copy_fails (st : Detector) (g : DirectedGraph VertexData)
    (d : VertexData) (hg : st.g_graph = some g) (hshape : g.Shaped)
    (hcap : g.num_vertices = MAX_VERTICES) (hroom : st.g_next_vertex < MAX_VERTICES)
    (hnew : find_vertex st d = -1) (hcopy : g.copy_data_function d = none) :
    (get_or_create_vertex st d).1 = -1 ∧
    (get_or_create_vertex st d).2.g_next_vertex = st.g_next_vertex ∧
    find_vertex (get_or_create_vertex st d).2 d = -1 ∧
    (∃ g1, (get_or_create_vertex st d).2.g_graph = some g1 ∧
      g1.vertex_data.getD st.g_next_vertex none = none ∧
      (∀ i, i ≠ st.g_next_vertex → g1.vertex_data.getD i none = g.vertex_data.getD i none) ∧
      g1.adj_lists = g.adj_lists) ∧
    (g.vertex_data.getD st.g_next_vertex none = none → (get_or_create_vertex st d).2 = st) := by
  have hfull : ¬ st.g_next_vertex ≥ MAX_VERTICES := by omega
  have hnf : ¬ find_vertex st d ≠ -1 := by simp [hnew]
  have hlen : st.g_next_vertex < g.vertex_data.length := by rw [hshape.2, hcap]; exact hroom
  have heq : get_or_create_vertex st d = (-1,
      { st with g_graph := some (void_slot g st.g_next_vertex) }) := by
    simp only [get_or_create_vertex, hg, if_neg hfull, if_neg hnf,
      set_vertex_data_copy g _ d hcap hroom, hcopy, Option.isSome_none, Bool.false_eq_true,
      if_false, void_slot]
  have hnone : ∀ j, j < st.g_next_vertex → g.vertex_data.getD j none ≠ some d := by
    rw [find_vertex_eq st g hg] at hnew
    exact (find_scan_eq_neg_one_iff _ _ _).mp hnew
  rw [heq]
  refine ⟨rfl, rfl, ?_, ⟨_, rfl, ?_, ?_, rfl⟩, ?_⟩
  · rw [find_vertex_eq _ _ rfl]
    simp only [void_slot]
    rw [find_scan_eq_neg_one_iff]
    intro j hj
    rw [getD_set _ _ _ _ _ hlen, if_neg (by omega)]
    exact hnone j hj
  · simp only [void_slot]
    rw [getD_set _ _ _ _ _ hlen, if_pos rfl]
  · intro i hi
    simp only [void_slot]
    rw [getD_set _ _ _ _ _ hlen, if_neg hi]
  · intro hslot
    have hget : g.vertex_data[st.g_next_vertex]? = some none := by
      rw [List.getD_eq_getElem?_getD, List.getElem?_eq_getElem hlen] at hslot
      rw [List.getElem?_eq_getElem hlen]
      simpa using hslot
    simp only [void_slot]
    rw [list_set_self _ _ _ hget]
    cases st with
    | mk a b c gg n i =>
      simp only at hg
      subst hg
      rfl

theorem get_or_create_copy_fails_witness :
    (get_or_create_vertex failing_copy_detector (thread_data 7)).1 = -1 ∧
    (get_or_create_vertex failing_copy_detector (thread_data 7)).2.g_next_vertex =
      failing_copy_detector.g_next_vertex ∧
    find_vertex (get_or_create_vertex failing_copy_detector (thread_data 7)).2
      (thread_data 7) = -1 ∧
    (∃ g1, (get_or_create_vertex failing_copy_detector (thread_data 7)).2.g_graph = some g1 ∧
      g1.vertex_data.getD failing_copy_detector.g_next_vertex none = none ∧
      (∀ i, i ≠ failing_copy_detector.g_next_vertex → g1.vertex_data.getD i none =
        failing_copy_graph.vertex_data.getD i none) ∧
      g1.adj_lists = failing_copy_graph.adj_lists) ∧
    (failing_copy_graph.vertex_data.getD
        failing_copy_detector.g_next_vertex none = none →
      (get_or_create_vertex failing_copy_detector (thread_data 7)).2 = failing_copy_detector) :=
  get_or_create_copy_fails failing_copy_detector failing_copy_graph (thread_data 7) rfl (by decide) rfl (by decide) (by decide) rfl

/-! ## Stability of the vertex indices -/

theorem get_or_create_find_stable (st : Detector) (d x : VertexData) (hready : Ready st)
    (hx : find_vertex st x ≠ -1) :
    find_vertex (get_or_create_vertex st d).2 x = find_vertex st x := by
  obtain ⟨hinit, g, hg, hok⟩ := hready
  obtain ⟨_, _, hoth, hsame, _⟩ := get_or_create_facts st g d ⟨hinit, g, hg, hok⟩ hg
  by_cases hxd : x = d
  · subst hxd
    exact hsame hx
  · exact hoth x hxd

theorem get_or_create_index (st : Detector) (d : VertexData) (hready : Ready st) :
    st.g_next_vertex ≤ (get_or_create_vertex st d).2.g_next_vertex ∧
    ((get_or_create_vertex st d).1 = -1 ∨
      (0 ≤ (get_or_create_vertex st d).1 ∧
        (get_or_create_vertex st d).1 < ((get_or_create_vertex st d).2.g_next_vertex : Int))) := by
  obtain ⟨hinit, g, hg, hok⟩ := hready
  rw [get_or_create_vertex_eq st g hg hok d]
  split
  · exact ⟨le_refl _, Or.inl rfl⟩
  · split
    · rename_i hfound
      exact ⟨le_refl _, Or.inr ((find_vertex_range st d).resolve_left hfound)⟩
    · refine ⟨Nat.le_succ _, Or.inr ⟨by simp, by simp⟩⟩

theorem ready_add_edge (st : Detector) (g : DirectedGraph VertexData) (u d : Int)
    (hready : Ready st) (hg : st.g_graph = some g) (hu0 : 0 ≤ u)
    (hu1 : u < (st.g_next_vertex : Int)) (hd0 : 0 ≤ d) (hd1 : d < (st.g_next_vertex : Int)) :
    Ready { st with g_graph := some (add_edge g u d) } := by
  obtain ⟨hinit, g0, hg0, hok⟩ := hready
  rw [hg] at hg0
  have hgg : g = g0 := by simpa using hg0
  subst hgg
  exact ⟨hinit, _, rfl, registry_add_edge g _ hok u d hu0 hu1 hd0 hd1⟩

theorem ready_remove_edge (st : Detector) (g : DirectedGraph VertexData) (u d : Int)
    (hready : Ready st) (hg : st.g_graph = some g) :
    Ready { st with g_graph := some (remove_edge g u d).2 } := by
  obtain ⟨hinit, g0, hg0, hok⟩ := hready
  rw [hg] at hg0
  have hgg : g = g0 := by simpa using hg0
  subst hgg
  exact ⟨hinit, _, rfl, registry_remove_edge g _ hok u d⟩

/-- The shape of the result of `before_lock` on a ready detector: the state
after the registrations, with at most one edge added between registered
vertices. -/
theorem before_lock_shape (st : Detector) (T M : Nat) (hready : Ready st) :
    ∃ st2, Ready st2 ∧ (∀ x, find_vertex st x ≠ -1 → find_vertex st2 x = find_vertex st x) ∧
      (before_lock st T M = st2 ∨
        ∃ g2 u d, st2.g_graph = some g2 ∧ 0 ≤ u ∧ u < (st2.g_next_vertex : Int) ∧ 0 ≤ d ∧
          d < (st2.g_next_vertex : Int) ∧
          before_lock st T M = { st2 with g_graph := some (add_edge g2 u d) }) := by
  have hself : ∃ st2, Ready st2 ∧
      (∀ x, find_vertex st x ≠ -1 → find_vertex st2 x = find_vertex st x) ∧ st = st2 :=
    ⟨st, hready, fun _ _ => rfl, rfl⟩
  unfold before_lock
  split
  · obtain ⟨st2, h1, h2, h3⟩ := hself
    exact ⟨st2, h1, h2, Or.inl h3⟩
  split
  · obtain ⟨st2, h1, h2, h3⟩ := hself
    exact ⟨st2, h1, h2, Or.inl h3⟩
  split
  · obtain ⟨st2, h1, h2, h3⟩ := hself
    exact ⟨st2, h1, h2, Or.inl h3⟩
  split
  · obtain ⟨st2, h1, h2, h3⟩ := hself
    exact ⟨st2, h1, h2, Or.inl h3⟩
  have hr1 := ready_get_or_create st (thread_data T) hready
  have hs1 : ∀ x, find_vertex st x ≠ -1 →
      find_vertex (get_or_create_vertex st (thread_data T)).2 x = find_vertex st x :=
    fun x hx => get_or_create_find_stable st _ x hready hx
  obtain ⟨hm1, hi1⟩ := get_or_create_index st (thread_data T) hready
  simp only
  split
  · exact ⟨_, hr1, hs1, Or.inl rfl⟩
  have hr2 := ready_get_or_create _ (mutex_data M) hr1
  have hs2 : ∀ x, find_vertex st x ≠ -1 →
      find_vertex (get_or_create_vertex (get_or_create_vertex st (thread_data T)).2
        (mutex_data M)).2 x = find_vertex st x := by
    intro x hx
    rw [get_or_create_find_stable _ _ x hr1 (by rw [hs1 x hx]; exact hx), hs1 x hx]
  obtain ⟨hm2, hi2⟩ := get_or_create_index _ (mutex_data M) hr1
  split
  · exact ⟨_, hr2, hs2, Or.inl rfl⟩
  rename_i hne1 hne2
  split
  · exact ⟨_, hr2, hs2, Or.inl rfl⟩
  · rename_i g2 hg2
    split
    · refine ⟨_, hr2, hs2, Or.inr ⟨g2, _, _, hg2, ?_, ?_, ?_, ?_, rfl⟩⟩
      · exact (hi1.resolve_left hne1).1
      · have := (hi1.resolve_left hne1).2
        omega
      · exact (hi2.resolve_left hne2).1
      · exact (hi2.resolve_left hne2).2
    · exact ⟨_, hr2, hs2, Or.inl rfl⟩

theorem ready_step (st : Detector) (e : Event) (hready : Ready st) : Ready (st.step e) := by
  cases e with
  | thread_create T =>
    obtain ⟨hinit, g, hg, hok⟩ := hready
    simp only [Detector.step, pthread_create, hg, Option.isSome_some, and_self, if_true]
    exact ready_get_or_create st _ ⟨hinit, g, hg, hok⟩
  | before_lock T M =>
    obtain ⟨st2, h1, _, h3⟩ := before_lock_shape st T M hready
    simp only [Detector.step]
    rcases h3 with h | ⟨g2, u, d, hg2, hu0, hu1, hd0, hd1, h⟩
    · rw [h]
      exact h1
    · rw [h]
      exact ready_add_edge st2 g2 u d h1 hg2 hu0 hu1 hd0 hd1
  | after_lock T M =>
    simp only [Detector.step]
    obtain ⟨hinit, g, hg, hok⟩ := hready
    have hready : Ready st := ⟨hinit, g, hg, hok⟩
    unfold after_lock
    rw [hg]
    simp only
    split
    · rename_i hboth
      have hT := (find_vertex_range st (thread_data T)).resolve_left hboth.1
      have hMf := (find_vertex_range st (mutex_data M)).resolve_left hboth.2
      have h1 := ready_remove_edge st g (find_vertex st (thread_data T))
        (find_vertex st (mutex_data M)) hready hg
      exact ready_add_edge { st with g_graph := some (remove_edge g
        (find_vertex st (thread_data T)) (find_vertex st (mutex_data M))).2 } _ _ _ h1 rfl
        hMf.1 hMf.2 hT.1 hT.2
    · exact hready
  | before_unlock T M => exact hready
  | after_unlock T M =>
    simp only [Detector.step]
    obtain ⟨hinit, g, hg, hok⟩ := hready
    have hready : Ready st := ⟨hinit, g, hg, hok⟩
    unfold after_unlock
    rw [hg]
    simp only
    split
    · exact ready_remove_edge st g _ _ hready hg
    · exact hready

theorem step_find_stable (st : Detector) (e : Event) (x : VertexData) (hready : Ready st)
    (hx : find_vertex st x ≠ -1) : find_vertex (st.step e) x = find_vertex st x := by
  cases e with
  | thread_create T =>
    obtain ⟨hinit, g, hg, hok⟩ := hready
    simp only [Detector.step, pthread_create, hg, Option.isSome_some, and_self, if_true]
    exact get_or_create_find_stable st _ x ⟨hinit, g, hg, hok⟩ hx
  | before_lock T M =>
    obtain ⟨st2, _, h2, h3⟩ := before_lock_shape st T M hready
    simp only [Detector.step]
    rcases h3 with h | ⟨g2, u, d, hg2, _, _, _, _, h⟩
    · rw [h]
      exact h2 x hx
    · rw [h, ← h2 x hx]
      exact find_vertex_congr st2 { st2 with g_graph := some (add_edge g2 u d) } g2 _ hg2
        (by rfl) (add_edge_fields _ _ _).2.1 (by rfl) x
  | after_lock T M => exact (after_lock_registry st T M).2 x
  | before_unlock T M => rfl
  | after_unlock T M => exact (after_unlock_registry st T M).2 x

/-- C19: on a ready detector, once `find_vertex` returns the index `i` for the
key `k`, after every further sequence of detector events `find_vertex` still
returns `i` for `k`, the payload stored at `i` is `k`, and `i` is returned for
no other key. -/
theorem vertex_index_stable (st : Detector) (k : VertexData) (i : Int) (hready : Ready st)
    (hfind : find_vertex st k = i) (hi : i ≠ -1) (es : List Event) :
    find_vertex (st.run es) k = i ∧
    (∃ g, (st.run es).g_graph = some g ∧ g.vertex_data.getD i.toNat none = some k) ∧
    ∀ other, find_vertex (st.run es) other = i → other = k := by
  induction es generalizing st with
  | nil =>
    obtain ⟨_, g, hg, _⟩ := hready
    have hne : find_vertex st k ≠ -1 := by rw [hfind]; exact hi
    obtain ⟨j, hj, _, hpay⟩ := find_vertex_payload st g hg k hne
    have hij : i.toNat = j := by rw [← hfind, hj]; simp
    refine ⟨hfind, ⟨g, hg, by rw [hij]; exact hpay⟩, ?_⟩
    intro other hother
    have hne2 : find_vertex st other ≠ -1 := by
      simp only [Detector.run] at hother
      rw [hother]
      exact hi
    obtain ⟨j2, hj2, _, hpay2⟩ := find_vertex_payload st g hg other hne2
    simp only [Detector.run] at hother
    have hjj : j2 = j := by
      rw [hother, ← hfind, hj] at hj2
      omega
    rw [hjj, hpay] at hpay2
    simpa using hpay2.symm
  | cons e es ih =>
    have hne : find_vertex st k ≠ -1 := by rw [hfind]; exact hi
    exact ih (st.step e) (ready_step st e hready)
      (by rw [step_find_stable st e k hready hne]; exact hfind)

theorem vertex_index_stable_witness :
    find_vertex ((before_lock Detector.fresh 1 4096).run two_threads_one_mutex)
      (mutex_data 4096) = 1 ∧
    (∃ g, ((before_lock Detector.fresh 1 4096).run two_threads_one_mutex).g_graph = some g ∧
      g.vertex_data.getD (1 : Int).toNat none = some (mutex_data 4096)) ∧
    ∀ other, find_vertex ((before_lock Detector.fresh 1 4096).run two_threads_one_mutex)
      other = 1 → other = mutex_data 4096 :=
  vertex_index_stable (before_lock Detector.fresh 1 4096) (mutex_data 4096) 1
    (ready_step Detector.fresh (Event.before_lock 1 4096) ready_fresh) (by decide) (by decide)
    two_threads_one_mutex

/-! ## Specification of `find_vertex` -/

theorem same_kind_and_id (vd d : VertexData) : (vd.type = d.type ∧ vd.id = d.id) ↔ vd = d := by
  cases vd
  cases d
  simp

/-- C20: on a detector with a graph, `find_vertex` returns -1 exactly when no
index below `g_next_vertex` holds a payload of the same kind with an equal
identifier; when some index does, it returns the smallest such index; whatever
it returns other than -1 lies in `[0, g_next_vertex)`; and a slot that holds a
thread is never returned for the mutex with the same number, nor a slot that
holds a mutex for the thread with the same number. -/
theorem find_vertex_spec (st : Detector) (g : DirectedGraph VertexData) (d : VertexData)
    (hg : st.g_graph = some g) :
    (find_vertex st d = -1 ↔
      ∀ j, j < st.g_next_vertex → ∀ vd, g.vertex_data.getD j none = some vd →
        ¬ (vd.type = d.type ∧ vd.id = d.id)) ∧
    (∀ j, j < st.g_next_vertex →
      (∃ vd, g.vertex_data.getD j none = some vd ∧ vd.type = d.type ∧ vd.id = d.id) →
      ∃ i : Nat, find_vertex st d = (i : Int) ∧ i ≤ j ∧
        (∃ vd, g.vertex_data.getD i none = some vd ∧ vd.type = d.type ∧ vd.id = d.id) ∧
        ∀ m, m < i → ∀ vd, g.vertex_data.getD m none = some vd →
          ¬ (vd.type = d.type ∧ vd.id = d.id)) ∧
    (find_vertex st d = -1 ∨
      (0 ≤ find_vertex st d ∧ find_vertex st d < (st.g_next_vertex : Int))) ∧
    (∀ (n j : Nat), g.vertex_data.getD j none = some (thread_data n) →
      find_vertex st (mutex_data n) ≠ (j : Int)) ∧
    (∀ (n j : Nat), g.vertex_data.getD j none = some (mutex_data n) →
      find_vertex st (thread_data n) ≠ (j : Int)) := by
  have hkey : ∀ x : VertexData, ∀ j : Nat, g.vertex_data.getD j none ≠ some x ↔
      ∀ vd, g.vertex_data.getD j none = some vd → ¬ (vd.type = x.type ∧ vd.id = x.id) := by
    intro x j
    constructor
    · intro h vd hvd hsame
      rw [(same_kind_and_id vd x).mp hsame] at hvd
      exact h hvd
    · intro h hx
      exact h x hx ⟨rfl, rfl⟩
  refine ⟨?_, ?_, find_vertex_range st d, ?_, ?_⟩
  · rw [find_vertex_eq st g hg, find_scan_eq_neg_one_iff]
    constructor
    · intro h j hj
      exact (hkey d j).mp (h j hj)
    · intro h j hj
      exact (hkey d j).mpr (h j hj)
  · rintro j hj ⟨vd, hvd, hsame⟩
    rw [(same_kind_and_id vd d).mp hsame] at hvd
    rw [find_vertex_eq st g hg]
    rcases find_scan_cases g.vertex_data d st.g_next_vertex with hneg | ⟨i, hi, hfirst⟩
    · exact absurd hvd ((find_scan_eq_neg_one_iff _ _ _).mp hneg j hj)
    · refine ⟨i, hi, ?_, ⟨d, hfirst.2.1, rfl, rfl⟩, fun m hm => (hkey d m).mp (hfirst.2.2 m hm)⟩
      by_contra hlt
      exact hfirst.2.2 j (by omega) hvd
  · intro n j hslot hfind
    rw [find_vertex_eq st g hg, find_scan_eq_iff] at hfind
    rw [hfind.2.1] at hslot
    exact thread_ne_mutex n n (by simpa using hslot.symm)
  · intro n j hslot hfind
    rw [find_vertex_eq st g hg, find_scan_eq_iff] at hfind
    rw [hfind.2.1] at hslot
    exact thread_ne_mutex n n (by simpa using hslot)

theorem find_vertex_spec_witness :
    (find_vertex full_registry (thread_data 3) = -1 ↔
      ∀ j, j < full_registry.g_next_vertex → ∀ vd,
        ((List.range MAX_VERTICES).map (fun i => some (thread_data (i + 1)))).getD j none =
          some vd → ¬ (vd.type = (thread_data 3).type ∧ vd.id = (thread_data 3).id)) ∧
    (∀ j, j < full_registry.g_next_vertex →
      (∃ vd, ((List.range MAX_VERTICES).map (fun i => some (thread_data (i + 1)))).getD j none =
          some vd ∧ vd.type = (thread_data 3).type ∧ vd.id = (thread_data 3).id) →
      ∃ i : Nat, find_vertex full_registry (thread_data 3) = (i : Int) ∧ i ≤ j ∧
        (∃ vd, ((List.range MAX_VERTICES).map (fun i => some (thread_data (i + 1)))).getD i none =
          some vd ∧ vd.type = (thread_data 3).type ∧ vd.id = (thread_data 3).id) ∧
        ∀ m, m < i → ∀ vd,
          ((List.range MAX_VERTICES).map (fun i => some (thread_data (i + 1)))).getD m none =
            some vd → ¬ (vd.type = (thread_data 3).type ∧ vd.id = (thread_data 3).id)) ∧
    (find_vertex full_registry (thread_data 3) = -1 ∨
      (0 ≤ find_vertex full_registry (thread_data 3) ∧
        find_vertex full_registry (thread_data 3) < (full_registry.g_next_vertex : Int))) ∧
    (∀ (n j : Nat),
      ((List.range MAX_VERTICES).map (fun i => some (thread_data (i + 1)))).getD j none =
        some (thread_data n) → find_vertex full_registry (mutex_data n) ≠ (j : Int)) ∧
    (∀ (n j : Nat),
      ((List.range MAX_VERTICES).map (fun i => some (thread_data (i + 1)))).getD j none =
        some (mutex_data n) → find_vertex full_registry (thread_data n) ≠ (j : Int)) :=
  find_vertex_spec full_registry _ (thread_data 3) rfl

/-! ## An acquisition without a recorded request -/

theorem after_lock_adj (st : Detector) (T M : Nat) (hready : Ready st)
    (hT : find_vertex st (thread_data T) ≠ -1) (hM : find_vertex st (mutex_data M) ≠ -1) :
    ∃ g g1, st.g_graph = some g ∧ (after_lock st T M).g_graph = some g1 ∧
      ∀ u, g1.adj u =
        if u = find_vertex st (mutex_data M) then
          find_vertex st (thread_data T) :: g.adj (find_vertex st (mutex_data M))
        else if u = find_vertex st (thread_data T) then
          (g.adj (find_vertex st (thread_data T))).erase (find_vertex st (mutex_data M))
        else g.adj u := by
  obtain ⟨_, g, hg, hok⟩ := hready
  have hne := find_vertex_types st T M hT
  have hrT := (find_vertex_range st (thread_data T)).resolve_left hT
  have hrM := (find_vertex_range st (mutex_data M)).resolve_left hM
  have hcap := hok.capacity
  have hle := hok.next_le
  have heq : after_lock st T M = { st with g_graph := some (add_edge
      (remove_edge g (find_vertex st (thread_data T)) (find_vertex st (mutex_data M))).2
      (find_vertex st (mutex_data M)) (find_vertex st (thread_data T))) } := by
    unfold after_lock
    rw [hg]
    simp only
    rw [if_pos ⟨hT, hM⟩]
  have hrf := remove_edge_fields g (find_vertex st (thread_data T))
    (find_vertex st (mutex_data M))
  have hshape1 : (remove_edge g (find_vertex st (thread_data T))
      (find_vertex st (mutex_data M))).2.Shaped :=
    (registry_remove_edge g _ hok _ _).shaped
  refine ⟨g, _, hg, by rw [heq], ?_⟩
  intro u
  rw [add_edge_adj _ hshape1 _ _ _ (by omega) (by rw [hrf.1]; omega) (by omega)
    (by rw [hrf.1]; omega)]
  by_cases huM : u = find_vertex st (mutex_data M)
  · rw [if_pos huM, if_pos huM,
      remove_edge_adj g hok.shaped _ _ _ (by omega) (by omega) (by omega) (by omega),
      if_neg (fun e => hne e.symm)]
  · rw [if_neg huM, if_neg huM,
      remove_edge_adj g hok.shaped _ _ _ (by omega) (by omega) (by omega) (by omega)]

/-- C21, as stated, fails: on the fresh detector neither thread 1 nor the mutex
4096 has a vertex and no wait edge is present; `after_lock(1, 4096)` returns at
the guard on the two vertices, so no hold edge and no vertex of the mutex exist
afterwards. -/
theorem after_lock_unregistered_no_hold :
    Ready Detector.fresh ∧ wait_edges Detector.fresh 1 4096 = 0 ∧
    hold_edges (after_lock Detector.fresh 1 4096) 1 4096 = 0 ∧
    find_vertex (after_lock Detector.fresh 1 4096) (mutex_data 4096) = -1 ∧
    NoEdges (after_lock Detector.fresh 1 4096) := by
  have hsame : after_lock Detector.fresh 1 4096 = Detector.fresh := by
    unfold after_lock
    rfl
  rw [hsame]
  exact ⟨ready_fresh, by decide, by decide, by decide, no_edges_fresh⟩

/-- C21, amended: on a ready detector in which T and M both have a vertex and no
wait edge vT → vM is present, `after_lock(T, M)` removes no edge and adds exactly
one hold edge: the number of edges u → w is unchanged for every pair except
(vM, vT), whose number grows by one, so the hold edge vM → vT is present. -/
theorem after_lock_without_wait (st : Detector) (T M : Nat) (hready : Ready st)
    (hT : find_vertex st (thread_data T) ≠ -1) (hM : find_vertex st (mutex_data M) ≠ -1)
    (hwait : wait_edges st T M = 0) :
    (∃ g g1, st.g_graph = some g ∧ (after_lock st T M).g_graph = some g1 ∧
      ∀ u w : Int, edge_count g1 u w = edge_count g u w +
        if u = find_vertex st (mutex_data M) ∧ w = find_vertex st (thread_data T) then 1
        else 0) ∧
    hold_edges (after_lock st T M) T M = hold_edges st T M + 1 ∧
    1 ≤ hold_edges (after_lock st T M) T M := by
  obtain ⟨g, g1, hg, hg1, hadj⟩ := after_lock_adj st T M hready hT hM
  have hfind := (after_lock_registry st T M).2
  simp only [wait_edges, hg, hT, hM, or_self, if_false, edge_count] at hwait
  have hnot : find_vertex st (mutex_data M) ∉ g.adj (find_vertex st (thread_data T)) := by
    intro hmem
    have := List.count_pos_iff.mpr hmem
    omega
  have hcount : ∀ u w : Int, edge_count g1 u w = edge_count g u w +
      if u = find_vertex st (mutex_data M) ∧ w = find_vertex st (thread_data T) then 1
      else 0 := by
    intro u w
    unfold edge_count
    rw [hadj]
    by_cases huM : u = find_vertex st (mutex_data M)
    · rw [if_pos huM]
      by_cases hw : w = find_vertex st (thread_data T)
      · rw [if_pos ⟨huM, hw⟩, hw, List.count_cons_self, huM]
      · have hno : ¬ (u = find_vertex st (mutex_data M) ∧
            w = find_vertex st (thread_data T)) := fun e => hw e.2
        rw [if_neg hno, List.count_cons_of_ne hw, huM]
        rfl
    · have hno : ¬ (u = find_vertex st (mutex_data M) ∧
          w = find_vertex st (thread_data T)) := fun e => huM e.1
      rw [if_neg huM, if_neg hno]
      by_cases huT : u = find_vertex st (thread_data T)
      · rw [if_pos huT, List.erase_of_not_mem hnot, huT]
        rfl
      · rw [if_neg huT]
        rfl
  have hhold : hold_edges (after_lock st T M) T M = hold_edges st T M + 1 := by
    unfold hold_edges
    rw [hfind, hfind, hg, hg1]
    simp only [hT, hM, or_self, if_false]
    rw [hcount, if_pos ⟨rfl, rfl⟩]
  exact ⟨⟨g, g1, hg, hg1, hcount⟩, hhold, by omega⟩

theorem after_lock_without_wait_witness :
    wait_edges (Detector.fresh.run (lock_unlock_round 1 4096)) 1 4096 = 0 ∧
    hold_edges (after_lock (Detector.fresh.run (lock_unlock_round 1 4096)) 1 4096) 1 4096 =
      hold_edges (Detector.fresh.run (lock_unlock_round 1 4096)) 1 4096 + 1 :=
  ⟨by decide,
    (after_lock_without_wait (Detector.fresh.run (lock_unlock_round 1 4096)) 1 4096
      (ready_reachable _) (by decide) (by decide) (by decide)).2.1⟩

/-! ## The kinds of the endpoints of an edge -/

/-- C22: in every state the hooks reach from the fresh detector by any sequence
of events, well formed or not, every edge u → w joins two registered vertices
(indices below `g_next_vertex`, payloads not null) of different kinds: from a
thread vertex to a mutex vertex, or from a mutex vertex to a thread vertex. -/
theorem edges_join_thread_and_mutex (es : List Event) (g : DirectedGraph VertexData)
    (hg : (Detector.fresh.run es).g_graph = some g) (u w : Int) (hedge : Edge g u w) :
    0 ≤ u ∧ u < ((Detector.fresh.run es).g_next_vertex : Int) ∧
    0 ≤ w ∧ w < ((Detector.fresh.run es).g_next_vertex : Int) ∧
    ∃ a b, g.vertex_data.getD u.toNat none = some a ∧
      g.vertex_data.getD w.toNat none = some b ∧
      ((a.type = VertexType.VERTEX_TYPE_THREAD ∧ b.type = VertexType.VERTEX_TYPE_MUTEX) ∨
       (a.type = VertexType.VERTEX_TYPE_MUTEX ∧ b.type = VertexType.VERTEX_TYPE_THREAD)) := by
  obtain ⟨q, hinit, g0, hg0, hok, hcov⟩ :=
    linked_run_any es Detector.fresh Pending.idle (linked_of_no_edges _ _ ready_fresh no_edges_fresh)
  rw [hg] at hg0
  cases hg0
  obtain ⟨hu0, hu1, hw0, hw1⟩ := registry_edges_adj g _ hok u w hedge
  obtain ⟨a, b, ha, hb, hbound⟩ := edge_bound g _ q hok hcov u w hedge
  refine ⟨hu0, hu1, hw0, hw1, a, b, ha, hb, ?_⟩
  rcases bound_pos_cases q a b hbound with h | h
  · exact Or.inl ⟨h.1, h.2.1⟩
  · exact Or.inr ⟨h.1, h.2.1⟩

theorem edges_join_thread_and_mutex_witness :
    ∃ g, (Detector.fresh.run [Event.before_lock 1 4096]).g_graph = some g ∧ Edge g 0 1 ∧
      ∃ a b, g.vertex_data.getD (0 : Int).toNat none = some a ∧
        g.vertex_data.getD (1 : Int).toNat none = some b ∧
        ((a.type = VertexType.VERTEX_TYPE_THREAD ∧ b.type = VertexType.VERTEX_TYPE_MUTEX) ∨
         (a.type = VertexType.VERTEX_TYPE_MUTEX ∧ b.type = VertexType.VERTEX_TYPE_THREAD)) :=
  ⟨((before_lock Detector.fresh 1 4096).g_graph).getD (create_graph 0 copy_vertex_data),
    rfl, by decide,
    (edges_join_thread_and_mutex [Event.before_lock 1 4096]
      (((before_lock Detector.fresh 1 4096).g_graph).getD (create_graph 0 copy_vertex_data))
      rfl 0 1 (by decide)).2.2.2.2⟩

/-! ## Out-degree under exclusive use -/

theorem idle_exclusive : Pending.idle.Exclusive := by
  simp [Pending.Exclusive, Pending.idle]

theorem nodup_map_erase {β : Type} (f : Nat × Nat → β) (l : List (Nat × Nat)) (x : Nat × Nat)
    (h : (l.map f).Nodup) : ((l.erase x).map f).Nodup :=
  List.Nodup.sublist ((List.erase_sublist x l).map f) h

theorem exclusive_step (p q : Pending) (e : Event) (hex : p.Exclusive)
    (hstep : p.step_exclusive e = some q) : p.step e = some q ∧ q.Exclusive := by
  obtain ⟨hw, hh⟩ := hex
  cases e with
  | thread_create tid =>
    simp only [Pending.step_exclusive] at hstep
    refine ⟨hstep, ?_⟩
    simp only [Pending.step, Option.some.injEq] at hstep
    subst hstep
    exact ⟨hw, hh⟩
  | before_lock tid mtx =>
    simp only [Pending.step_exclusive] at hstep
    by_cases hmem : tid ∈ p.waiting.map Prod.fst
    · rw [if_pos hmem] at hstep
      cases hstep
    · rw [if_neg hmem] at hstep
      refine ⟨hstep, ?_⟩
      simp only [Pending.step, Option.some.injEq] at hstep
      subst hstep
      exact ⟨by simpa using ⟨by simpa using hmem, hw⟩, hh⟩
  | after_lock tid mtx =>
    simp only [Pending.step_exclusive] at hstep
    by_cases hmem : mtx ∈ p.held.map Prod.snd
    · rw [if_pos hmem] at hstep
      cases hstep
    · rw [if_neg hmem] at hstep
      refine ⟨hstep, ?_⟩
      simp only [Pending.step] at hstep
      by_cases hin : (tid, mtx) ∈ p.waiting
      · rw [if_pos hin] at hstep
        simp only [Option.some.injEq] at hstep
        subst hstep
        exact ⟨nodup_map_erase _ _ _ hw, by simpa using ⟨by simpa using hmem, hh⟩⟩
      · rw [if_neg hin] at hstep
        cases hstep
  | before_unlock tid mtx =>
    simp only [Pending.step_exclusive] at hstep
    refine ⟨hstep, ?_⟩
    simp only [Pending.step, Option.some.injEq] at hstep
    subst hstep
    exact ⟨hw, hh⟩
  | after_unlock tid mtx =>
    simp only [Pending.step_exclusive] at hstep
    refine ⟨hstep, ?_⟩
    simp only [Pending.step] at hstep
    by_cases hin : (tid, mtx) ∈ p.held
    · rw [if_pos hin] at hstep
      simp only [Option.some.injEq] at hstep
      subst hstep
      exact ⟨hw, nodup_map_erase _ _ _ hh⟩
    · rw [if_neg hin] at hstep
      cases hstep

theorem exclusive_run (es : List Event) :
    ∀ p q : Pending, p.Exclusive → p.run_exclusive es = some q →
      p.run es = some q ∧ q.Exclusive := by
  induction es with
  | nil =>
    intro p q hex hrun
    simp only [Pending.run_exclusive, Option.some.injEq] at hrun
    subst hrun
    exact ⟨rfl, hex⟩
  | cons e es ih =>
    intro p q hex hrun
    simp only [Pending.run_exclusive] at hrun
    cases hstep : p.step_exclusive e with
    | none => rw [hstep] at hrun; cases hrun
    | some r =>
      rw [hstep] at hrun
      obtain ⟨hs, hr⟩ := exclusive_step p r e hex hstep
      obtain ⟨h1, h2⟩ := ih r q hr hrun
      refine ⟨?_, h2⟩
      simp only [Pending.run, hs]
      exact h1

theorem length_le_one_of_all_equal (l : List Int) (hsame : ∀ x ∈ l, ∀ y ∈ l, x = y)
    (hcount : ∀ x ∈ l, l.count x ≤ 1) : l.length ≤ 1 := by
  cases l with
  | nil => simp
  | cons x t =>
    cases t with
    | nil => simp
    | cons y t =>
      have hxy : x = y := hsame x (by simp) y (by simp)
      subst hxy
      have := hcount x (by simp)
      simp at this

theorem count_le_one_of_nodup (l : List (Nat × Nat)) (h : l.Nodup) (x : Nat × Nat) :
    l.count x ≤ 1 := by
  induction l with
  | nil => simp
  | cons y t ih =>
    rw [List.nodup_cons] at h
    rw [List.count_cons]
    by_cases hyx : y = x
    · subst hyx
      have hzero : t.count y = 0 := List.count_eq_zero_of_not_mem h.1
      rw [hzero]
      simp
    · have hne : (y == x) = false := by simpa using hyx
      rw [hne]
      simpa using ih h.2

theorem exclusive_bound_le_one (p : Pending) (hex : p.Exclusive) (a b : VertexData) :
    p.bound a b ≤ 1 := by
  obtain ⟨hw, hh⟩ := hex
  unfold Pending.bound
  split
  · exact count_le_one_of_nodup _ (List.Nodup.of_map _ hw) _
  · exact count_le_one_of_nodup _ (List.Nodup.of_map _ hh) _
  · exact Nat.zero_le _

theorem exclusive_same_target (p : Pending) (hex : p.Exclusive) (a b c : VertexData)
    (hb : 1 ≤ p.bound a b) (hc : 1 ≤ p.bound a c) : b = c := by
  obtain ⟨hw, hh⟩ := hex
  cases b with
  | mk tb ib =>
    cases c with
    | mk tc ic =>
      rcases bound_pos_cases p a _ hb with h1 | h1 <;>
        rcases bound_pos_cases p a _ hc with h2 | h2
      · have := List.inj_on_of_nodup_map hw h1.2.2 h2.2.2 rfl
        simp only [Prod.mk.injEq, true_and] at this
        simp only at h1 h2
        rw [h1.2.1, h2.2.1, this]
      · rw [h1.1] at h2
        exact absurd h2.1 (by decide)
      · rw [h1.1] at h2
        exact absurd h2.1 (by decide)
      · have := List.inj_on_of_nodup_map hh h1.2.2 h2.2.2 rfl
        simp only [Prod.mk.injEq, and_true] at this
        simp only at h1 h2
        rw [h1.2.1, h2.2.1, this]

theorem linked_exclusive_out_degree (st : Detector) (q : Pending) (hlinked : Linked st q)
    (hex : q.Exclusive) (g : DirectedGraph VertexData) (hg : st.g_graph = some g) (u : Int) :
    (g.adj u).length ≤ 1 := by
  obtain ⟨_, g0, hg0, hok, hcov⟩ := hlinked
  rw [hg] at hg0
  cases hg0
  have hfacts : ∀ x ∈ g.adj u, 0 ≤ u ∧ 0 ≤ x ∧ u.toNat < st.g_next_vertex ∧
      x.toNat < st.g_next_vertex ∧
      ∃ a b, g.vertex_data.getD u.toNat none = some a ∧
        g.vertex_data.getD x.toNat none = some b ∧ 1 ≤ q.bound a b := by
    intro x hx
    obtain ⟨hu0, hu1, hx0, hx1⟩ := registry_edges_adj g _ hok u x hx
    exact ⟨hu0, hx0, by omega, by omega, edge_bound g _ q hok hcov u x hx⟩
  apply length_le_one_of_all_equal
  · intro x hx y hy
    obtain ⟨_, hx0, _, hxn, a, b, ha, hb, hab⟩ := hfacts x hx
    obtain ⟨_, hy0, _, hyn, a2, c, ha2, hc, hac⟩ := hfacts y hy
    rw [ha] at ha2
    cases ha2
    have hbc := exclusive_same_target q hex a b c hab hac
    subst hbc
    have := registered_inj g _ hok x.toNat y.toNat hxn hyn b hb hc
    omega
  · intro x hx
    obtain ⟨hu0, hx0, hun, hxn, a, b, ha, hb, hab⟩ := hfacts x hx
    have hcnt := hcov u.toNat x.toNat hun hxn a b ha hb
    rw [Int.toNat_of_nonneg hu0, Int.toNat_of_nonneg hx0] at hcnt
    exact le_trans hcnt (exclusive_bound_le_one q hex a b)

/-- C23: in every state reached from the fresh detector by a sequence in which a
thread issues `before_lock` only when it has no pending `before_lock`,
`after_lock(T, M)` follows a pending `before_lock(T, M)` and occurs only while no
thread holds M, and `after_unlock(T, M)` occurs only while T holds M, every
vertex has at most one outgoing edge: a thread vertex at most one wait edge, a
mutex vertex at most one hold edge. -/
theorem out_degree_at_most_one (es : List Event) (q : Pending)
    (hwf : Pending.idle.run_exclusive es = some q) (g : DirectedGraph VertexData)
    (hg : (Detector.fresh.run es).g_graph = some g) (u : Int) :
    (g.adj u).length ≤ 1 := by
  obtain ⟨hrun, hex⟩ := exclusive_run es Pending.idle q idle_exclusive hwf
  have hlinked := linked_run es Detector.fresh Pending.idle q
    (linked_of_no_edges _ _ ready_fresh no_edges_fresh) hrun
  exact linked_exclusive_out_degree _ q hlinked hex g hg u

theorem out_degree_at_most_one_witness :
    ∃ g, (Detector.fresh.run contended_mutex).g_graph = some g ∧
      (g.adj 0).length ≤ 1 ∧ (g.adj 1).length ≤ 1 ∧ (g.adj 2).length ≤ 1 :=
  ⟨((Detector.fresh.run contended_mutex).g_graph).getD (create_graph 0 copy_vertex_data), rfl,
    out_degree_at_most_one contended_mutex { waiting := [(2, 4096)], held := [(1, 4096)] }
      (by decide) _ (by rfl) 0,
    out_degree_at_most_one contended_mutex { waiting := [(2, 4096)], held := [(1, 4096)] }
      (by decide) _ (by rfl) 1,
    out_degree_at_most_one contended_mutex { waiting := [(2, 4096)], held := [(1, 4096)] }
      (by decide) _ (by rfl) 2⟩

/-! ## Hooks before the bootstrap has completed -/

theorem hooks_without_graph (st : Detector) (hg : st.g_graph = none) (T M : Nat) :
    (pthread_create st 0 (some T)).2 = st ∧ before_lock st T M = st ∧
    after_lock st T M = st ∧ before_unlock st T M = st ∧ after_unlock st T M = st := by
  refine ⟨?_, ?_, ?_, rfl, ?_⟩
  · simp [pthread_create, hg]
  · unfold before_lock
    rw [hg]
    simp
  · unfold after_lock
    rw [hg]
  · unfold after_unlock
    rw [hg]

theorem before_lock_not_ready (st : Detector) (hinit : st.g_init_complete = false)
    (T M : Nat) : before_lock st T M = st ∧ before_unlock st T M = st := by
  refine ⟨?_, rfl⟩
  unfold before_lock
  rw [hinit]
  simp

theorem get_or_create_flag (st : Detector) (d : VertexData) :
    (get_or_create_vertex st d).2.g_init_complete = st.g_init_complete := by
  unfold get_or_create_vertex
  cases st.g_graph with
  | none => rfl
  | some g =>
    simp only
    split_ifs <;> rfl

theorem before_lock_flag (st : Detector) (T M : Nat) :
    (before_lock st T M).g_init_complete = st.g_init_complete := by
  have h1 := get_or_create_flag st (thread_data T)
  have h2 := get_or_create_flag (get_or_create_vertex st (thread_data T)).2 (mutex_data M)
  unfold before_lock
  split_ifs
  · rfl
  · rfl
  · cases hg : st.g_graph with
    | none => rfl
    | some g =>
      simp only
      split_ifs
      · rfl
      · exact h1
      · exact h2.trans h1
      · cases hg2 : (get_or_create_vertex (get_or_create_vertex st (thread_data T)).2
            (mutex_data M)).2.g_graph with
        | none => exact h2.trans h1
        | some g2 =>
          simp only
          split_ifs
          · exact h2.trans h1
          · exact h2.trans h1

theorem step_flag (st : Detector) (e : Event) :
    (st.step e).g_init_complete = st.g_init_complete := by
  cases e with
  | thread_create tid =>
    simp only [Detector.step, pthread_create]
    split_ifs
    · exact get_or_create_flag st (thread_data tid)
    · rfl
  | before_lock tid mtx => exact before_lock_flag st tid mtx
  | after_lock tid mtx =>
    simp only [Detector.step, after_lock]
    cases st.g_graph with
    | none => rfl
    | some g =>
      simp only
      split_ifs <;> rfl
  | before_unlock tid mtx => rfl
  | after_unlock tid mtx =>
    simp only [Detector.step, after_unlock]
    cases st.g_graph with
    | none => rfl
    | some g =>
      simp only
      split_ifs <;> rfl

theorem step_without_graph (st : Detector) (hg : st.g_graph = none) (e : Event) :
    st.step e = st := by
  cases e with
  | thread_create tid => exact (hooks_without_graph st hg tid 0).1
  | before_lock tid mtx => exact (hooks_without_graph st hg tid mtx).2.1
  | after_lock tid mtx => exact (hooks_without_graph st hg tid mtx).2.2.1
  | before_unlock tid mtx => rfl
  | after_unlock tid mtx => exact (hooks_without_graph st hg tid mtx).2.2.2.2

theorem act_graph_flag (st : Detector) (a : Action)
    (h : st.g_graph ≠ none → st.g_init_complete = true) :
    (st.act a).g_graph ≠ none → (st.act a).g_init_complete = true := by
  cases a with
  | init sym_create sym_lock sym_unlock graph_alloc =>
    intro hgraph
    simp only [Detector.act, init_hook_once] at hgraph ⊢
    cases hg : st.g_graph with
    | none =>
      rw [hg] at hgraph
      simp only at hgraph ⊢
      by_cases halloc : graph_alloc = true
      · rw [if_pos halloc]
      · rw [if_neg halloc] at hgraph
        exact absurd rfl hgraph
    | some g => rfl
  | hook e =>
    intro hgraph
    simp only [Detector.act] at hgraph ⊢
    cases hg : st.g_graph with
    | none =>
      rw [step_without_graph st hg e] at hgraph
      exact absurd hg hgraph
    | some g =>
      rw [step_flag]
      exact h (by rw [hg]; simp)
  | teardown =>
    intro hgraph
    exact absurd rfl hgraph

theorem acts_graph_flag (steps : List Action) :
    ∀ st : Detector, (st.g_graph ≠ none → st.g_init_complete = true) →
      (st.acts steps).g_graph ≠ none → (st.acts steps).g_init_complete = true := by
  induction steps with
  | nil => intro st h; exact h
  | cons a rest ih => intro st h; exact ih (st.act a) (act_graph_flag st a h)

/-- C24: in every state the globals reach from program start by runs of
`init_hook_once` (whatever the outcome of the lookups and of the allocation),
hook events and the release of the graph, if the bootstrap has not completed
(`g_init_complete` is 0 or the graph is absent) then every hook returns the
state as it is, for every thread and mutex: the thread-creation hook whatever
the real call returned, `before_lock`, `after_lock`, `before_unlock` and
`after_unlock`; so `g_next_vertex`, the payloads and the adjacency lists are
unchanged. Between two actions the flag is never 0 while the graph is present. -/
theorem hooks_before_bootstrap (steps : List Action) (T M : Nat) (result : Int)
    (thread : Option Nat)
    (hnot : (Detector.startup.acts steps).g_init_complete = false ∨
      (Detector.startup.acts steps).g_graph = none) :
    (pthread_create (Detector.startup.acts steps) result thread).2 =
      Detector.startup.acts steps ∧
    before_lock (Detector.startup.acts steps) T M = Detector.startup.acts steps ∧
    after_lock (Detector.startup.acts steps) T M = Detector.startup.acts steps ∧
    before_unlock (Detector.startup.acts steps) T M = Detector.startup.acts steps ∧
    after_unlock (Detector.startup.acts steps) T M = Detector.startup.acts steps := by
  have hinv := acts_graph_flag steps Detector.startup (fun h => absurd rfl h)
  have hg : (Detector.startup.acts steps).g_graph = none := by
    rcases hnot with h | h
    · by_contra hne
      rw [hinv hne] at h
      cases h
    · exact h
  obtain ⟨_, h2, h3, h4, h5⟩ := hooks_without_graph _ hg T M
  refine ⟨?_, h2, h3, h4, h5⟩
  cases thread with
  | none => rfl
  | some tid => simp [pthread_create, hg]

theorem hooks_before_bootstrap_witness :
    (pthread_create (Detector.startup.acts [Action.hook (Event.before_lock 1 4096),
        Action.init true true true false, Action.hook (Event.thread_create 7)]) 0 (some 7)).2 =
      Detector.startup.acts [Action.hook (Event.before_lock 1 4096),
        Action.init true true true false, Action.hook (Event.thread_create 7)] ∧
    before_lock (Detector.startup.acts [Action.hook (Event.before_lock 1 4096),
        Action.init true true true false, Action.hook (Event.thread_create 7)]) 7 4096 =
      Detector.startup.acts [Action.hook (Event.before_lock 1 4096),
        Action.init true true true false, Action.hook (Event.thread_create 7)] :=
  ⟨(hooks_before_bootstrap [Action.hook (Event.before_lock 1 4096),
      Action.init true true true false, Action.hook (Event.thread_create 7)] 7 4096 0
      (some 7) (Or.inl rfl)).1,
    (hooks_before_bootstrap [Action.hook (Event.before_lock 1 4096),
      Action.init true true true false, Action.hook (Event.thread_create 7)] 7 4096 0
      (some 7) (Or.inl rfl)).2.1⟩

/-! ## The wrappers delegate to the real primitives -/

theorem get_or_create_pointers (st : Detector) (d : VertexData) :
    (get_or_create_vertex st d).2.pthread_mutex_lock_f = st.pthread_mutex_lock_f ∧
    (get_or_create_vertex st d).2.pthread_mutex_unlock_f = st.pthread_mutex_unlock_f := by
  unfold get_or_create_vertex
  cases st.g_graph with
  | none => exact ⟨rfl, rfl⟩
  | some g =>
    simp only
    split_ifs <;> exact ⟨rfl, rfl⟩

theorem before_lock_pointers (st : Detector) (T M : Nat) :
    (before_lock st T M).pthread_mutex_lock_f = st.pthread_mutex_lock_f := by
  have h1 := (get_or_create_pointers st (thread_data T)).1
  have h2 := (get_or_create_pointers (get_or_create_vertex st (thread_data T)).2
    (mutex_data M)).1
  unfold before_lock
  split_ifs
  · rfl
  · rfl
  · cases hg : st.g_graph with
    | none => rfl
    | some g =>
      simp only
      split_ifs
      · rfl
      · exact h1
      · exact h2.trans h1
      · cases hg2 : (get_or_create_vertex (get_or_create_vertex st (thread_data T)).2
            (mutex_data M)).2.g_graph with
        | none => exact h2.trans h1
        | some g2 =>
          simp only
          split_ifs
          · exact h2.trans h1
          · exact h2.trans h1

/-- C25, as stated, fails: before the bootstrap the function pointers
`pthread_mutex_lock_f` and `pthread_mutex_unlock_f` are null, and each wrapper
calls through its pointer without a test, so the real primitive is not
reached and no value is returned. -/
theorem wrappers_before_bootstrap :
    pthread_mutex_lock Detector.startup (fun _ => 0) 1 4096 = none ∧
    pthread_mutex_unlock Detector.startup (fun _ => 0) 1 4096 = none :=
  ⟨rfl, rfl⟩

/-- C25, amended: in every detector state whose pointers `pthread_mutex_lock_f`
and `pthread_mutex_unlock_f` have been resolved (ready or not, graph present or
absent, registry full or not), for every thread and mutex, each wrapper calls
the real primitive exactly once, with the mutex it was given, and returns the
value the real primitive returned. -/
theorem wrappers_delegate (st : Detector) (real_lock real_unlock : Nat → Int) (tid mtx : Nat)
    (hlock : st.pthread_mutex_lock_f = true) (hunlock : st.pthread_mutex_unlock_f = true) :
    (∃ w, pthread_mutex_lock st real_lock tid mtx = some w ∧
      w.result = real_lock mtx ∧ w.real_calls = [mtx]) ∧
    (∃ w, pthread_mutex_unlock st real_unlock tid mtx = some w ∧
      w.result = real_unlock mtx ∧ w.real_calls = [mtx]) := by
  constructor
  · have hp := before_lock_pointers st tid mtx
    rw [hlock] at hp
    unfold pthread_mutex_lock
    simp only
    rw [if_neg (by rw [hp]; decide)]
    by_cases h : 0 = real_lock mtx
    · rw [if_pos h]
      exact ⟨_, rfl, rfl, rfl⟩
    · rw [if_neg h]
      exact ⟨_, rfl, rfl, rfl⟩
  · have hp : (before_unlock st tid mtx).pthread_mutex_unlock_f = true := hunlock
    unfold pthread_mutex_unlock
    simp only
    rw [if_neg (by rw [hp]; decide)]
    by_cases h : real_unlock mtx = 0
    · rw [if_pos h]
      exact ⟨_, rfl, rfl, rfl⟩
    · rw [if_neg h]
      exact ⟨_, rfl, rfl, rfl⟩

theorem wrappers_delegate_witness :
    (∃ w, pthread_mutex_lock full_registry (fun _ => 0) 101 4096 = some w ∧
      w.result = 0 ∧ w.real_calls = [4096]) ∧
    (∃ w, pthread_mutex_unlock full_registry (fun _ => 22) 101 4096 = some w ∧
      w.result = 22 ∧ w.real_calls = [4096]) :=
  wrappers_delegate full_registry (fun _ => 0) (fun _ => 22) 101 4096 rfl rfl

/-! ## A failed bootstrap -/

theorem wait_init_complete_never (st : Detector) (hflag : st.g_init_complete = false)
    (fuel : Nat) : wait_init_complete st fuel = .error Fault.out_of_fuel := by
  induction fuel with
  | zero => rfl
  | succ n ih =>
    unfold wait_init_complete
    rw [hflag]
    exact ih

/-- C27 fails in the code: when the graph cannot be allocated, `init_hook_once`
returns before the assignment `g_init_complete = 1`, and the wait loop of
`ensure_hooks_initialized` never ends: whatever the outcome of the three
lookups and however many times the flag is tested, the call has not returned. -/
theorem ensure_hooks_initialized_hangs (sym_create sym_lock sym_unlock : Bool) (fuel : Nat) :
    (init_hook_once Detector.startup sym_create sym_lock sym_unlock false).g_init_complete
      = false ∧
    ensure_hooks_initialized Detector.startup sym_create sym_lock sym_unlock false fuel =
      .error Fault.out_of_fuel := by
  have hflag : (init_hook_once Detector.startup sym_create sym_lock sym_unlock
      false).g_init_complete = false := rfl
  refine ⟨hflag, ?_⟩
  unfold ensure_hooks_initialized
  simp only
  rw [wait_init_complete_never _ hflag fuel]

theorem ensure_hooks_initialized_unresolved (sym_create sym_lock sym_unlock : Bool)
    (hsym : sym_lock = false ∨ sym_unlock = false) (fuel : Nat) :
    ∃ st1, ensure_hooks_initialized Detector.startup sym_create sym_lock sym_unlock true
        (fuel + 1) = .ok (-1, st1) ∧
      st1.g_init_complete = true ∧ st1.g_graph.isSome = true := by
  refine ⟨init_hook_once Detector.startup sym_create sym_lock sym_unlock true, ?_, rfl, rfl⟩
  rcases hsym with h | h <;> subst h <;> cases sym_create <;>
    first
    | (cases sym_unlock <;> rfl)
    | (cases sym_lock <;> rfl)

/-! ## The scan of the monitor -/

theorem search_cycle_util_of_ok {α : Type} (g : DirectedGraph α) (i : Int)
    (hi : i < (g.num_vertices : Int)) (b : Bool) (h : search_cycle g i = .ok b) :
    ∃ vis stk, search_cycle_util g g.num_vertices i (List.replicate g.num_vertices false)
      (List.replicate g.num_vertices false) = .ok (b, vis, stk) := by
  unfold search_cycle at h
  rw [if_neg (by omega)] at h
  split at h
  · simp at h
  · rename_i c vis stk heq
    simp only [Except.ok.injEq] at h
    subst h
    exact ⟨vis, stk, heq⟩

theorem monitor_scan_from_spec (g : DirectedGraph VertexData) (hshape : g.Shaped)
    (hdest : g.DestsInRange) (k : Nat) :
    ∀ i, i + k ≤ g.num_vertices →
      monitor_scan_from g k i = .ok ((List.range' i k).filterMap (fun i =>
        match g.vertex_data.getD i none with
        | none => none
        | some vd =>
          if vd.type = VertexType.VERTEX_TYPE_THREAD ∧ search_cycle g (i : Int) = .ok true then
            some vd.thread_id
          else none)) := by
  induction k with
  | zero => intro i _; rfl
  | succ k ih =>
    intro i hik
    have hrest := ih (i + 1) (by omega)
    obtain ⟨b, hb, _⟩ := search_cycle_verdict g hshape hdest (i : Int) (by omega) (by omega)
    obtain ⟨vis, stk, hutil⟩ := search_cycle_util_of_ok g (i : Int) (by omega) b hb
    rw [List.range'_succ, List.filterMap_cons]
    unfold monitor_scan_from
    cases hvd : g.vertex_data.getD i none with
    | none =>
      simp only
      exact hrest
    | some vd =>
      simp only
      by_cases hty : vd.type = VertexType.VERTEX_TYPE_THREAD
      · rw [if_pos hty, hutil, hb]
        cases b with
        | true => simp [hty, hrest]
        | false => simp [hrest]
      · rw [if_neg hty, if_neg (fun e => hty e.1)]
        exact hrest

theorem ready_scan_pre (st : Detector) (hready : Ready st) :
    ∀ g, st.g_graph = some g →
      g.Shaped ∧ g.DestsInRange ∧ st.g_next_vertex ≤ g.num_vertices := by
  intro g hg
  obtain ⟨_, g0, hg0, hok⟩ := hready
  rw [hg] at hg0
  cases hg0
  refine ⟨hok.shaped, registry_dests_in_range g _ hok, ?_⟩
  rw [hok.capacity]
  exact hok.next_le

/-- C26: in every detector state whose graph, when present, is well shaped
(arrays of `num_vertices` entries, destinations in range, `g_next_vertex` within
the capacity; every ready state is one), one scan of the monitor returns and
reports exactly the identifiers of the slots below `g_next_vertex` that hold a
thread payload and from which a standalone `search_cycle` answers true, in index
order: no mutex vertex is reported and no search depends on an earlier one. The
scan only reads the state. -/
theorem monitor_scan_reports (st : Detector)
    (hwf : ∀ g, st.g_graph = some g →
      g.Shaped ∧ g.DestsInRange ∧ st.g_next_vertex ≤ g.num_vertices) :
    monitor_scan st = .ok (monitor_reports_spec st) := by
  unfold monitor_scan monitor_reports_spec
  cases hg : st.g_graph with
  | none => rfl
  | some g =>
    obtain ⟨hshape, hdest, hle⟩ := hwf g hg
    simp only
    rw [List.range_eq_range']
    exact monitor_scan_from_spec g hshape hdest st.g_next_vertex 0 (by omega)

theorem monitor_scan_reports_witness :
    monitor_scan (Detector.fresh.run (ring_events 2)) =
      .ok (monitor_reports_spec (Detector.fresh.run (ring_events 2))) :=
  monitor_scan_reports (Detector.fresh.run (ring_events 2))
    (ready_scan_pre _ (ready_reachable (ring_events 2)))

/-! ## Start indices outside the graph -/

theorem search_cycle_start_too_large {α : Type} (g : DirectedGraph α) (s : Int)
    (h : s ≥ (g.num_vertices : Int)) : search_cycle g s = .ok false := by
  unfold search_cycle
  rw [if_pos h]

theorem search_cycle_start_negative {α : Type} (g : DirectedGraph α) (s : Int) (hneg : s < 0)
    (hpos : 0 < g.num_vertices) : search_cycle g s = .error Fault.out_of_bounds := by
  unfold search_cycle
  rw [if_neg (by omega)]
  obtain ⟨n, hn⟩ : ∃ n, g.num_vertices = n + 1 := ⟨g.num_vertices - 1, by omega⟩
  rw [hn]
  unfold search_cycle_util
  rw [if_neg (by omega), if_pos hneg]

/-- C33 fails in the code for a negative start: `search_cycle` tests only
`start_vertex >= num_vertices`, and so does `search_cycle_util`, which then
reads `adj_lists[-1]` and writes `visited[-1]`, outside the arrays; on the graph
of `test_middle_cycle` with start -1 the search ends in an access out of bounds
and returns no verdict. A start of 4 or more does return false. -/
theorem search_cycle_negative_out_of_bounds :
    search_cycle middle_cycle_graph (-1) = .error Fault.out_of_bounds ∧
    search_cycle middle_cycle_graph 4 = .ok false := by
  decide

/-! ## Locking a mutex the thread already holds -/

theorem full_registry_holding_getD (i : Nat) (hi : i < MAX_VERTICES) :
    ((List.range MAX_VERTICES).map (fun i =>
      if i = 99 then some (mutex_data 4096) else some (thread_data (i + 1)))).getD i none =
      if i = 99 then some (mutex_data 4096) else some (thread_data (i + 1)) := by
  simp [List.getD_eq_getElem?_getD, List.getElem?_range hi]

theorem ready_full_registry_holding : Ready full_registry_holding := by
  refine ⟨rfl, _, rfl, ?_⟩
  refine ⟨⟨by simp, by simp⟩, rfl, fun _ => rfl, le_refl _, ?_, ?_⟩
  · intro i hi0
    have hi : i < MAX_VERTICES := hi0
    have hcap : MAX_VERTICES = 100 := rfl
    by_cases h99 : i = 99
    · have hget := full_registry_holding_getD i hi
      rw [if_pos h99] at hget
      refine ⟨_, hget, ?_⟩
      rw [find_scan_eq_iff]
      refine ⟨hi, hget, ?_⟩
      intro m hm
      rw [full_registry_holding_getD m (by omega), if_neg (by omega)]
      simp [thread_data, mutex_data]
    · have hget := full_registry_holding_getD i hi
      rw [if_neg h99] at hget
      refine ⟨_, hget, ?_⟩
      rw [find_scan_eq_iff]
      refine ⟨hi, hget, ?_⟩
      intro m hm
      rw [full_registry_holding_getD m (by omega), if_neg (by omega)]
      simp [thread_data]
      omega
  · intro u d hd
    have hcap : MAX_VERTICES = 100 := rfl
    simp only [List.getD_eq_getElem?_getD] at hd
    by_cases hu : u < MAX_VERTICES
    · simp only [List.getElem?_map, List.getElem?_range hu, Option.map_some',
        Option.getD_some] at hd
      by_cases h99 : u = 99
      · rw [if_pos h99] at hd
        simp only [List.mem_singleton] at hd
        subst hd
        exact ⟨hu, by omega, by decide⟩
      · rw [if_neg h99] at hd
        simp at hd
    · have : ((List.range MAX_VERTICES).map (fun i => if i = 99 then [(0 : Int)] else []))[u]? =
          none := by
        rw [List.getElem?_eq_none]
        simp
        omega
      rw [this] at hd
      simp at hd

theorem relock_reported (st : Detector) (T M : Nat) (hready : Ready st) (hM : M ≠ 0)
    (hroom : st.g_next_vertex < MAX_VERTICES) (hhold : 1 ≤ hold_edges st T M) :
    1 ≤ wait_edges (before_lock st T M) T M ∧ 1 ≤ hold_edges (before_lock st T M) T M ∧
    ∃ g, (before_lock st T M).g_graph = some g ∧
      search_cycle g (find_vertex (before_lock st T M) (thread_data T)) = .ok true := by
  obtain ⟨_, g, hg, hok⟩ := id hready
  have hboth : find_vertex st (thread_data T) ≠ -1 ∧ find_vertex st (mutex_data M) ≠ -1 := by
    constructor <;> intro h <;> simp [hold_edges, hg, h] at hhold
  obtain ⟨hT, hMf⟩ := hboth
  simp only [hold_edges, hg, hT, hMf, or_self, if_false, edge_count] at hhold
  obtain ⟨g0, g2, st2, hg0, hg2, hadj, hr2, hT2, hM2, hfind, _, _, heq⟩ :=
    before_lock_effective st T M hready hM (by rw [if_neg hT]; omega)
  rw [hg] at hg0
  cases hg0
  have hfT : find_vertex st2 (thread_data T) = find_vertex st (thread_data T) :=
    (hfind _).resolve_right (fun h => hT h.1)
  have hfM : find_vertex st2 (mutex_data M) = find_vertex st (mutex_data M) :=
    (hfind _).resolve_right (fun h => hMf h.1)
  obtain ⟨_, g2b, hg2b, hok2⟩ := hr2
  rw [hg2] at hg2b
  cases hg2b
  have hrT := (find_vertex_range st2 (thread_data T)).resolve_left hT2
  have hrM := (find_vertex_range st2 (mutex_data M)).resolve_left hM2
  have hcap := hok2.capacity
  have hle := hok2.next_le
  have hne := find_vertex_types st2 T M hT2
  have hf := add_edge_fields g2 (find_vertex st2 (thread_data T)) (find_vertex st2 (mutex_data M))
  have hfindeq : ∀ x, find_vertex (before_lock st T M) x = find_vertex st2 x := by
    intro x
    rw [heq]
    exact find_vertex_congr st2 _ g2 _ hg2 (by rfl) (by rw [hf.2.1]) (by rfl) x
  have hadj2 : ∀ u, (add_edge g2 (find_vertex st2 (thread_data T))
      (find_vertex st2 (mutex_data M))).adj u =
      if u = find_vertex st2 (thread_data T) then
        find_vertex st2 (mutex_data M) :: g2.adj (find_vertex st2 (thread_data T))
      else g2.adj u := fun u =>
    add_edge_adj g2 hok2.shaped _ _ u (by omega) (by omega) (by omega) (by omega)
  have hg2adj : ∀ u, g2.adj u = g.adj u := fun u => adj_congr g g2 hadj u
  have hgraph : (before_lock st T M).g_graph = some (add_edge g2
      (find_vertex st2 (thread_data T)) (find_vertex st2 (mutex_data M))) := by rw [heq]
  have hwaitmem : Edge (add_edge g2 (find_vertex st2 (thread_data T))
      (find_vertex st2 (mutex_data M))) (find_vertex st2 (thread_data T))
      (find_vertex st2 (mutex_data M)) := by
    unfold Edge
    rw [hadj2, if_pos rfl]
    exact List.mem_cons_self _ _
  have hholdcount : 1 ≤ ((add_edge g2 (find_vertex st2 (thread_data T))
      (find_vertex st2 (mutex_data M))).adj (find_vertex st2 (mutex_data M))).count
      (find_vertex st2 (thread_data T)) := by
    rw [hadj2, if_neg (fun e => hne e.symm), hg2adj, hfT, hfM]
    exact hhold
  have hholdmem : Edge (add_edge g2 (find_vertex st2 (thread_data T))
      (find_vertex st2 (mutex_data M))) (find_vertex st2 (mutex_data M))
      (find_vertex st2 (thread_data T)) := List.count_pos_iff.mp hholdcount
  have hready3 : Ready (before_lock st T M) :=
    ready_step st (Event.before_lock T M) hready
  obtain ⟨_, g3, hg3, hok3⟩ := hready3
  rw [hgraph] at hg3
  cases hg3
  have hnv3 : (before_lock st T M).g_next_vertex ≤ MAX_VERTICES := hok3.next_le
  obtain ⟨b, hb, hiff⟩ := search_cycle_verdict _ hok3.shaped
    (registry_dests_in_range _ _ hok3) (find_vertex st2 (thread_data T)) (by omega)
    (by rw [hok3.capacity]; omega)
  have hcycle : ReachableCycle (add_edge g2 (find_vertex st2 (thread_data T))
      (find_vertex st2 (mutex_data M))) (find_vertex st2 (thread_data T)) :=
    ⟨_, Relation.ReflTransGen.refl,
      Relation.TransGen.tail (Relation.TransGen.single hwaitmem) hholdmem⟩
  have hbt : b = true := hiff.mpr hcycle
  subst hbt
  refine ⟨?_, ?_, _, hgraph, ?_⟩
  · unfold wait_edges
    rw [hfindeq, hfindeq, hgraph]
    simp only [hT2, hM2, or_self, if_false, edge_count]
    exact List.count_pos_iff.mpr hwaitmem
  · unfold hold_edges
    rw [hfindeq, hfindeq, hgraph]
    simp only [hT2, hM2, or_self, if_false, edge_count]
    exact hholdcount
  · rw [hfindeq]
    exact hb

/-- C35 fails in the code on a full registry: the detector is ready and thread 1
holds the mutex 4096 (hold edge from slot 99 to slot 0), both vertices are
registered, yet `before_lock(1, 4096)` leaves the state as it is, because
`get_or_create_vertex` returns -1 at its capacity test before it looks the
thread up: no wait edge is stored and `search_cycle` from the vertex of the
thread returns false. -/
theorem relock_full_registry_unreported :
    Ready full_registry_holding ∧ hold_edges full_registry_holding 1 4096 = 1 ∧
    find_vertex full_registry_holding (thread_data 1) = 0 ∧
    find_vertex full_registry_holding (mutex_data 4096) = 99 ∧
    before_lock full_registry_holding 1 4096 = full_registry_holding ∧
    wait_edges (before_lock full_registry_holding 1 4096) 1 4096 = 0 ∧
    ∃ g, (before_lock full_registry_holding 1 4096).g_graph = some g ∧
      search_cycle g 0 = .ok false := by
  have hsame : before_lock full_registry_holding 1 4096 = full_registry_holding :=
    before_lock_full full_registry_holding 1 4096 (le_refl _)
  rw [hsame]
  refine ⟨ready_full_registry_holding, by decide, by decide, by decide, rfl, by decide,
    _, rfl, by decide⟩

/-! ## Every vertex is entered at most once -/

theorem loop_forget (recur : Int → List Bool → List Bool → SearchResult)
    (recur_t : Int → List Bool → List Bool → TracedResult)
    (h : ∀ v vis stk, forget_calls (recur_t v vis stk) = recur v vis stk) (l : List Int) :
    ∀ vis stk, forget_calls (search_cycle_loop_traced recur_t l vis stk) =
      search_cycle_loop recur l vis stk := by
  induction l with
  | nil => intro vis stk; rfl
  | cons adj rest ih =>
    intro vis stk
    unfold search_cycle_loop_traced search_cycle_loop
    cases hread : read_flag vis adj with
    | none => rfl
    | some b =>
      cases b with
      | false =>
        simp only
        rw [← h adj vis stk]
        cases hrec : recur_t adj vis stk with
        | error e => rfl
        | ok res =>
          obtain ⟨⟨b1, v1, s1⟩, calls⟩ := res
          cases b1 with
          | true => rfl
          | false =>
            simp only [forget_calls]
            rw [← ih v1 s1]
            cases hrest : search_cycle_loop_traced recur_t rest v1 s1 with
            | error e => rfl
            | ok res2 => rfl
      | true =>
        simp only
        cases hstk : read_flag stk adj with
        | none => rfl
        | some b2 =>
          cases b2 with
          | true => rfl
          | false => exact ih vis stk

theorem util_forget {α : Type} (g : DirectedGraph α) (fuel : Nat) :
    ∀ v vis stk, forget_calls (search_cycle_util_traced g fuel v vis stk) =
      search_cycle_util g fuel v vis stk := by
  induction fuel with
  | zero => intro v vis stk; rfl
  | succ fuel ih =>
    intro v vis stk
    unfold search_cycle_util_traced search_cycle_util
    by_cases hge : v ≥ (g.num_vertices : Int)
    · rw [if_pos hge, if_pos hge]
      rfl
    · rw [if_neg hge, if_neg hge]
      by_cases hneg : v < 0
      · rw [if_pos hneg, if_pos hneg]
        rfl
      · rw [if_neg hneg, if_neg hneg]
        cases hcurr : g.adj_lists[v.toNat]? with
        | none => rfl
        | some curr =>
          simp only
          cases hw1 : write_flag vis v true with
          | none => rfl
          | some vis1 =>
            simp only
            cases hw2 : write_flag stk v true with
            | none => rfl
            | some stk1 =>
              simp only
              rw [← loop_forget _ _ ih curr vis1 stk1]
              cases hloop : search_cycle_loop_traced (search_cycle_util_traced g fuel) curr
                  vis1 stk1 with
              | error e => rfl
              | ok res =>
                obtain ⟨⟨b1, v2, s2⟩, calls⟩ := res
                cases b1 with
                | true => rfl
                | false =>
                  simp only [forget_calls]
                  cases hw3 : write_flag s2 v false with
                  | none => rfl
                  | some stk3 => rfl

theorem entered_refl (vis : List Bool) : Entered vis vis [] :=
  ⟨rfl, fun _ h => h, List.nodup_nil, fun _ h => absurd h (List.not_mem_nil _)⟩

theorem entered_append (vis vis1 vis2 : List Bool) (c1 c2 : List Int)
    (h1 : Entered vis vis1 c1) (h2 : Entered vis1 vis2 c2) : Entered vis vis2 (c1 ++ c2) := by
  obtain ⟨hl1, hm1, hn1, he1⟩ := h1
  obtain ⟨hl2, hm2, hn2, he2⟩ := h2
  refine ⟨hl2.trans hl1, fun i hi => hm2 i (hm1 i hi), ?_, ?_⟩
  · rw [List.nodup_append]
    refine ⟨hn1, hn2, ?_⟩
    intro x hx1 hx2
    exact (he2 x hx2).1 (he1 x hx1).2
  · intro x hx
    rcases List.mem_append.mp hx with h | h
    · exact ⟨(he1 x h).1, hm2 x (he1 x h).2⟩
    · exact ⟨fun hv => (he2 x h).1 (hm1 x hv), (he2 x h).2⟩

theorem loop_entered (n : Nat) (recur_t : Int → List Bool → List Bool → TracedResult)
    (hrec : ∀ v vis stk r calls, vis.length = n → read_flag vis v = some false →
      recur_t v vis stk = .ok (r, calls) → Entered vis r.2.1 calls) (l : List Int) :
    ∀ vis stk r calls, vis.length = n →
      search_cycle_loop_traced recur_t l vis stk = .ok (r, calls) →
      Entered vis r.2.1 calls := by
  induction l with
  | nil =>
    intro vis stk r calls _ hrun
    simp only [search_cycle_loop_traced, Except.ok.injEq, Prod.mk.injEq] at hrun
    obtain ⟨hr, hc⟩ := hrun
    subst hr hc
    exact entered_refl vis
  | cons adj rest ih =>
    intro vis stk r calls hlen hrun
    unfold search_cycle_loop_traced at hrun
    cases hread : read_flag vis adj with
    | none => rw [hread] at hrun; cases hrun
    | some b =>
      rw [hread] at hrun
      cases b with
      | false =>
        simp only at hrun
        cases hcall : recur_t adj vis stk with
        | error e => rw [hcall] at hrun; cases hrun
        | ok res =>
          obtain ⟨⟨b1, v1, s1⟩, c1⟩ := res
          rw [hcall] at hrun
          have hent1 := hrec adj vis stk (b1, v1, s1) c1 hlen hread hcall
          cases b1 with
          | true =>
            simp only [Except.ok.injEq, Prod.mk.injEq] at hrun
            obtain ⟨hr, hc⟩ := hrun
            subst hr hc
            exact hent1
          | false =>
            simp only at hrun
            cases hrest : search_cycle_loop_traced recur_t rest v1 s1 with
            | error e => rw [hrest] at hrun; cases hrun
            | ok res2 =>
              obtain ⟨r2, c2⟩ := res2
              rw [hrest] at hrun
              simp only [Except.ok.injEq, Prod.mk.injEq] at hrun
              obtain ⟨hr, hc⟩ := hrun
              subst hr hc
              have hent2 := ih v1 s1 r2 c2 (hent1.1.trans hlen) hrest
              exact entered_append vis v1 r2.2.1 c1 c2 hent1 hent2
      | true =>
        simp only at hrun
        cases hstk : read_flag stk adj with
        | none => rw [hstk] at hrun; cases hrun
        | some b2 =>
          rw [hstk] at hrun
          cases b2 with
          | true =>
            simp only [Except.ok.injEq, Prod.mk.injEq] at hrun
            obtain ⟨hr, hc⟩ := hrun
            subst hr hc
            exact entered_refl vis
          | false => exact ih vis stk r calls hlen hrun

theorem entered_cons (vis vis1 vis2 : List Bool) (v : Int) (calls : List Int)
    (hfresh : read_flag vis v = some false)
    (hset : vis1 = vis.set v.toNat true) (h : Entered vis1 vis2 calls) :
    Entered vis vis2 (v :: calls) := by
  obtain ⟨hv0, hv1⟩ := read_flag_range vis v false hfresh
  obtain ⟨hl, hm, hn, he⟩ := h
  have hstep : ∀ i, read_flag vis i = some true → read_flag vis1 i = some true := by
    intro i hi
    obtain ⟨hi0, _⟩ := read_flag_range vis i true hi
    rw [hset, read_flag_set vis v i true hv0 hv1 hi0]
    by_cases hiv : i = v
    · rw [if_pos hiv]
    · rw [if_neg hiv]
      exact hi
  have hself : read_flag vis1 v = some true := by
    rw [hset, read_flag_set vis v v true hv0 hv1 hv0, if_pos rfl]
  refine ⟨?_, fun i hi => hm i (hstep i hi), ?_, ?_⟩
  · rw [hl, hset, List.length_set]
  · rw [List.nodup_cons]
    exact ⟨fun hmem => (he v hmem).1 hself, hn⟩
  · intro x hx
    rcases List.mem_cons.mp hx with h | h
    · subst h
      exact ⟨by rw [hfresh]; simp, hm x hself⟩
    · exact ⟨fun hv => (he x h).1 (hstep x hv), (he x h).2⟩

theorem util_entered {α : Type} (g : DirectedGraph α) (fuel : Nat) :
    ∀ v vis stk r calls, vis.length = g.num_vertices → read_flag vis v = some false →
      search_cycle_util_traced g fuel v vis stk = .ok (r, calls) →
      Entered vis r.2.1 calls := by
  induction fuel with
  | zero =>
    intro v vis stk r calls _ _ hrun
    simp [search_cycle_util_traced] at hrun
  | succ fuel ih =>
    intro v vis stk r calls hlen hfresh hrun
    obtain ⟨hv0, hv1⟩ := read_flag_range vis v false hfresh
    unfold search_cycle_util_traced at hrun
    rw [if_neg (by omega), if_neg (by omega)] at hrun
    cases hcurr : g.adj_lists[v.toNat]? with
    | none => rw [hcurr] at hrun; cases hrun
    | some curr =>
      rw [hcurr, write_flag_of_lt vis v true hv0 hv1] at hrun
      simp only at hrun
      cases hw2 : write_flag stk v true with
      | none => rw [hw2] at hrun; cases hrun
      | some stk1 =>
        rw [hw2] at hrun
        simp only at hrun
        cases hloop : search_cycle_loop_traced (search_cycle_util_traced g fuel) curr
            (vis.set v.toNat true) stk1 with
        | error e => rw [hloop] at hrun; cases hrun
        | ok res =>
          obtain ⟨⟨b1, v2, s2⟩, c1⟩ := res
          rw [hloop] at hrun
          have hent := loop_entered g.num_vertices (search_cycle_util_traced g fuel) ih curr
            (vis.set v.toNat true) stk1 (b1, v2, s2) c1 (by rw [List.length_set]; exact hlen)
            hloop
          have hall := entered_cons vis (vis.set v.toNat true) v2 v c1 hfresh rfl hent
          cases b1 with
          | true =>
            simp only [Except.ok.injEq, Prod.mk.injEq] at hrun
            obtain ⟨hr, hc⟩ := hrun
            subst hr hc
            exact hall
          | false =>
            simp only at hrun
            cases hw3 : write_flag s2 v false with
            | none => rw [hw3] at hrun; cases hrun
            | some stk3 =>
              rw [hw3] at hrun
              simp only [Except.ok.injEq, Prod.mk.injEq] at hrun
              obtain ⟨hr, hc⟩ := hrun
              subst hr hc
              exact hall

theorem nodup_in_range_length (calls : List Int) (n : Nat) (hnodup : calls.Nodup)
    (hrange : ∀ v ∈ calls, 0 ≤ v ∧ v < (n : Int)) : calls.length ≤ n := by
  have hmap : (calls.map Int.toNat).Nodup := by
    apply List.Nodup.map_on _ hnodup
    intro x hx y hy hxy
    have := (hrange x hx).1
    have := (hrange y hy).1
    omega
  have hsub : calls.map Int.toNat ⊆ List.range n := by
    intro x hx
    obtain ⟨v, hv, rfl⟩ := List.mem_map.mp hx
    have := hrange v hv
    rw [List.mem_range]
    omega
  have := (List.subperm_of_subset hmap hsub).length_le
  simpa using this

theorem util_traced_head {α : Type} (g : DirectedGraph α) (fuel : Nat) (v : Int)
    (vis stk : List Bool) (r : Bool × List Bool × List Bool) (calls : List Int)
    (hrun : search_cycle_util_traced g fuel v vis stk = .ok (r, calls)) :
    calls.head? = some v := by
  cases fuel with
  | zero => simp [search_cycle_util_traced] at hrun
  | succ fuel =>
    unfold search_cycle_util_traced at hrun
    repeat' split at hrun
    all_goals (cases hrun <;> rfl)

/-- C34: on every graph whose arrays have `num_vertices` entries and whose stored
destinations are in range, with cycles, self-loops and duplicate edges allowed,
and for every start vertex in range, `search_cycle` returns a verdict, and in
its run no vertex is the argument of two calls of `search_cycle_util`, so there
are at most `num_vertices` calls: the first call is the one for the start. -/
theorem search_cycle_enters_once {α : Type} (g : DirectedGraph α) (hshape : g.Shaped)
    (hdest : g.DestsInRange) (s : Int) (h0 : 0 ≤ s) (h1 : s < (g.num_vertices : Int)) :
    ∃ b vis stk calls,
      search_cycle_util_traced g g.num_vertices s (List.replicate g.num_vertices false)
        (List.replicate g.num_vertices false) = .ok ((b, vis, stk), calls) ∧
      search_cycle g s = .ok b ∧ calls.Nodup ∧ calls.length ≤ g.num_vertices ∧
      calls.head? = some s := by
  obtain ⟨b, hb, _⟩ := search_cycle_verdict g hshape hdest s h0 h1
  obtain ⟨vis, stk, hutil⟩ := search_cycle_util_of_ok g s h1 b hb
  have hforget := util_forget g g.num_vertices s (List.replicate g.num_vertices false)
    (List.replicate g.num_vertices false)
  rw [hutil] at hforget
  cases htr : search_cycle_util_traced g g.num_vertices s
      (List.replicate g.num_vertices false) (List.replicate g.num_vertices false) with
  | error e => rw [htr] at hforget; cases hforget
  | ok res =>
    obtain ⟨r, calls⟩ := res
    rw [htr] at hforget
    simp only [forget_calls, Except.ok.injEq] at hforget
    subst hforget
    obtain ⟨hl, _, hn, he⟩ := util_entered g g.num_vertices s
      (List.replicate g.num_vertices false) (List.replicate g.num_vertices false)
      (b, vis, stk) calls (by simp) (read_flag_replicate _ false s h0 h1) htr
    refine ⟨b, vis, stk, calls, rfl, hb, hn, nodup_in_range_length calls _ hn ?_,
      util_traced_head g _ s _ _ _ calls htr⟩
    intro v hv
    have hr := read_flag_range vis v true (he v hv).2
    have hlen : vis.length = g.num_vertices := by simpa using hl
    omega

theorem search_cycle_enters_once_witness :
    ∃ b vis stk calls,
      search_cycle_util_traced diamond_graph diamond_graph.num_vertices 0
        (List.replicate diamond_graph.num_vertices false)
        (List.replicate diamond_graph.num_vertices false) = .ok ((b, vis, stk), calls) ∧
      search_cycle diamond_graph 0 = .ok b ∧ calls.Nodup ∧
      calls.length ≤ diamond_graph.num_vertices ∧ calls.head? = some 0 :=
  search_cycle_enters_once diamond_graph (by decide) (by decide) 0 (by decide) (by decide)

theorem traced_examples :
    search_cycle_util_traced diamond_graph 4 0 (List.replicate 4 false)
      (List.replicate 4 false) =
      .ok ((false, [true, true, true, true], [false, false, false, false]), [0, 2, 3, 1]) ∧
    search_cycle_util_traced tangled_graph 3 0 (List.replicate 3 false)
      (List.replicate 3 false) =
      .ok ((true, [true, true, true], [true, true, true]), [0, 1, 2]) := by
  decide

end DeadLock

namespace RingBuffer

/-! ## The ring buffer behaves as a bounded queue -/

theorem steps_pow_two (k : Nat) : Steps (2 ^ k) := by
  intro x hx
  rw [Nat.and_pow_two_sub_one_eq_mod]
  by_cases h : x + 1 = 2 ^ k
  · rw [if_pos h, h, Nat.mod_self]
  · rw [if_neg h, Nat.mod_eq_of_lt (by omega)]

theorem holds_create (α : Type) (Capacity : Nat) (hpos : 0 < Capacity) :
    Holds (create α Capacity) ([] : List α) := by
  refine ⟨hpos, hpos, by simp [create], by simp [create, size], ?_⟩
  intro j hj
  simp at hj

theorem getD_set_other {α : Type} (l : List (Option α)) (i j : Nat) (x : Option α)
    (hne : j ≠ i) : (l.set i x).getD j none = l.getD j none := by
  simp [List.getD_eq_getElem?_getD, List.getElem?_set, hne.symm]

theorem getD_set_same {α : Type} (l : List (Option α)) (i : Nat) (x : Option α)
    (hi : i < l.length) : (l.set i x).getD i none = x := by
  simp [List.getD_eq_getElem?_getD, List.getElem?_set, hi]

theorem push_full {α : Type} {Capacity : Nat} (hsteps : Steps Capacity)
    (rb : RingBuffer α Capacity) (queue : List α) (h : Holds rb queue) (value : α)
    (hfull : queue.length = Capacity - 1) : rb.push value = (false, rb) := by
  obtain ⟨hr, hw, hlen, hsize, _⟩ := h
  have hnext := hsteps rb.write_ hw
  unfold push
  simp only
  rw [hnext]
  unfold size at hsize
  simp only at hsize
  have : (if rb.write_ + 1 = Capacity then 0 else rb.write_ + 1) = rb.read_ := by
    split_ifs at hsize ⊢ <;> omega
  rw [if_pos this]

theorem push_room {α : Type} {Capacity : Nat} (hsteps : Steps Capacity)
    (rb : RingBuffer α Capacity) (queue : List α) (h : Holds rb queue) (value : α)
    (hroom : queue.length ≠ Capacity - 1) :
    (rb.push value).1 = true ∧ Holds (rb.push value).2 (queue ++ [value]) := by
  obtain ⟨hr, hw, hlen, hsize, hstored⟩ := h
  have hnext := hsteps rb.write_ hw
  unfold size at hsize
  simp only at hsize
  have hne : ¬ (if rb.write_ + 1 = Capacity then 0 else rb.write_ + 1) = rb.read_ := by
    split_ifs at hsize ⊢ <;> omega
  have heq : rb.push value = (true, { rb with
      buffer_ := rb.buffer_.set rb.write_ (some value),
      write_ := if rb.write_ + 1 = Capacity then 0 else rb.write_ + 1 }) := by
    unfold push
    simp only
    rw [hnext, if_neg hne]
  rw [heq]
  refine ⟨rfl, ?_, ?_, ?_, ?_, ?_⟩
  · exact hr
  · show (if rb.write_ + 1 = Capacity then 0 else rb.write_ + 1) < Capacity
    split_ifs <;> omega
  · simp [hlen]
  · simp only [List.length_append, List.length_singleton, size]
    split_ifs at hsize hne ⊢ <;> omega
  · intro j hj
    simp only [List.length_append, List.length_singleton] at hj
    by_cases hjq : j < queue.length
    · have hidx : slot_index Capacity rb.read_ j ≠ rb.write_ := by
        unfold slot_index
        split_ifs at hsize ⊢ <;> omega
      show (rb.buffer_.set rb.write_ (some value)).getD (slot_index Capacity rb.read_ j) none = _
      rw [getD_set_other _ _ _ _ hidx, hstored j hjq, List.getElem?_append_left hjq]
    · have hjeq : j = queue.length := by omega
      have hidx : slot_index Capacity rb.read_ j = rb.write_ := by
        unfold slot_index
        split_ifs at hsize ⊢ <;> omega
      show (rb.buffer_.set rb.write_ (some value)).getD (slot_index Capacity rb.read_ j) none = _
      rw [hidx, getD_set_same _ _ _ (by omega), hjeq]
      simp

theorem pop_empty {α : Type} {Capacity : Nat} (rb : RingBuffer α Capacity)
    (h : Holds rb ([] : List α)) (value : α) : rb.pop value = (false, value, rb) := by
  obtain ⟨hr, hw, hlen, hsize, _⟩ := h
  unfold size at hsize
  simp only [List.length_nil] at hsize
  have : rb.read_ = rb.write_ := by
    split_ifs at hsize <;> omega
  unfold pop
  simp only
  rw [if_pos this]

theorem pop_oldest {α : Type} {Capacity : Nat} (hsteps : Steps Capacity)
    (rb : RingBuffer α Capacity) (oldest : α) (rest : List α)
    (h : Holds rb (oldest :: rest)) (value : α) :
    (rb.pop value).1 = true ∧ (rb.pop value).2.1 = oldest ∧ Holds (rb.pop value).2.2 rest := by
  obtain ⟨hr, hw, hlen, hsize, hstored⟩ := h
  have hnext := hsteps rb.read_ hr
  unfold size at hsize
  simp only [List.length_cons] at hsize
  have hne : ¬ rb.read_ = rb.write_ := by
    split_ifs at hsize <;> omega
  have hfirst : rb.buffer_.getD rb.read_ none = some oldest := by
    have := hstored 0 (by simp)
    have hidx : slot_index Capacity rb.read_ 0 = rb.read_ := by
      unfold slot_index
      split_ifs <;> omega
    rw [hidx] at this
    simpa using this
  have heq : rb.pop value = (true, oldest, { rb with
      buffer_ := rb.buffer_.set rb.read_ none,
      read_ := if rb.read_ + 1 = Capacity then 0 else rb.read_ + 1 }) := by
    unfold pop
    simp only
    rw [if_neg hne, hfirst, hnext]
  rw [heq]
  refine ⟨rfl, rfl, ?_, ?_, ?_, ?_, ?_⟩
  · show (if rb.read_ + 1 = Capacity then 0 else rb.read_ + 1) < Capacity
    split_ifs <;> omega
  · exact hw
  · simp [hlen]
  · simp only [size]
    split_ifs at hsize ⊢ <;> omega
  · intro j hj
    have hidx : slot_index Capacity (if rb.read_ + 1 = Capacity then 0 else rb.read_ + 1) j =
        slot_index Capacity rb.read_ (j + 1) := by
      unfold slot_index
      split_ifs at hsize ⊢ <;> omega
    have hother : slot_index Capacity rb.read_ (j + 1) ≠ rb.read_ := by
      unfold slot_index
      split_ifs at hsize ⊢ <;> omega
    show (rb.buffer_.set rb.read_ none).getD (slot_index Capacity
      (if rb.read_ + 1 = Capacity then 0 else rb.read_ + 1) j) none = _
    rw [hidx, getD_set_other _ _ _ _ hother, hstored (j + 1) (by simpa using hj)]
    simp

theorem call_refines {α : Type} {Capacity : Nat} (hsteps : Steps Capacity)
    (rb : RingBuffer α Capacity) (queue : List α) (h : Holds rb queue) (c : Call α) :
    (rb.call c).1 = (fifo_call (Capacity - 1) queue c).1 ∧
    Holds (rb.call c).2 (fifo_call (Capacity - 1) queue c).2 := by
  cases c with
  | push value =>
    simp only [call, fifo_call]
    by_cases hfull : queue.length = Capacity - 1
    · rw [if_pos hfull, push_full hsteps rb queue h value hfull]
      exact ⟨rfl, h⟩
    · rw [if_neg hfull]
      obtain ⟨h1, h2⟩ := push_room hsteps rb queue h value hfull
      exact ⟨by rw [h1], h2⟩
  | pop value =>
    cases queue with
    | nil =>
      simp only [call, fifo_call]
      rw [pop_empty rb h value]
      exact ⟨rfl, h⟩
    | cons oldest rest =>
      simp only [call, fifo_call]
      obtain ⟨h1, h2, h3⟩ := pop_oldest hsteps rb oldest rest h value
      exact ⟨by rw [h1, h2], h3⟩

theorem run_refines {α : Type} {Capacity : Nat} (hsteps : Steps Capacity)
    (cs : List (Call α)) :
    ∀ (rb : RingBuffer α Capacity) (queue : List α), Holds rb queue →
      (rb.run cs).1 = (fifo_run (Capacity - 1) queue cs).1 ∧
      Holds (rb.run cs).2 (fifo_run (Capacity - 1) queue cs).2 := by
  induction cs with
  | nil => intro rb queue h; exact ⟨rfl, h⟩
  | cons c cs ih =>
    intro rb queue h
    obtain ⟨h1, h2⟩ := call_refines hsteps rb queue h c
    obtain ⟨h3, h4⟩ := ih _ _ h2
    unfold run fifo_run
    exact ⟨by rw [h1, h3], h4⟩

theorem wrap_around_outcomes :
    ((create Nat 4).run wrap_around_calls).1 =
      [.pushed true, .pushed true, .pushed true, .pushed false, .popped true 1, .popped true 2,
       .pushed true, .pushed true, .popped true 3, .popped true 4, .popped true 5,
       .popped false 0] := by
  decide

/-- C28: in single-threaded use of a ring buffer whose capacity is a power of
two, on every sequence of calls of `push` and `pop` from the constructed buffer,
the flags and the values given back are those of a first-in first-out queue:
a successful `pop` gives the oldest value pushed with success and not yet popped,
whatever the positions of the indices in the storage, and `pop` returns false,
its output argument left as it was, exactly when no such value remains. -/
theorem pops_in_push_order (α : Type) (k : Nat) (cs : List (Call α)) :
    ((create α (2 ^ k)).run cs).1 = (fifo_run (2 ^ k - 1) ([] : List α) cs).1 :=
  (run_refines (steps_pow_two k) cs _ _ (holds_create α (2 ^ k) (Nat.two_pow_pos k))).1

/-! ## The size of the ring buffer -/

theorem fifo_run_counts {α : Type} (limit : Nat) (cs : List (Call α)) :
    ∀ queue : List α,
      (fifo_run limit queue cs).2.length + successful_pops (fifo_run limit queue cs).1 =
        queue.length + successful_pushes (fifo_run limit queue cs).1 := by
  induction cs with
  | nil => intro queue; simp [fifo_run, successful_pops, successful_pushes]
  | cons c cs ih =>
    intro queue
    have hrest := ih (fifo_call limit queue c).2
    simp only [successful_pops, successful_pushes] at hrest ⊢
    cases c with
    | push value =>
      by_cases hfull : queue.length = limit
      · simp only [fifo_run, fifo_call, if_pos hfull, List.filter_cons] at hrest ⊢
        simpa using hrest
      · simp only [fifo_run, fifo_call, if_neg hfull, List.filter_cons, List.length_append,
          List.length_singleton] at hrest ⊢
        simp only [if_true, List.length_cons] at hrest ⊢
        simp at hrest ⊢
        omega
    | pop value =>
      cases queue with
      | nil =>
        simp only [fifo_run, fifo_call, List.filter_cons] at hrest ⊢
        simpa using hrest
      | cons oldest rest =>
        simp only [fifo_run, fifo_call, List.filter_cons, List.length_cons] at hrest ⊢
        simp at hrest ⊢
        omega

theorem holds_size_le {α : Type} {Capacity : Nat} (rb : RingBuffer α Capacity)
    (queue : List α) (h : Holds rb queue) : rb.size ≤ Capacity - 1 := by
  obtain ⟨hr, hw, _, _, _⟩ := h
  unfold size
  simp only
  split_ifs <;> omega

theorem push_failed_same {α : Type} {Capacity : Nat} (rb : RingBuffer α Capacity) (value : α)
    (hfail : (rb.push value).1 = false) : (rb.push value).2 = rb := by
  unfold push at hfail ⊢
  simp only at hfail ⊢
  by_cases hnext : (rb.write_ + 1) &&& (Capacity - 1) = rb.read_
  · rw [if_pos hnext]
  · rw [if_neg hnext] at hfail
    cases hfail

/-- C29: in single-threaded use of a ring buffer whose capacity is a power of
two, in every state reached from the constructed buffer by calls of `push` and
`pop`: `size()` is the number of successful pushes minus the number of
successful pops and is at most `Capacity - 1`; `push` returns false exactly when
`size()` is `Capacity - 1`; and a `push` that returns false leaves the indices
and the storage as they were. -/
theorem size_counts_pushes_minus_pops (α : Type) (k : Nat) (cs : List (Call α)) (value : α) :
    ((create α (2 ^ k)).run cs).2.size + successful_pops ((create α (2 ^ k)).run cs).1 =
      successful_pushes ((create α (2 ^ k)).run cs).1 ∧
    ((create α (2 ^ k)).run cs).2.size ≤ 2 ^ k - 1 ∧
    ((((create α (2 ^ k)).run cs).2.push value).1 = false ↔
      ((create α (2 ^ k)).run cs).2.size = 2 ^ k - 1) ∧
    ((((create α (2 ^ k)).run cs).2.push value).1 = false →
      (((create α (2 ^ k)).run cs).2.push value).2 = ((create α (2 ^ k)).run cs).2) := by
  obtain ⟨hout, hholds⟩ := run_refines (steps_pow_two k) cs _ _
    (holds_create α (2 ^ k) (Nat.two_pow_pos k))
  have hcount := fifo_run_counts (2 ^ k - 1) cs ([] : List α)
  have hlen := hholds.length_eq
  refine ⟨?_, holds_size_le _ _ hholds, ?_, push_failed_same _ value⟩
  · rw [hout, ← hlen, hcount]
    simp
  · rw [← hlen]
    constructor
    · intro hfail
      by_contra hroom
      have := (push_room (steps_pow_two k) _ _ hholds value hroom).1
      rw [this] at hfail
      cases hfail
    · intro hfull
      rw [push_full (steps_pow_two k) _ _ hholds value hfull]

end RingBuffer

namespace MessageBuffer

/-! ## A write appends to the active region -/

theorem sizes_of_ordered (mb : MessageBuffer) (hord : mb.Ordered)
    (hlen : mb.buffer_.length < SIZE_MODULUS) :
    mb.get_active_size = mb.wpos_ - mb.rpos_ ∧
    mb.get_free_size = mb.buffer_.length - mb.wpos_ := by
  obtain ⟨h1, h2⟩ := hord
  unfold get_active_size get_free_size
  simp only [SIZE_MODULUS] at hlen ⊢
  constructor <;> omega

theorem take_drop_append (buffer extra : List Nat) (r n : Nat) (h : r + n ≤ buffer.length) :
    ((buffer ++ extra).drop r).take n = (buffer.drop r).take n := by
  rw [List.drop_append_of_le_length (by omega), List.take_append_of_le_length]
  rw [List.length_drop]
  omega

theorem resize_grow (buffer : List Nat) (new_size : Nat) (h : buffer.length ≤ new_size) :
    resize buffer new_size = buffer ++ List.replicate (new_size - buffer.length) 0 ∧
    (resize buffer new_size).length = new_size := by
  unfold resize
  rw [List.take_of_length_le h]
  refine ⟨rfl, ?_⟩
  simp
  omega

theorem copy_in_appends (buffer data : List Nat) (r w : Nat) (hrw : r ≤ w)
    (hfit : w + data.length ≤ buffer.length) :
    ∃ copied, copy_in buffer w data data.length = some copied ∧
      copied.length = buffer.length ∧
      (copied.drop r).take (w + data.length - r) = (buffer.drop r).take (w - r) ++ data := by
  refine ⟨buffer.take w ++ data.take data.length ++ buffer.drop (w + data.length), ?_, ?_, ?_⟩
  · unfold copy_in
    rw [if_pos ⟨le_refl _, hfit⟩]
  · simp
    omega
  · rw [List.take_length, List.append_assoc]
    have hlen : (buffer.take w).length = w := by
      rw [List.length_take]
      omega
    rw [List.drop_append_of_le_length (by omega), ← List.append_assoc,
      List.take_append_of_le_length (by simp; omega)]
    have hfront : (List.drop r (List.take w buffer) ++ data).length = w + data.length - r := by
      simp
      omega
    rw [← hfront, List.take_length, List.drop_take]

theorem normalize_keeps (mb : MessageBuffer) (hord : mb.Ordered)
    (hlen : mb.buffer_.length < SIZE_MODULUS) :
    ∃ mb1, mb.normalize = some mb1 ∧ mb1.Ordered ∧
      mb1.buffer_.length = mb.buffer_.length ∧
      mb1.wpos_ - mb1.rpos_ = mb.wpos_ - mb.rpos_ ∧ mb1.wpos_ ≤ mb.wpos_ ∧
      (mb1.buffer_.drop mb1.rpos_).take (mb1.wpos_ - mb1.rpos_) =
        (mb.buffer_.drop mb.rpos_).take (mb.wpos_ - mb.rpos_) := by
  obtain ⟨hact, _⟩ := sizes_of_ordered mb hord hlen
  obtain ⟨h1, h2⟩ := hord
  unfold normalize
  by_cases hskip : mb.rpos_ = 0 ∨ mb.get_active_size = 0
  · rw [if_pos hskip]
    exact ⟨mb, rfl, ⟨h1, h2⟩, rfl, rfl, le_refl _, rfl⟩
  · rw [if_neg hskip, if_neg (by omega)]
    have hmove : move_to_front mb.buffer_ mb.rpos_ mb.get_active_size =
        some ((mb.buffer_.drop mb.rpos_).take (mb.wpos_ - mb.rpos_) ++
          mb.buffer_.drop (mb.wpos_ - mb.rpos_)) := by
      unfold move_to_front
      rw [hact, if_pos (by omega)]
    rw [hmove]
    have hw : (mb.wpos_ + SIZE_MODULUS - mb.rpos_) % SIZE_MODULUS = mb.wpos_ - mb.rpos_ := hact
    simp only [hw]
    have hfront : ((mb.buffer_.drop mb.rpos_).take (mb.wpos_ - mb.rpos_)).length =
        mb.wpos_ - mb.rpos_ := by
      rw [List.length_take, List.length_drop]
      omega
    refine ⟨_, rfl, ⟨Nat.zero_le _, ?_⟩, ?_, rfl, by simp, ?_⟩
    · simp only [List.length_append, hfront, List.length_drop]
      omega
    · simp only [List.length_append, hfront, List.length_drop]
      omega
    · simp only [List.drop_zero, Nat.sub_zero]
      rw [List.take_append_of_le_length (by omega), List.take_take, Nat.min_self]

theorem ensure_free_space_keeps (mb : MessageBuffer) (hord : mb.Ordered) (size : Nat)
    (hpos : 0 < size) (hfit : mb.buffer_.length + size < SIZE_MODULUS) :
    ∃ mb1, mb.ensure_free_space size = some mb1 ∧ mb1.rpos_ ≤ mb1.wpos_ ∧
      mb1.wpos_ + size ≤ mb1.buffer_.length ∧ mb1.buffer_.length < SIZE_MODULUS ∧
      mb.buffer_.length ≤ mb1.buffer_.length ∧
      mb1.wpos_ - mb1.rpos_ = mb.wpos_ - mb.rpos_ ∧
      (mb1.buffer_.drop mb1.rpos_).take (mb1.wpos_ - mb1.rpos_) =
        (mb.buffer_.drop mb.rpos_).take (mb.wpos_ - mb.rpos_) := by
  have hlen : mb.buffer_.length < SIZE_MODULUS := by omega
  obtain ⟨_, hfree⟩ := sizes_of_ordered mb hord hlen
  unfold ensure_free_space
  rw [if_neg (by omega)]
  by_cases hroom : mb.get_free_size ≥ size
  · rw [if_pos hroom]
    rw [hfree] at hroom
    exact ⟨mb, rfl, hord.1, by have := hord.2; omega, hlen, le_refl _, rfl, rfl⟩
  · rw [if_neg hroom]
    obtain ⟨mb1, hnorm, hord1, hlen1, hact1, hw1, hreg1⟩ := normalize_keeps mb hord hlen
    rw [hnorm]
    simp only
    obtain ⟨_, hfree1⟩ := sizes_of_ordered mb1 hord1 (by omega)
    by_cases hsmall : mb1.get_free_size < size
    · rw [if_pos hsmall]
      have hsum : (mb1.buffer_.length + size) % SIZE_MODULUS = mb1.buffer_.length + size :=
        Nat.mod_eq_of_lt (by omega)
      have hhalf : mb1.buffer_.length * 3 % SIZE_MODULUS / 2 < SIZE_MODULUS := by
        have := Nat.mod_lt (mb1.buffer_.length * 3) (show 0 < SIZE_MODULUS by decide)
        omega
      have hge : mb1.buffer_.length + size ≤ max ((mb1.buffer_.length + size) % SIZE_MODULUS)
          (mb1.buffer_.length * 3 % SIZE_MODULUS / 2) := by
        rw [hsum]
        exact le_max_left _ _
      have hlt : max ((mb1.buffer_.length + size) % SIZE_MODULUS)
          (mb1.buffer_.length * 3 % SIZE_MODULUS / 2) < SIZE_MODULUS := by
        rw [hsum]
        exact max_lt (by omega) hhalf
      obtain ⟨hres, hreslen⟩ := resize_grow mb1.buffer_ _ (le_trans (Nat.le_add_right _ _) hge)
      refine ⟨_, rfl, hord1.1, ?_, ?_, ?_, hact1, ?_⟩
      · simp only [hreslen]
        have := hord1.2
        omega
      · simp only [hreslen]
        exact hlt
      · simp only [hreslen]
        omega
      · simp only [hres]
        rw [take_drop_append _ _ _ _ (by have := hord1.1; have := hord1.2; omega)]
        exact hreg1
    · rw [if_neg hsmall]
      rw [hfree1] at hsmall
      exact ⟨mb1, rfl, hord1.1, by have := hord1.2; omega, by omega, by omega, hact1, hreg1⟩

/-- C30: for every buffer whose positions are ordered and inside the vector and
every non-null `data` of `n > 0` bytes (the vector and the data are two arrays
of one address space, so their sizes add up to less than `2 ^ 64`),
`write(data, n)` returns, and afterwards the active region is the previous
active region followed by the bytes of `data`, `get_active_size()` has grown by
`n`, the vector is not shorter than before, and the positions are ordered
again; whether the write compacts the vector, enlarges it, or neither. -/
theorem write_appends (mb : MessageBuffer) (data : List Nat) (hord : mb.Ordered)
    (hpos : 0 < data.length) (hfit : mb.buffer_.length + data.length < SIZE_MODULUS) :
    ∃ mb1, mb.write (some data) data.length = some mb1 ∧
      mb1.active = mb.active ++ data ∧
      mb1.get_active_size = mb.get_active_size + data.length ∧
      mb.buffer_.length ≤ mb1.buffer_.length ∧ mb1.Ordered := by
  obtain ⟨hact, _⟩ := sizes_of_ordered mb hord (by omega)
  obtain ⟨mb1, hens, hrw, hroom, hlen1, hgrow, hsame, hreg⟩ :=
    ensure_free_space_keeps mb hord data.length hpos hfit
  obtain ⟨copied, hcopy, hclen, hcreg⟩ :=
    copy_in_appends mb1.buffer_ data mb1.rpos_ mb1.wpos_ hrw hroom
  have hw : (mb1.wpos_ + data.length) % SIZE_MODULUS = mb1.wpos_ + data.length :=
    Nat.mod_eq_of_lt (by omega)
  have hwrite : mb.write (some data) data.length =
      some (MessageBuffer.mk copied mb1.rpos_ (mb1.wpos_ + data.length)) := by
    unfold write
    simp only
    rw [if_neg (by omega), hens]
    simp only
    rw [hcopy]
    simp only
    unfold write_completed
    simp only [hw, hclen]
    rw [if_neg (by omega)]
  have hord2 : Ordered (MessageBuffer.mk copied mb1.rpos_ (mb1.wpos_ + data.length)) :=
    ⟨by show mb1.rpos_ ≤ mb1.wpos_ + data.length; omega, by show mb1.wpos_ + data.length ≤ copied.length; omega⟩
  obtain ⟨hact2, _⟩ := sizes_of_ordered _ hord2 (by show copied.length < SIZE_MODULUS; omega)
  refine ⟨_, hwrite, ?_, ?_, ?_, hord2⟩
  · unfold active
    rw [hact2, hact]
    show (copied.drop mb1.rpos_).take (mb1.wpos_ + data.length - mb1.rpos_) =
      (mb.buffer_.drop mb.rpos_).take (mb.wpos_ - mb.rpos_) ++ data
    rw [hcreg, hreg]
  · rw [hact2, hact]
    show mb1.wpos_ + data.length - mb1.rpos_ = mb.wpos_ - mb.rpos_ + data.length
    omega
  · show mb.buffer_.length ≤ copied.length
    omega

theorem write_appends_witness :
    ∃ mb1, partly_read.write (some (List.replicate 60 7)) (List.replicate 60 7).length =
        some mb1 ∧
      mb1.active = partly_read.active ++ List.replicate 60 7 ∧
      mb1.get_active_size = partly_read.get_active_size + (List.replicate 60 7).length ∧
      partly_read.buffer_.length ≤ mb1.buffer_.length ∧ mb1.Ordered :=
  write_appends partly_read (List.replicate 60 7) (by decide) (by decide) (by decide)

end MessageBuffer

namespace MessageBuffer

/-! ## Compaction -/

theorem normalize_compacts (mb : MessageBuffer) (hord : mb.Ordered)
    (hlen : mb.buffer_.length < SIZE_MODULUS)
    (hwork : mb.rpos_ = 0 ∨ mb.get_active_size ≠ 0) :
    ∃ mb1, mb.normalize = some mb1 ∧ mb1.rpos_ = 0 ∧ mb1.wpos_ = mb.get_active_size ∧
      mb1.active = mb.active ∧ mb1.get_active_size = mb.get_active_size := by
  obtain ⟨hact, _⟩ := sizes_of_ordered mb hord hlen
  obtain ⟨h1, h2⟩ := id hord
  unfold normalize
  by_cases hskip : mb.rpos_ = 0 ∨ mb.get_active_size = 0
  · rw [if_pos hskip]
    have hr : mb.rpos_ = 0 := by
      rcases hskip with h | h
      · exact h
      · rcases hwork with h0 | h0
        · exact h0
        · exact absurd h h0
    refine ⟨mb, rfl, hr, ?_, rfl, rfl⟩
    rw [hact, hr]
    rfl
  · rw [if_neg hskip, if_neg (by omega)]
    have hmove : move_to_front mb.buffer_ mb.rpos_ mb.get_active_size =
        some ((mb.buffer_.drop mb.rpos_).take (mb.wpos_ - mb.rpos_) ++
          mb.buffer_.drop (mb.wpos_ - mb.rpos_)) := by
      unfold move_to_front
      rw [hact, if_pos (by omega)]
    rw [hmove]
    have hw : (mb.wpos_ + SIZE_MODULUS - mb.rpos_) % SIZE_MODULUS = mb.wpos_ - mb.rpos_ := hact
    simp only [hw]
    have hfront : ((mb.buffer_.drop mb.rpos_).take (mb.wpos_ - mb.rpos_)).length =
        mb.wpos_ - mb.rpos_ := by
      rw [List.length_take, List.length_drop]
      omega
    have hsize : get_active_size (MessageBuffer.mk
        ((mb.buffer_.drop mb.rpos_).take (mb.wpos_ - mb.rpos_) ++
          mb.buffer_.drop (mb.wpos_ - mb.rpos_)) 0 (mb.wpos_ - mb.rpos_)) =
        mb.wpos_ - mb.rpos_ := by
      unfold get_active_size
      simp only [SIZE_MODULUS] at hlen ⊢
      omega
    refine ⟨_, rfl, rfl, hact.symm, ?_, by rw [hsize, hact]⟩
    unfold active
    rw [hsize, hact]
    simp only [List.drop_zero]
    rw [List.take_append_of_le_length (by omega), List.take_take, Nat.min_self]

/-- C31 fails in the code when every byte has been read: after five bytes were
written to a buffer of sixteen and all five read, both positions are 5 and
`normalize()` returns at its test of the active size, so the read position
stays 5 where the claim asks 0, and the write position stays 5 where the
active size is 0. The five bytes in front are not reclaimed: a request for
twelve free bytes enlarges the vector of sixteen unused bytes to 28. -/
theorem normalize_leaves_drained :
    ((create_sized 16).write (some [0, 1, 2, 3, 4]) 5).map (fun m => m.read_completed 5) =
      some drained ∧
    drained.Ordered ∧ drained.get_active_size = 0 ∧
    drained.normalize = some drained ∧ drained.rpos_ = 5 ∧ drained.wpos_ = 5 ∧
    (drained.ensure_free_space 12).map (fun m => m.buffer_.length) = some 28 := by
  decide

/-! ## The order of the positions -/

theorem read_completed_ordered (mb : MessageBuffer) (size : Nat) (hord : mb.Ordered)
    (hlen : mb.buffer_.length < SIZE_MODULUS) :
    (mb.read_completed size).Ordered ∧
    (size > mb.get_active_size → mb.read_completed size = mb) := by
  obtain ⟨hact, _⟩ := sizes_of_ordered mb hord hlen
  obtain ⟨h1, h2⟩ := id hord
  unfold read_completed
  by_cases hbig : size > mb.get_active_size
  · rw [if_pos hbig]
    exact ⟨hord, fun _ => rfl⟩
  · rw [if_neg hbig]
    refine ⟨?_, fun h => absurd h hbig⟩
    rw [hact] at hbig
    have hsum : (mb.rpos_ + size) % SIZE_MODULUS = mb.rpos_ + size :=
      Nat.mod_eq_of_lt (by omega)
    constructor
    · show (mb.rpos_ + size) % SIZE_MODULUS ≤ mb.wpos_
      omega
    · exact h2

theorem write_completed_ordered (mb : MessageBuffer) (size : Nat) (hord : mb.Ordered)
    (hsum : mb.wpos_ + size < SIZE_MODULUS) :
    (mb.write_completed size).Ordered ∧
    (mb.wpos_ + size > mb.buffer_.length → mb.write_completed size = mb) := by
  obtain ⟨h1, h2⟩ := id hord
  have hmod : (mb.wpos_ + size) % SIZE_MODULUS = mb.wpos_ + size := Nat.mod_eq_of_lt hsum
  unfold write_completed
  rw [hmod]
  by_cases hbig : mb.wpos_ + size > mb.buffer_.length
  · rw [if_pos hbig]
    exact ⟨hord, fun _ => rfl⟩
  · rw [if_neg hbig]
    refine ⟨⟨?_, ?_⟩, fun h => absurd h hbig⟩
    · show mb.rpos_ ≤ mb.wpos_ + size
      omega
    · show mb.wpos_ + size ≤ mb.buffer_.length
      omega

/-- C36 fails in the code for `write_completed`: the test
`wpos_ + size > buffer_.size()` adds in `size_t`, so for the buffer of sixteen
bytes with both positions at 5 and `size = 2 ^ 64 - 1` the sum wraps to 4, the
oversized call is not ignored, the write position becomes 4 and lies below the
read position. The constructed buffer and `read_completed` keep the order. -/
theorem write_completed_wraps :
    create.Ordered ∧ (create_sized 0).Ordered ∧ drained.Ordered ∧
    (drained.write_completed (2 ^ 64 - 1)).wpos_ = 4 ∧
    (drained.write_completed (2 ^ 64 - 1)).rpos_ = 5 ∧
    ¬ (drained.write_completed (2 ^ 64 - 1)).Ordered ∧
    drained.read_completed (2 ^ 64 - 1) = drained := by
  refine ⟨⟨Nat.le_refl _, Nat.zero_le _⟩, ⟨Nat.le_refl _, Nat.zero_le _⟩, ?_⟩
  decide

end MessageBuffer

namespace shared_ptr

/-! ## Counting the objects that share a counter -/

theorem countP_set_add {α : Type} (p : α → Bool) (l : List α) (i : Nat) (old new : α)
    (h : l[i]? = some old) :
    (l.set i new).countP p + (if p old then 1 else 0) =
      l.countP p + (if p new then 1 else 0) := by
  induction l generalizing i with
  | nil => simp at h
  | cons x xs ih =>
    cases i with
    | zero =>
      simp only [List.getElem?_cons_zero, Option.some.injEq] at h
      subst h
      simp only [List.set_cons_zero, List.countP_cons]
      omega
    | succ k =>
      simp only [List.getElem?_cons_succ] at h
      have := ih k h
      simp only [List.set_cons_succ, List.countP_cons]
      omega

theorem set_same {α : Type} (l : List α) (i : Nat) (x : α) (h : l[i]? = some x) :
    l.set i x = l := by
  induction l generalizing i with
  | nil => rfl
  | cons y ys ih =>
    cases i with
    | zero =>
      simp only [List.getElem?_cons_zero, Option.some.injEq] at h
      subst h
      rfl
    | succ k =>
      simp only [List.getElem?_cons_succ] at h
      simp only [List.set_cons_succ, ih k h]

theorem points_to_some (c : Nat) (sp : shared_ptr) :
    points_to c (some sp) = true ↔ sp.ref_count_ = some c := by
  simp [points_to]

theorem holds_some (p : Nat) (sp : shared_ptr) :
    holds p (some sp) = true ↔ sp.ptr_ = some p := by
  simp [holds]

theorem sharing_set (objects : List (Option shared_ptr)) (i c : Nat)
    (old new : Option shared_ptr) (h : objects[i]? = some old) :
    sharing (objects.set i new) c + (if points_to c old then 1 else 0) =
      sharing objects c + (if points_to c new then 1 else 0) :=
  countP_set_add (points_to c) objects i old new h

theorem holders_set (objects : List (Option shared_ptr)) (i p : Nat)
    (old new : Option shared_ptr) (h : objects[i]? = some old) :
    holders (objects.set i new) p + (if holds p old then 1 else 0) =
      holders objects p + (if holds p new then 1 else 0) :=
  countP_set_add (holds p) objects i old new h

theorem sharing_pos (objects : List (Option shared_ptr)) (sp : shared_ptr) (c : Nat)
    (hmem : some sp ∈ objects) (hc : sp.ref_count_ = some c) : 1 ≤ sharing objects c := by
  unfold sharing
  exact List.countP_pos_iff.mpr ⟨some sp, hmem, (points_to_some c sp).mpr hc⟩

theorem holders_pos (objects : List (Option shared_ptr)) (sp : shared_ptr) (p : Nat)
    (hmem : some sp ∈ objects) (hp : sp.ptr_ = some p) : 1 ≤ holders objects p := by
  unfold holders
  exact List.countP_pos_iff.mpr ⟨some sp, hmem, (holds_some p sp).mpr hp⟩

theorem holders_eq_sharing (h : Heap) (objects : List (Option shared_ptr))
    (hacc : Accounted h objects) (sp : shared_ptr) (p c : Nat) (hmem : some sp ∈ objects)
    (hp : sp.ptr_ = some p) (hc : sp.ref_count_ = some c) :
    holders objects p = sharing objects c := by
  unfold holders sharing
  apply List.countP_congr
  intro o ho
  cases o with
  | none => simp [holds, points_to]
  | some other =>
    rw [holds_some, points_to_some]
    have := hacc.matched sp other hmem ho (by rw [hc]; simp)
    rw [hc, hp] at this
    constructor
    · intro h1
      exact (this.mpr h1.symm).symm
    · intro h1
      exact (this.mp h1.symm).symm

theorem counter_in_range (counters : List (Option Nat)) (c n : Nat)
    (h : counters.getD c none = some n) : c < counters.length := by
  by_contra hge
  have : counters[c]? = none := List.getElem?_eq_none (by omega)
  simp [List.getD_eq_getElem?_getD, this] at h

theorem mem_set_cases (objects : List (Option shared_ptr)) (i : Nat)
    (new : Option shared_ptr) (sp : shared_ptr) (h : some sp ∈ objects.set i new) :
    some sp ∈ objects ∨ some sp = new :=
  List.mem_or_eq_of_mem_set h

theorem release_accounted (h : Heap) (objects : List (Option shared_ptr)) (i : Nat)
    (sp : shared_ptr) (hacc : Accounted h objects) (hi : objects[i]? = some (some sp)) :
    ∃ h1, release h sp = .ok h1 ∧ Accounted h1 (objects.set i (some null)) ∧
      h1.raw_pointers = h.raw_pointers := by
  have hmem : some sp ∈ objects := List.getElem?_mem hi
  cases hc : sp.ref_count_ with
  | none =>
    have hp : sp.ptr_ = none := (hacc.paired sp hmem).mpr hc
    have hnull : sp = null := by
      cases sp
      simp only [null] at hp hc ⊢
      simp only [hp, hc]
    subst hnull
    refine ⟨h, by simp [release, null], ?_, rfl⟩
    rw [set_same objects i (some null) hi]
    exact hacc
  | some c =>
    obtain ⟨p, hp⟩ : ∃ p, sp.ptr_ = some p := by
      cases hptr : sp.ptr_ with
      | none =>
        have := (hacc.paired sp hmem).mp hptr
        rw [hc] at this
        cases this
      | some p => exact ⟨p, rfl⟩
    have hcount := hacc.counted sp c hmem hc
    have hpos := sharing_pos objects sp c hmem hc
    have hrange := counter_in_range _ _ _ hcount
    have hHS := holders_eq_sharing h objects hacc sp p c hmem hp hc
    have hS : ∀ c1, sharing (objects.set i (some null)) c1 + (if c1 = c then 1 else 0) =
        sharing objects c1 := by
      intro c1
      have := sharing_set objects i c1 (some sp) (some null) hi
      simp only [points_to, hc, null] at this
      by_cases h1 : c1 = c
      · subst h1
        simpa using this
      · have hne : ¬ c = c1 := fun e => h1 e.symm
        simpa [h1, hne] using this
    have hH : ∀ p1, holders (objects.set i (some null)) p1 + (if p1 = p then 1 else 0) =
        holders objects p1 := by
      intro p1
      have := holders_set objects i p1 (some sp) (some null) hi
      simp only [holds, hp, null] at this
      by_cases h1 : p1 = p
      · subst h1
        simpa using this
      · have hne : ¬ p = p1 := fun e => h1 e.symm
        simpa [h1, hne] using this
    have hnotdel : p ∉ h.deleted := by
      intro hd
      have := ((hacc.deleted_iff p).mp hd).2
      omega
    have hpaired : ∀ x, some x ∈ objects.set i (some null) →
        (x.ptr_ = none ↔ x.ref_count_ = none) := by
      intro x hx
      rcases mem_set_cases objects i _ x hx with h1 | h1
      · exact hacc.paired x h1
      · cases h1
        simp [null]
    have hmatched : ∀ x y, some x ∈ objects.set i (some null) →
        some y ∈ objects.set i (some null) → x.ref_count_ ≠ none →
        (x.ref_count_ = y.ref_count_ ↔ x.ptr_ = y.ptr_) := by
      intro x y hx hy hxne
      rcases mem_set_cases objects i _ x hx with h1 | h1
      · rcases mem_set_cases objects i _ y hy with h2 | h2
        · exact hacc.matched x y h1 h2 hxne
        · cases h2
          have hxp : x.ptr_ ≠ none := fun e => hxne ((hacc.paired x h1).mp e)
          simp [null, hxne, hxp]
      · cases h1
        exact absurd rfl hxne
    have hknown : ∀ x q, some x ∈ objects.set i (some null) → x.ptr_ = some q →
        q ∈ h.raw_pointers := by
      intro x q hx hq
      rcases mem_set_cases objects i _ x hx with h1 | h1
      · exact hacc.known x q h1 hq
      · cases h1
        simp [null] at hq
    have hother : ∀ x c1, some x ∈ objects.set i (some null) → x.ref_count_ = some c1 →
        sharing objects c = 1 → c1 ≠ c := by
      intro x c1 hx hxc hone hcc
      subst hcc
      have := sharing_pos _ x c1 hx hxc
      have := hS c1
      simp at this
      omega
    by_cases hone : sharing objects c = 1
    · refine ⟨{ counters := (h.counters.set c (some (sharing objects c - 1))).set c none,
                deleted := h.deleted ++ [p], raw_pointers := h.raw_pointers }, ?_, ?_, rfl⟩
      · unfold release
        rw [hc]
        simp only
        rw [hcount]
        simp only
        rw [if_pos hone, hp]
        unfold delete_object
        simp only
        rw [if_neg hnotdel]
      · refine ⟨hpaired, hmatched, ?_, ?_, ?_, hknown⟩
        · intro x c1 hx hxc
          have hne := hother x c1 hx hxc hone
          have := hS c1
          rw [if_neg hne] at this
          rcases mem_set_cases objects i _ x hx with h1 | h1
          · show ((h.counters.set c (some (sharing objects c - 1))).set c none).getD c1 none = _
            rw [List.set_set, RingBuffer.getD_set_other _ _ _ _ hne, hacc.counted x c1 h1 hxc]
            congr 1
            omega
          · cases h1
            simp [null] at hxc
        · show (h.deleted ++ [p]).Nodup
          rw [List.nodup_append]
          refine ⟨hacc.deleted_once, List.nodup_singleton p, ?_⟩
          intro a ha hb
          rw [List.mem_singleton] at hb
          subst hb
          exact hnotdel ha
        · intro p1
          show p1 ∈ h.deleted ++ [p] ↔ _
          have := hH p1
          by_cases h1 : p1 = p
          · subst h1
            rw [if_pos rfl] at this
            constructor
            · intro _
              exact ⟨hacc.known sp p1 hmem hp, by omega⟩
            · intro _
              simp
          · rw [if_neg h1] at this
            rw [List.mem_append, List.mem_singleton]
            constructor
            · intro hd
              rcases hd with hd | hd
              · have := (hacc.deleted_iff p1).mp hd
                exact ⟨this.1, by omega⟩
              · exact absurd hd h1
            · intro hd
              exact Or.inl ((hacc.deleted_iff p1).mpr ⟨hd.1, by omega⟩)
    · refine ⟨{ h with counters := h.counters.set c (some (sharing objects c - 1)) }, ?_, ?_,
        rfl⟩
      · unfold release
        rw [hc]
        simp only
        rw [hcount]
        simp only
        rw [if_neg hone]
      · refine ⟨hpaired, hmatched, ?_, hacc.deleted_once, ?_, hknown⟩
        · intro x c1 hx hxc
          have := hS c1
          show (h.counters.set c (some (sharing objects c - 1))).getD c1 none = _
          by_cases h1 : c1 = c
          · subst h1
            rw [if_pos rfl] at this
            rw [RingBuffer.getD_set_same _ _ _ hrange]
            congr 1
            omega
          · rw [if_neg h1] at this
            rcases mem_set_cases objects i _ x hx with h2 | h2
            · rw [RingBuffer.getD_set_other _ _ _ _ h1, hacc.counted x c1 h2 hxc]
              congr 1
              omega
            · cases h2
              simp [null] at hxc
        · intro p1
          show p1 ∈ h.deleted ↔ _
          have := hH p1
          by_cases h1 : p1 = p
          · subst h1
            rw [if_pos rfl] at this
            constructor
            · intro hd
              exact absurd hd hnotdel
            · intro hd
              omega
          · rw [if_neg h1] at this
            rw [hacc.deleted_iff p1]
            constructor
            · intro hd
              exact ⟨hd.1, by omega⟩
            · intro hd
              exact ⟨hd.1, by omega⟩

theorem accounted_of_same_counts (h : Heap) (objects objects1 : List (Option shared_ptr))
    (hacc : Accounted h objects)
    (hmem : ∀ x, some x ∈ objects1 → some x ∈ objects ∨ x = null)
    (hS : ∀ c, sharing objects1 c = sharing objects c)
    (hH : ∀ p, holders objects1 p = holders objects p) : Accounted h objects1 := by
  refine ⟨?_, ?_, ?_, hacc.deleted_once, ?_, ?_⟩
  · intro x hx
    rcases hmem x hx with h1 | h1
    · exact hacc.paired x h1
    · subst h1
      simp [null]
  · intro x y hx hy hxne
    rcases hmem x hx with h1 | h1
    · rcases hmem y hy with h2 | h2
      · exact hacc.matched x y h1 h2 hxne
      · subst h2
        have hxp : x.ptr_ ≠ none := fun e => hxne ((hacc.paired x h1).mp e)
        simp [null, hxne, hxp]
    · subst h1
      exact absurd rfl hxne
  · intro x c hx hxc
    rcases hmem x hx with h1 | h1
    · rw [hS c]
      exact hacc.counted x c h1 hxc
    · subst h1
      simp [null] at hxc
  · intro p
    rw [hH p]
    exact hacc.deleted_iff p
  · intro x q hx hq
    rcases hmem x hx with h1 | h1
    · exact hacc.known x q h1 hq
    · subst h1
      simp [null] at hq

theorem append_null_accounted (h : Heap) (objects : List (Option shared_ptr))
    (hacc : Accounted h objects) : Accounted h (objects ++ [some null]) := by
  apply accounted_of_same_counts h objects _ hacc
  · intro x hx
    rcases List.mem_append.mp hx with h1 | h1
    · exact Or.inl h1
    · right
      simpa using h1
  · intro c
    simp [sharing, points_to, null]
  · intro p
    simp [holders, holds, null]

theorem kill_accounted (h : Heap) (objects : List (Option shared_ptr)) (i : Nat)
    (hacc : Accounted h objects) (hi : objects[i]? = some (some null)) :
    Accounted h (objects.set i none) := by
  apply accounted_of_same_counts h objects _ hacc
  · intro x hx
    rcases List.mem_or_eq_of_mem_set hx with h1 | h1
    · exact Or.inl h1
    · cases h1
  · intro c
    have := sharing_set objects i c (some null) none hi
    simpa [points_to, null] using this
  · intro p
    have := holders_set objects i p (some null) none hi
    simpa [holds, null] using this

theorem transfer_accounted (h : Heap) (objects : List (Option shared_ptr)) (i j : Nat)
    (sp : shared_ptr) (hacc : Accounted h objects) (hi : objects[i]? = some (some null))
    (hj : objects[j]? = some (some sp)) (hij : i ≠ j) :
    Accounted h ((objects.set i (some sp)).set j (some null)) := by
  have hj1 : (objects.set i (some sp))[j]? = some (some sp) := by
    rw [List.getElem?_set_ne hij]
    exact hj
  apply accounted_of_same_counts h objects _ hacc
  · intro x hx
    rcases List.mem_or_eq_of_mem_set hx with h1 | h1
    · rcases List.mem_or_eq_of_mem_set h1 with h2 | h2
      · exact Or.inl h2
      · cases h2
        exact Or.inl (List.getElem?_mem hj)
    · cases h1
      exact Or.inr rfl
  · intro c
    have h1 := sharing_set objects i c (some null) (some sp) hi
    have h2 := sharing_set (objects.set i (some sp)) j c (some sp) (some null) hj1
    have hn : points_to c (some null) = false := by simp [points_to, null]
    rw [hn] at h1 h2
    simp only [Bool.false_eq_true, if_false, Nat.add_zero] at h1 h2
    omega
  · intro p
    have h1 := holders_set objects i p (some null) (some sp) hi
    have h2 := holders_set (objects.set i (some sp)) j p (some sp) (some null) hj1
    have hn : holds p (some null) = false := by simp [holds, null]
    rw [hn] at h1 h2
    simp only [Bool.false_eq_true, if_false, Nat.add_zero] at h1 h2
    omega

theorem null_of_no_counter (h : Heap) (objects : List (Option shared_ptr))
    (hacc : Accounted h objects) (sp : shared_ptr) (hmem : some sp ∈ objects)
    (hc : sp.ref_count_ = none) : sp = null := by
  have hp : sp.ptr_ = none := (hacc.paired sp hmem).mpr hc
  cases sp
  simp only [null] at hp hc ⊢
  simp only [hp, hc]

theorem both_members (h : Heap) (objects : List (Option shared_ptr))
    (hacc : Accounted h objects) (sp : shared_ptr) (hmem : some sp ∈ objects) (c : Nat)
    (hc : sp.ref_count_ = some c) : ∃ p, sp.ptr_ = some p := by
  cases hptr : sp.ptr_ with
  | none =>
    have := (hacc.paired sp hmem).mp hptr
    rw [hc] at this
    cases this
  | some p => exact ⟨p, rfl⟩

theorem add_ref_accounted (h : Heap) (objects : List (Option shared_ptr)) (i : Nat)
    (sp : shared_ptr) (hacc : Accounted h objects) (hi : objects[i]? = some (some null))
    (hmem : some sp ∈ objects) :
    ∃ h1, add_ref h sp = .ok h1 ∧ Accounted h1 (objects.set i (some sp)) ∧
      h1.raw_pointers = h.raw_pointers := by
  cases hc : sp.ref_count_ with
  | none =>
    have hnull := null_of_no_counter h objects hacc sp hmem hc
    subst hnull
    refine ⟨h, by simp [add_ref, null], ?_, rfl⟩
    rw [set_same objects i (some null) hi]
    exact hacc
  | some c =>
    obtain ⟨p, hp⟩ := both_members h objects hacc sp hmem c hc
    have hcount := hacc.counted sp c hmem hc
    have hrange := counter_in_range _ _ _ hcount
    have hHpos := holders_pos objects sp p hmem hp
    have hS : ∀ c1, sharing (objects.set i (some sp)) c1 =
        sharing objects c1 + (if c1 = c then 1 else 0) := by
      intro c1
      have := sharing_set objects i c1 (some null) (some sp) hi
      simp only [points_to, hc, null] at this
      by_cases h1 : c1 = c
      · subst h1
        simpa using this
      · have hne : ¬ c = c1 := fun e => h1 e.symm
        simpa [h1, hne] using this
    have hH : ∀ p1, holders (objects.set i (some sp)) p1 =
        holders objects p1 + (if p1 = p then 1 else 0) := by
      intro p1
      have := holders_set objects i p1 (some null) (some sp) hi
      simp only [holds, hp, null] at this
      by_cases h1 : p1 = p
      · subst h1
        simpa using this
      · have hne : ¬ p = p1 := fun e => h1 e.symm
        simpa [h1, hne] using this
    have hin : ∀ x, some x ∈ objects.set i (some sp) → some x ∈ objects := by
      intro x hx
      rcases List.mem_or_eq_of_mem_set hx with h1 | h1
      · exact h1
      · cases h1
        exact hmem
    refine ⟨{ h with counters := h.counters.set c (some (sharing objects c + 1)) }, ?_, ?_, rfl⟩
    · unfold add_ref
      rw [hc]
      simp only
      rw [hcount]
    · refine ⟨fun x hx => hacc.paired x (hin x hx),
        fun x y hx hy => hacc.matched x y (hin x hx) (hin y hy), ?_, hacc.deleted_once, ?_,
        fun x q hx => hacc.known x q (hin x hx)⟩
      · intro x c1 hx hxc
        show (h.counters.set c (some (sharing objects c + 1))).getD c1 none = _
        rw [hS c1]
        by_cases h1 : c1 = c
        · subst h1
          rw [RingBuffer.getD_set_same _ _ _ hrange, if_pos rfl]
        · rw [RingBuffer.getD_set_other _ _ _ _ h1, if_neg h1,
            hacc.counted x c1 (hin x hx) hxc]
          rfl
      · intro p1
        show p1 ∈ h.deleted ↔ _
        rw [hH p1, hacc.deleted_iff p1]
        by_cases h1 : p1 = p
        · subst h1
          rw [if_pos rfl]
          constructor
          · intro hd
            omega
          · intro hd
            omega
        · rw [if_neg h1]
          rfl

theorem sharing_zero_of_fresh (h : Heap) (objects : List (Option shared_ptr))
    (hacc : Accounted h objects) : sharing objects h.counters.length = 0 := by
  unfold sharing
  rw [List.countP_eq_zero]
  intro o ho hpt
  cases o with
  | none => simp [points_to] at hpt
  | some x =>
    have hxc := (points_to_some _ x).mp hpt
    have := counter_in_range _ _ _ (hacc.counted x _ ho hxc)
    omega

theorem holders_zero_of_fresh (h : Heap) (objects : List (Option shared_ptr))
    (hacc : Accounted h objects) (p : Nat) (hp : p ∉ h.raw_pointers) :
    holders objects p = 0 := by
  unfold holders
  rw [List.countP_eq_zero]
  intro o ho hpt
  cases o with
  | none => simp [holds] at hpt
  | some x => exact hp (hacc.known x p ho ((holds_some p x).mp hpt))

theorem fresh_accounted (h : Heap) (objects : List (Option shared_ptr)) (i p : Nat)
    (hacc : Accounted h objects) (hi : objects[i]? = some (some null))
    (hp : p ∉ h.raw_pointers) :
    Accounted
      { counters := h.counters ++ [some 1], deleted := h.deleted,
        raw_pointers := p :: h.raw_pointers }
      (objects.set i (some { ptr_ := some p, ref_count_ := some h.counters.length })) := by
  have hS0 := sharing_zero_of_fresh h objects hacc
  have hH0 := holders_zero_of_fresh h objects hacc p hp
  have hS : ∀ c1, sharing (objects.set i
      (some { ptr_ := some p, ref_count_ := some h.counters.length })) c1 =
      sharing objects c1 + (if c1 = h.counters.length then 1 else 0) := by
    intro c1
    have := sharing_set objects i c1 (some null)
      (some { ptr_ := some p, ref_count_ := some h.counters.length }) hi
    simp only [points_to, null] at this
    by_cases h1 : c1 = h.counters.length
    · subst h1
      simpa using this
    · have hne : ¬ h.counters.length = c1 := fun e => h1 e.symm
      simpa [h1, hne] using this
  have hH : ∀ p1, holders (objects.set i
      (some { ptr_ := some p, ref_count_ := some h.counters.length })) p1 =
      holders objects p1 + (if p1 = p then 1 else 0) := by
    intro p1
    have := holders_set objects i p1 (some null)
      (some { ptr_ := some p, ref_count_ := some h.counters.length }) hi
    simp only [holds, null] at this
    by_cases h1 : p1 = p
    · subst h1
      simpa using this
    · have hne : ¬ p = p1 := fun e => h1 e.symm
      simpa [h1, hne] using this
  have hcases : ∀ x, some x ∈ objects.set i
      (some { ptr_ := some p, ref_count_ := some h.counters.length }) →
      some x ∈ objects ∨ x = { ptr_ := some p, ref_count_ := some h.counters.length } := by
    intro x hx
    rcases List.mem_or_eq_of_mem_set hx with h1 | h1
    · exact Or.inl h1
    · right
      simpa using h1
  have hold_ref : ∀ x, some x ∈ objects → x.ref_count_ ≠ some h.counters.length := by
    intro x hx hxc
    have := counter_in_range _ _ _ (hacc.counted x _ hx hxc)
    omega
  have hold_ptr : ∀ x, some x ∈ objects → x.ptr_ ≠ some p :=
    fun x hx hxp => hp (hacc.known x p hx hxp)
  refine ⟨?_, ?_, ?_, hacc.deleted_once, ?_, ?_⟩
  · intro x hx
    rcases hcases x hx with h1 | h1
    · exact hacc.paired x h1
    · subst h1
      simp
  · intro x y hx hy hxne
    rcases hcases x hx with h1 | h1
    · rcases hcases y hy with h2 | h2
      · exact hacc.matched x y h1 h2 hxne
      · subst h2
        constructor
        · intro e
          exact absurd e (hold_ref x h1)
        · intro e
          exact absurd e (hold_ptr x h1)
    · subst h1
      rcases hcases y hy with h2 | h2
      · constructor
        · intro e
          exact absurd e.symm (hold_ref y h2)
        · intro e
          exact absurd e.symm (hold_ptr y h2)
      · subst h2
        simp
  · intro x c1 hx hxc
    show (h.counters ++ [some 1]).getD c1 none = _
    rw [hS c1]
    rcases hcases x hx with h1 | h1
    · have hcount := hacc.counted x c1 h1 hxc
      have hlt := counter_in_range _ _ _ hcount
      rw [if_neg (by omega)]
      rw [List.getD_eq_getElem?_getD] at hcount ⊢
      rw [List.getElem?_append_left hlt]
      exact hcount
    · subst h1
      simp only [Option.some.injEq] at hxc
      subst hxc
      rw [if_pos rfl, hS0]
      simp [List.getD_eq_getElem?_getD]
  · intro p1
    show p1 ∈ h.deleted ↔ p1 ∈ p :: h.raw_pointers ∧ _
    rw [hH p1, hacc.deleted_iff p1]
    by_cases h1 : p1 = p
    · subst h1
      rw [if_pos rfl]
      constructor
      · intro hd
        exact absurd hd.1 hp
      · intro hd
        omega
    · rw [if_neg h1, List.mem_cons]
      constructor
      · intro hd
        exact ⟨Or.inr hd.1, hd.2⟩
      · intro hd
        exact ⟨hd.1.resolve_left h1, hd.2⟩
  · intro x q hx hq
    show q ∈ p :: h.raw_pointers
    rcases hcases x hx with h1 | h1
    · exact List.mem_cons_of_mem _ (hacc.known x q h1 hq)
    · subst h1
      simp only [Option.some.injEq] at hq
      subst hq
      exact List.mem_cons_self _ _

/-! ## The statements of a program keep the account -/

theorem object_some (m : Program) (i : Nat) (sp : shared_ptr) (h : m.object i = some sp) :
    m.objects[i]? = some (some sp) := by
  unfold Program.object at h
  rw [List.getD_eq_getElem?_getD] at h
  cases hget : m.objects[i]? with
  | none => rw [hget] at h; simp at h
  | some o =>
    rw [hget] at h
    simp only [Option.getD_some] at h
    rw [h]

theorem append_last (objects : List (Option shared_ptr)) (a : Option shared_ptr) :
    (objects ++ [a])[objects.length]? = some a := by
  simp

theorem set_last (objects : List (Option shared_ptr)) (a b : Option shared_ptr) :
    (objects ++ [a]).set objects.length b = objects ++ [b] := by
  simp

theorem construct_accounted (m : Program) (ptr : Option Nat)
    (hacc : Accounted m.heap m.objects) :
    construct m ptr = .error Fault.misuse ∨
      ∃ m1, construct m ptr = .ok m1 ∧ Accounted m1.heap m1.objects := by
  cases ptr with
  | none => exact Or.inr ⟨_, rfl, append_null_accounted _ _ hacc⟩
  | some p =>
    unfold construct
    simp only
    by_cases hp : p ∈ m.heap.raw_pointers
    · rw [if_pos hp]
      exact Or.inl rfl
    · rw [if_neg hp]
      refine Or.inr ⟨_, rfl, ?_⟩
      have := fresh_accounted m.heap (m.objects ++ [some null]) m.objects.length p
        (append_null_accounted _ _ hacc) (append_last _ _) hp
      rw [set_last] at this
      exact this

theorem copy_construct_accounted (m : Program) (src : Nat)
    (hacc : Accounted m.heap m.objects) :
    copy_construct m src = .error Fault.misuse ∨
      ∃ m1, copy_construct m src = .ok m1 ∧ Accounted m1.heap m1.objects := by
  unfold copy_construct
  cases hsrc : m.object src with
  | none => exact Or.inl rfl
  | some other =>
    have hget := object_some m src other hsrc
    obtain ⟨h1, hadd, hacc1, _⟩ := add_ref_accounted m.heap (m.objects ++ [some null])
      m.objects.length other (append_null_accounted _ _ hacc) (append_last _ _)
      (List.mem_append_left _ (List.getElem?_mem hget))
    rw [set_last] at hacc1
    simp only
    rw [hadd]
    exact Or.inr ⟨_, rfl, hacc1⟩

theorem copy_assign_accounted (m : Program) (dst src : Nat)
    (hacc : Accounted m.heap m.objects) :
    copy_assign m dst src = .error Fault.misuse ∨
      ∃ m1, copy_assign m dst src = .ok m1 ∧ Accounted m1.heap m1.objects := by
  unfold copy_assign
  cases hdst : m.object dst with
  | none => exact Or.inl rfl
  | some this =>
    cases hsrc : m.object src with
    | none => exact Or.inl rfl
    | some other =>
      simp only
      by_cases hne : dst ≠ src
      · rw [if_pos hne]
        have hgd := object_some m dst this hdst
        have hgs := object_some m src other hsrc
        obtain ⟨h1, hrel, hacc1, _⟩ := release_accounted m.heap m.objects dst this hacc hgd
        have hlt : dst < m.objects.length := by
          by_contra hge
          rw [List.getElem?_eq_none (by omega)] at hgd
          cases hgd
        have hd1 : (m.objects.set dst (some null))[dst]? = some (some null) := by
          rw [List.getElem?_set_eq_of_lt _ hlt]
        have hs1 : some other ∈ m.objects.set dst (some null) := by
          apply List.getElem?_mem
          rw [List.getElem?_set_ne hne]
          exact hgs
        obtain ⟨h2, hadd, hacc2, _⟩ := add_ref_accounted h1 _ dst other hacc1 hd1 hs1
        rw [List.set_set] at hacc2
        rw [hrel]
        simp only
        rw [hadd]
        exact Or.inr ⟨_, rfl, hacc2⟩
      · rw [if_neg hne]
        exact Or.inr ⟨m, rfl, hacc⟩

theorem move_construct_accounted (m : Program) (src : Nat)
    (hacc : Accounted m.heap m.objects) :
    move_construct m src = .error Fault.misuse ∨
      ∃ m1, move_construct m src = .ok m1 ∧ Accounted m1.heap m1.objects := by
  unfold move_construct
  cases hsrc : m.object src with
  | none => exact Or.inl rfl
  | some other =>
    have hget := object_some m src other hsrc
    have hlt : src < m.objects.length := by
      by_contra hge
      rw [List.getElem?_eq_none (by omega)] at hget
      cases hget
    have := transfer_accounted m.heap (m.objects ++ [some null]) m.objects.length src other
      (append_null_accounted _ _ hacc) (append_last _ _)
      (by rw [List.getElem?_append_left hlt]; exact hget) (by omega)
    rw [set_last] at this
    exact Or.inr ⟨_, rfl, this⟩

theorem move_assign_accounted (m : Program) (dst src : Nat)
    (hacc : Accounted m.heap m.objects) :
    move_assign m dst src = .error Fault.misuse ∨
      ∃ m1, move_assign m dst src = .ok m1 ∧ Accounted m1.heap m1.objects := by
  unfold move_assign
  cases hdst : m.object dst with
  | none => exact Or.inl rfl
  | some this =>
    cases hsrc : m.object src with
    | none => exact Or.inl rfl
    | some other =>
      simp only
      by_cases hne : dst ≠ src
      · rw [if_pos hne]
        have hgd := object_some m dst this hdst
        have hgs := object_some m src other hsrc
        obtain ⟨h1, hrel, hacc1, _⟩ := release_accounted m.heap m.objects dst this hacc hgd
        have hlt : dst < m.objects.length := by
          by_contra hge
          rw [List.getElem?_eq_none (by omega)] at hgd
          cases hgd
        have hd1 : (m.objects.set dst (some null))[dst]? = some (some null) := by
          rw [List.getElem?_set_eq_of_lt _ hlt]
        have hs1 : (m.objects.set dst (some null))[src]? = some (some other) := by
          rw [List.getElem?_set_ne hne]
          exact hgs
        have := transfer_accounted h1 _ dst src other hacc1 hd1 hs1 hne
        rw [List.set_set] at this
        rw [hrel]
        exact Or.inr ⟨_, rfl, this⟩
      · rw [if_neg hne]
        exact Or.inr ⟨m, rfl, hacc⟩

theorem reset_accounted (m : Program) (dst : Nat) (hacc : Accounted m.heap m.objects) :
    reset m dst none = .error Fault.misuse ∨
      ∃ m1, reset m dst none = .ok m1 ∧ Accounted m1.heap m1.objects := by
  unfold reset
  cases hdst : m.object dst with
  | none => exact Or.inl rfl
  | some this =>
    simp only
    by_cases hne : this.ptr_ ≠ none
    · rw [if_pos hne]
      obtain ⟨h1, hrel, hacc1, _⟩ :=
        release_accounted m.heap m.objects dst this hacc (object_some m dst this hdst)
      rw [hrel]
      exact Or.inr ⟨_, rfl, hacc1⟩
    · rw [if_neg hne]
      exact Or.inr ⟨m, rfl, hacc⟩

theorem destroy_accounted (m : Program) (dst : Nat) (hacc : Accounted m.heap m.objects) :
    destroy m dst = .error Fault.misuse ∨
      ∃ m1, destroy m dst = .ok m1 ∧ Accounted m1.heap m1.objects := by
  unfold destroy
  cases hdst : m.object dst with
  | none => exact Or.inl rfl
  | some this =>
    have hgd := object_some m dst this hdst
    obtain ⟨h1, hrel, hacc1, _⟩ := release_accounted m.heap m.objects dst this hacc hgd
    have hlt : dst < m.objects.length := by
      by_contra hge
      rw [List.getElem?_eq_none (by omega)] at hgd
      cases hgd
    have := kill_accounted h1 _ dst hacc1 (by rw [List.getElem?_set_eq_of_lt _ hlt])
    rw [List.set_set] at this
    simp only
    rw [hrel]
    exact Or.inr ⟨_, rfl, this⟩

theorem step_accounted (m : Program) (c : Command) (hacc : Accounted m.heap m.objects) :
    step m c = .error Fault.misuse ∨
      ∃ m1, step m c = .ok m1 ∧ Accounted m1.heap m1.objects := by
  cases c with
  | construct raw => exact construct_accounted m (some raw) hacc
  | construct_empty => exact construct_accounted m none hacc
  | copy_construct src => exact copy_construct_accounted m src hacc
  | copy_assign dst src => exact copy_assign_accounted m dst src hacc
  | move_construct src => exact move_construct_accounted m src hacc
  | move_assign dst src => exact move_assign_accounted m dst src hacc
  | reset dst => exact reset_accounted m dst hacc
  | destroy dst => exact destroy_accounted m dst hacc

theorem run_accounted (cs : List Command) :
    ∀ m : Program, Accounted m.heap m.objects →
      run m cs = .error Fault.misuse ∨
        ∃ m1, run m cs = .ok m1 ∧ Accounted m1.heap m1.objects := by
  induction cs with
  | nil => intro m hacc; exact Or.inr ⟨m, rfl, hacc⟩
  | cons c cs ih =>
    intro m hacc
    unfold run
    rcases step_accounted m c hacc with h1 | ⟨m1, h1, hacc1⟩
    · rw [h1]
      exact Or.inl rfl
    · rw [h1]
      exact ih m1 hacc1

theorem start_accounted : Accounted start.heap start.objects := by
  refine ⟨?_, ?_, ?_, List.nodup_nil, ?_, ?_⟩ <;> simp [start, holders]

/-- C32: in single-threaded use, for every program of constructions from raw
pointers not handed over before, default constructions, copy and move
constructions, copy and move assignments (an object to itself included),
calls of `reset()` and destructions, all on live objects: the program runs
without touching a deleted counter and without a second deletion, and
afterwards `use_count()` of a live `shared_ptr` with a counter is the number
of live objects that share the counter, which are the objects that manage the
same raw pointer, `use_count()` of an empty one is 0, no object is deleted
twice, and a raw pointer handed over has been deleted exactly when no live
object manages it. A program that names a dead object or hands a raw pointer
over twice is the only one that does not run to its end. -/
theorem use_count_counts_sharers (cs : List Command) :
    run start cs = .error Fault.misuse ∨
    ∃ m, run start cs = .ok m ∧
      (∀ sp, some sp ∈ m.objects →
        (sp.ref_count_ = none → sp.ptr_ = none ∧ use_count m.heap sp = .ok 0) ∧
        (∀ c, sp.ref_count_ = some c →
          use_count m.heap sp = .ok (sharing m.objects c) ∧ 1 ≤ sharing m.objects c ∧
          ∃ p, sp.ptr_ = some p ∧ holders m.objects p = sharing m.objects c ∧
            p ∉ m.heap.deleted)) ∧
      m.heap.deleted.Nodup ∧
      ∀ p ∈ m.heap.raw_pointers, (p ∈ m.heap.deleted ↔ holders m.objects p = 0) := by
  rcases run_accounted cs start start_accounted with h | ⟨m, hrun, hacc⟩
  · exact Or.inl h
  · refine Or.inr ⟨m, hrun, ?_, hacc.deleted_once, ?_⟩
    · intro sp hmem
      constructor
      · intro hc
        refine ⟨(hacc.paired sp hmem).mpr hc, ?_⟩
        unfold use_count
        rw [hc]
      · intro c hc
        obtain ⟨p, hp⟩ := both_members _ _ hacc sp hmem c hc
        have hpos := sharing_pos m.objects sp c hmem hc
        have hHS := holders_eq_sharing _ _ hacc sp p c hmem hp hc
        refine ⟨?_, hpos, p, hp, hHS, ?_⟩
        · unfold use_count
          rw [hc]
          simp only
          rw [hacc.counted sp c hmem hc]
        · intro hd
          have := ((hacc.deleted_iff p).mp hd).2
          omega
    · intro p hp
      rw [hacc.deleted_iff p]
      exact ⟨fun h => h.2, fun h => ⟨hp, h⟩⟩

theorem basic_program_runs :
    run start (basic_program.take 5) = .ok
      { heap := { counters := [some 3], deleted := [], raw_pointers := [42] }
        objects := [some null, some { ptr_ := some 42, ref_count_ := some 0 },
          some { ptr_ := some 42, ref_count_ := some 0 },
          some { ptr_ := some 42, ref_count_ := some 0 }] } ∧
    run start (basic_program.take 6) = .ok
      { heap := { counters := [some 2], deleted := [], raw_pointers := [42] }
        objects := [some null, some { ptr_ := some 42, ref_count_ := some 0 },
          some { ptr_ := some 42, ref_count_ := some 0 }, some null] } ∧
    run start basic_program = .ok
      { heap := { counters := [none, none], deleted := [5, 42], raw_pointers := [5, 42] }
        objects := [none, none, none, none, none] } := by
  decide

end shared_ptr

namespace Timer

/-! ## The wait until the earliest deadline -/

theorem to_int_small (x : Nat) (h : x < 2 ^ 31) : to_int x = (x : Int) := by
  unfold to_int
  have hmod : x % 2 ^ 32 = x := Nat.mod_eq_of_lt (by omega)
  rw [hmod, if_pos h]

theorem wait_time_empty (now : Nat) : wait_time { timer_map_ := [] } now = -1 := rfl

theorem wait_time_pending (first : Nat × Nat) (rest : List (Nat × Nat)) (now : Nat)
    (hnow : now ≤ first.1)
    (hnear : first.1 - now < 2 ^ 31) :
    wait_time { timer_map_ := first :: rest } now = ((first.1 - now : Nat) : Int) := by
  have hdiff : (first.1 + UINT64_MODULUS - now) % UINT64_MODULUS = first.1 - now := by
    simp only [UINT64_MODULUS]
    omega
  unfold wait_time
  simp only [hdiff]
  by_cases hpos : first.1 - now > 0
  · rw [if_pos hpos, to_int_small _ hnear]
  · rw [if_neg hpos]
    have : first.1 - now = 0 := by omega
    rw [this]
    rfl

/-- C37 fails in the code for an expired timer: the difference
`iter->first - get_current_time()` is taken in `uint64_t`, so for the deadline
1000 (set by `add_timeout(1000, ...)` at time 0) and the current time 1001 it
wraps to `2 ^ 64 - 1`, the test `diff > 0` holds, and the conversion to `int`
gives -1, the value that stands for no pending timer, where the claim asks 0.
At the time 999 the result is 1, at the time 1000 it is 0. -/
theorem wait_time_expired :
    (add_timeout { timer_map_ := [] } 0 1000 1).2 = { timer_map_ := [(1000, 1)] } ∧
    wait_time { timer_map_ := [(1000, 1)] } 1001 = -1 ∧
    wait_time { timer_map_ := [(1000, 1)] } 999 = 1 ∧
    wait_time { timer_map_ := [(1000, 1)] } 1000 = 0 ∧
    wait_time { timer_map_ := [] } 1001 = -1 := by
  decide

end Timer
